import Mathlib

/-!
Verification development for a file-management system consisting of a
red-black tree index (`rbt.py`), a B+ tree index (`bpt.py`) and a Huffman
codec (`huffman.py`).

The Python code is imperative, with parent pointers used to walk back up
the trees during rebalancing/splitting.  The embedding below represents a
position in a tree by the subtree in focus plus the list of ancestor
contexts (innermost first); mutation through parent pointers becomes
reconstruction through that context list.  Machine-level details that the
claims do not touch (logging) are dropped; operations that can only fail by
raising an exception that the public operation catches are modelled with
`Option`, `none` standing for the caught exception.
-/

set_option maxHeartbeats 1000000

namespace FileIndex

/-! ## Sorted association-list model

Both indexes implement a mapping from keys to values; their common
abstract model is a strictly-sorted association list, with `upsert` the
insert-or-overwrite operation and `lookupA` first-match lookup. -/

/-- Insert `(key, v)` into a sorted association list, overwriting the value
if the key is present. -/
def upsert {K V : Type} [LinearOrder K] (key : K) (v : V) :
    List (K × V) → List (K × V)
  | [] => [(key, v)]
  | (a, b) :: t =>
      if key < a then (key, v) :: (a, b) :: t
      else if key = a then (key, v) :: t
      else (a, b) :: upsert key v t

/-- First-match association lookup. -/
def lookupA {K V : Type} [DecidableEq K] : List (K × V) → K → Option V
  | [], _ => none
  | (a, b) :: t, key => if key = a then some b else lookupA t key

/-- Value of the most recent insert of `key` in an operation sequence. -/
def mostRecent {K V : Type} [DecidableEq K] (ops : List (K × V)) (key : K) :
    Option V :=
  ops.foldl (fun acc p => if p.1 = key then some p.2 else acc) none

/-- Strictly ascending keys. -/
def sortedE {K V : Type} [LinearOrder K] (l : List (K × V)) : Prop :=
  l.Pairwise (fun p q => p.1 < q.1)

/-- The association list obtained by upserting an operation sequence into
the empty list: the common abstract state of both indexes. -/
def upsertFold {K V : Type} [LinearOrder K] (ops : List (K × V)) :
    List (K × V) :=
  ops.foldl (fun l p => upsert p.1 p.2 l) []

/-! ## Red-black tree (`rbt.py`)

`RBNode` has `key, value, color, parent, left, right`; the shared
`NULL_LEAF` sentinel (black, no key/value) is represented by the `nil`
constructor.  Parent pointers are represented by the context list of a
zipper: a `Frame` records everything of an ancestor node except the child
in focus (`dir` says which child the focus is). -/

inductive Color where
  | red : Color
  | black : Color
deriving DecidableEq, Repr

inductive RBTree (K V : Type) where
  | nil : RBTree K V
  | node (c : Color) (k : K) (v : V) (l r : RBTree K V) : RBTree K V
deriving DecidableEq, Repr

inductive Dir where
  | left : Dir
  | right : Dir
deriving DecidableEq, Repr

structure Frame (K V : Type) where
  dir : Dir
  color : Color
  key : K
  val : V
  sibling : RBTree K V
deriving DecidableEq, Repr

namespace RBT

variable {K V : Type}

/-- Rebuild one ancestor node around the focused subtree. -/
def applyFrame (f : Frame K V) (t : RBTree K V) : RBTree K V :=
  match f.dir with
  | .left => .node f.color f.key f.val t f.sibling
  | .right => .node f.color f.key f.val f.sibling t

/-- Rebuild the whole tree from the focus and its ancestor contexts
(innermost ancestor first). -/
def fill (t : RBTree K V) (fs : List (Frame K V)) : RBTree K V :=
  fs.foldl (fun s f => applyFrame f s) t

/-- `self.root.color = 'black'` (line 122); on the empty tree this writes
`black` over the already-black `NULL_LEAF`. -/
def forceBlack : RBTree K V → RBTree K V
  | .nil => .nil
  | .node _ k v l r => .node .black k v l r

/-- Color test used by `_fix_insert`: `uncle and uncle.color == 'red'`.
The sentinel is black, so this is just redness of the root. -/
def rootRed : RBTree K V → Bool
  | .node .red _ _ _ _ => true
  | _ => false

/-- `RedBlackTree._fix_insert` (lines 93-122).  The loop walks up through
parent pointers; here the focus is the node `k` (always a real node) and
the frame list is the ancestor path.  Case 1 (red uncle) recolors and
continues two levels up; the rotation cases restructure and terminate.
If the parent is red but there is no grandparent frame, the source would
fault on `gp.left` before mutating anything and the `insert` boundary
handler (lines 45-46) would leave the tree as currently linked, so that
branch returns the filled tree without forcing the root black. -/
def fixInsert : RBTree K V → List (Frame K V) → RBTree K V
  | t, [] => forceBlack (fill t [])
  | t, [fp] =>
      if fp.color = .red then fill t [fp] else forceBlack (fill t [fp])
  | t, fp :: fg :: rest =>
      if fp.color = .red then
        match fg.dir with
        | .left =>
            -- parent is gp.left, uncle is gp.right (= fg.sibling)
            if rootRed fg.sibling then
              fixInsert
                (.node .red fg.key fg.val
                  (applyFrame { fp with color := .black } t)
                  (forceBlack fg.sibling))
                rest
            else
              -- optional inner rotation `_rotate_left(k.parent)` when k is
              -- its parent's right child, then recolor and `_rotate_right(gp)`
              let p : RBTree K V × Frame K V :=
                match fp.dir with
                | .right =>
                    match t with
                    | .node tc tk tv tl tr =>
                        (.node fp.color fp.key fp.val fp.sibling tl,
                         ⟨.left, tc, tk, tv, tr⟩)
                    | .nil => (t, fp)   -- focus is never the sentinel
                | .left => (t, fp)
              forceBlack (fill
                (match p.2.dir with
                 | .left =>
                     .node .black p.2.key p.2.val p.1
                       (.node .red fg.key fg.val p.2.sibling fg.sibling)
                 | .right =>
                     .node .black p.2.key p.2.val p.2.sibling
                       (.node .red fg.key fg.val p.1 fg.sibling))
                rest)
        | .right =>
            -- parent is gp.right, uncle is gp.left (= fg.sibling)
            if rootRed fg.sibling then
              fixInsert
                (.node .red fg.key fg.val
                  (forceBlack fg.sibling)
                  (applyFrame { fp with color := .black } t))
                rest
            else
              -- optional inner rotation `_rotate_right(k.parent)` when k is
              -- its parent's left child, then recolor and `_rotate_left(gp)`
              let p : RBTree K V × Frame K V :=
                match fp.dir with
                | .left =>
                    match t with
                    | .node tc tk tv tl tr =>
                        (.node fp.color fp.key fp.val tr fp.sibling,
                         ⟨.right, tc, tk, tv, tl⟩)
                    | .nil => (t, fp)   -- focus is never the sentinel
                | .right => (t, fp)
              forceBlack (fill
                (match p.2.dir with
                 | .right =>
                     .node .black p.2.key p.2.val
                       (.node .red fg.key fg.val fg.sibling p.2.sibling) p.1
                 | .left =>
                     .node .black p.2.key p.2.val
                       (.node .red fg.key fg.val fg.sibling p.1) p.2.sibling)
                rest)
      else forceBlack (fill t (fp :: fg :: rest))

variable [LinearOrder K]

/-- Descent loop of `RedBlackTree.insert` (lines 20-46): walk down by
comparison recording the ancestor path; on an equal key overwrite the
value in place and return (no fix-up, lines 32-35); on reaching the
sentinel attach a fresh red node and run the fix-up. -/
def insertGo (key : K) (v : V) : RBTree K V → List (Frame K V) → RBTree K V
  | .nil, fs => fixInsert (.node .red key v .nil .nil) fs
  | .node c k v0 l r, fs =>
      if key < k then insertGo key v l (⟨.left, c, k, v0, r⟩ :: fs)
      else if k < key then insertGo key v r (⟨.right, c, k, v0, l⟩ :: fs)
      else fill (.node c k v l r) fs

/-- `RedBlackTree.insert(key, value)`. -/
def insert (t : RBTree K V) (key : K) (v : V) : RBTree K V :=
  insertGo key v t []

/-- `RedBlackTree.search(key)` (lines 48-60). -/
def search : RBTree K V → K → Option V
  | .nil, _ => none
  | .node _ k v l r, key =>
      if key = k then some v
      else if key < k then search l key else search r key

/-- In-order entry sequence of the tree. -/
def inorder : RBTree K V → List (K × V)
  | .nil => []
  | .node _ k v l r => inorder l ++ (k, v) :: inorder r

/-- Number of real (non-sentinel) nodes. -/
def nodeCount : RBTree K V → Nat
  | .nil => 0
  | .node _ _ _ l r => nodeCount l + nodeCount r + 1

/-- The tree obtained by a sequence of `insert` calls on a fresh
`RedBlackTree()` (root = sentinel). -/
def ofOps (ops : List (K × V)) : RBTree K V :=
  ops.foldl (fun t p => insert t p.1 p.2) .nil

/-- Overwrite the value stored at `key` (if the descent finds it),
changing nothing else. -/
def setVal : RBTree K V → K → V → RBTree K V
  | .nil, _, _ => .nil
  | .node c k v0 l r, key, v =>
      if key < k then .node c k v0 (setVal l key v) r
      else if k < key then .node c k v0 l (setVal r key v)
      else .node c k v l r

end RBT

namespace RBT

variable {K V : Type}

/-! Red-black invariants. -/

def isRed : Color → Bool
  | .red => true
  | .black => false

/-- Black contribution of a node of the given color. -/
def colorBH : Color → Nat
  | .red => 0
  | .black => 1

/-- Black height: `some n` if every root-to-sentinel path passes through
`n` black nodes (the sentinel included), `none` if paths disagree. -/
def bh : RBTree K V → Option Nat
  | .nil => some 1
  | .node c _ _ l r =>
      match bh l, bh r with
      | some a, some b => if a = b then some (a + colorBH c) else none
      | _, _ => none

/-- `redOK pc t`: inside `t` no red node has a red parent, where `pc` is
the color of `t`'s parent. -/
def redOK : Color → RBTree K V → Bool
  | _, .nil => true
  | pc, .node c _ _ l r => (!(isRed pc && isRed c)) && redOK c l && redOK c r

def isBlackRoot : RBTree K V → Bool
  | .nil => true
  | .node c _ _ _ _ => !(isRed c)

/-- Number of black nodes on each downward path from the root to the
terminal marker (one entry per path, the terminal itself counted). -/
def blackCounts : RBTree K V → List Nat
  | .nil => [1]
  | .node c _ _ l r =>
      (blackCounts l ++ blackCounts r).map (fun m => m + colorBH c)

/-- The red-black invariants of the claim: black root, no red node with a
red parent, and a consistent black height. -/
def RBInv (t : RBTree K V) : Prop :=
  isBlackRoot t = true ∧ redOK .black t = true ∧ (bh t).isSome = true

/-- For a red ancestor frame the next frame up must exist and be black. -/
def headBlack : List (Frame K V) → Prop
  | [] => False
  | f :: _ => f.color = .black

/-- Validity of an ancestor path whose hole expects black height `n`:
each sibling is balanced with matching black height and internally
red-red free, and a red frame has a black sibling and a black parent. -/
def framesOk : List (Frame K V) → Nat → Prop
  | [], _ => True
  | f :: fs, n =>
      bh f.sibling = some n ∧ redOK .black f.sibling = true ∧
      (f.color = .red → isBlackRoot f.sibling = true ∧ headBlack fs) ∧
      framesOk fs (n + colorBH f.color)

/-! In-order decomposition of a context. -/

/-- Entries that come before the hole in the in-order sequence of a filled
context. -/
def ctxL : List (Frame K V) → List (K × V)
  | [] => []
  | f :: fs =>
      ctxL fs ++ (match f.dir with
                  | .left => []
                  | .right => inorder f.sibling ++ [(f.key, f.val)])

/-- Entries that come after the hole in the in-order sequence of a filled
context. -/
def ctxR : List (Frame K V) → List (K × V)
  | [] => []
  | f :: fs =>
      (match f.dir with
       | .left => (f.key, f.val) :: inorder f.sibling
       | .right => []) ++ ctxR fs

end RBT

/-- Python `list.insert(i, a)`: insert before position `i`, appending when
`i` is at or past the end. -/
def pyInsert {α : Type} : Nat → α → List α → List α
  | _, a, [] => [a]
  | 0, a, x :: l => a :: x :: l
  | n+1, a, x :: l => x :: pyInsert n a l

/-! ## B+ tree (`bpt.py`)

`BPlusLeaf` has `keys, values, next, parent`; `BPlusInternal` has
`keys, children, parent`.  Parent pointers become the ancestor-context
list of a zipper (`BCtx` records the parent node's keys, its full child
list and the position of the focused child).  The `next` chain of
leaves, maintained by `_split_leaf` to run left-to-right, is the
left-to-right sequence of leaves of the tree. -/

inductive BPT (K V : Type) where
  | leaf (keys : List K) (vals : List V) : BPT K V
  | internal (keys : List K) (children : List (BPT K V)) : BPT K V
deriving Repr

structure BCtx (K V : Type) where
  keys : List K
  children : List (BPT K V)
  pos : Nat
deriving Repr

namespace BPTree

variable {K V : Type}

/-- First index `i` with `key < keys[i]`, if any: the loop of
`_find_leaf` (lines 109-111). -/
def childIdxAux [LinearOrder K] (key : K) : List K → Option Nat
  | [] => none
  | k :: ks =>
      if key < k then some 0 else (childIdxAux key ks).map (fun i => i + 1)

/-- Index of the child taken by `_find_leaf` (lines 106-112): first `i`
with `key < keys[i]`, else the last child (`children[-1]`). -/
def childIdx [LinearOrder K] (key : K) (ks : List K) (ncs : Nat) : Nat :=
  match childIdxAux key ks with
  | some i => i
  | none => ncs - 1

/-- Descent of `_find_leaf`, recording the ancestor path (innermost
first).  A child access outside the list is an `IndexError` in the
source, caught at the public-operation boundary: modelled as `none`. -/
def findLeafPath [LinearOrder K] :
    BPT K V → K → List (BCtx K V) →
      Option (List K × List V × List (BCtx K V))
  | .leaf ks vs, _, acc => some (ks, vs, acc)
  | .internal ks cs, key, acc =>
      match h : cs[childIdx key ks cs.length]? with
      | none => none
      | some c =>
          findLeafPath c key (⟨ks, cs, childIdx key ks cs.length⟩ :: acc)
termination_by t => sizeOf t
decreasing_by
  have hm : c ∈ cs := List.getElem?_mem h
  have := List.sizeOf_lt_of_mem hm
  simp only [BPT.internal.sizeOf_spec]
  omega

/-- Position scan of `insert` (lines 69-71) and `_insert_internal`
(lines 136-138): advance while `key > keys[i]`. -/
def scanPos [LinearOrder K] (key : K) : List K → Nat
  | [] => 0
  | a :: t => if a < key then scanPos key t + 1 else 0

/-- Rebuild the tree from a focus and its ancestor contexts. -/
def fillB (t : BPT K V) (path : List (BCtx K V)) : BPT K V :=
  path.foldl (fun s c => .internal c.keys (c.children.set c.pos s)) t

mutual

/-- `BPlusTree._insert_internal` (lines 135-143) acting on the parent
context `ctx`: the already-truncated left half sits at `ctx.pos`, and
`key`/`child` are the promoted separator and the new right node,
inserted at the scanned position `i` and `i+1`.  Overflow propagates to
`_split_internal`. -/
def insertInternalGo [LinearOrder K] [Inhabited K] (ord : Nat)
    (ctx : BCtx K V) (leftNode : BPT K V) (key : K) (child : BPT K V)
    (rest : List (BCtx K V)) : BPT K V :=
  let i := scanPos key ctx.keys
  let ks := pyInsert i key ctx.keys
  let cs := pyInsert (i+1) child (ctx.children.set ctx.pos leftNode)
  if ks.length > ord - 1 then splitInternalGo ord ks cs rest
  else fillB (.internal ks cs) rest
termination_by (rest.length, 1)

/-- `BPlusTree._split_internal` (lines 145-164) on a node with the given
keys/children and ancestor path: the key at `mid = len / 2` is removed
and pulled up, the left node keeps keys `[0, mid)` and children
`[0, mid]`, the right node takes the rest (re-parenting its children,
implicit here), and a new root is created when the path is exhausted. -/
def splitInternalGo [LinearOrder K] [Inhabited K] (ord : Nat)
    (ks : List K) (cs : List (BPT K V)) (path : List (BCtx K V)) :
    BPT K V :=
  let mid := ks.length / 2
  let splitKey := ks.getD mid default
  let lNode : BPT K V := .internal (ks.take mid) (cs.take (mid+1))
  let rNode : BPT K V := .internal (ks.drop (mid+1)) (cs.drop (mid+1))
  match path with
  | [] => .internal [splitKey] [lNode, rNode]
  | ctx :: rest => insertInternalGo ord ctx lNode splitKey rNode rest
termination_by (path.length, 0)

end

/-- `BPlusTree._split_leaf` (lines 114-133) on an overflowing leaf:
`mid = (order + 1) // 2`, the original leaf keeps positions `[0, mid)`,
the new leaf takes `[mid, end)` and is chained right after the original
(lines 121-122), and the new leaf's first key is copied up as the
parent separator (lines 127, 133). -/
def splitLeafGo [LinearOrder K] [Inhabited K] (ord : Nat)
    (ks : List K) (vs : List V) (path : List (BCtx K V)) : BPT K V :=
  let mid := (ord + 1) / 2
  let lLeaf : BPT K V := .leaf (ks.take mid) (vs.take mid)
  let rLeaf : BPT K V := .leaf (ks.drop mid) (vs.drop mid)
  let sep := (ks.drop mid).headD default
  match path with
  | [] => .internal [sep] [lLeaf, rLeaf]
  | ctx :: rest => insertInternalGo ord ctx lLeaf sep rLeaf rest

/-- `BPlusTree.insert(key, value)` (lines 66-82). -/
def insert [LinearOrder K] [Inhabited K] (ord : Nat) (t : BPT K V)
    (key : K) (v : V) : BPT K V :=
  match findLeafPath t key [] with
  | none => t
  | some (ks, vs, path) =>
      let i := scanPos key ks
      if i < ks.length ∧ ks.getD i default = key then
        fillB (.leaf ks (vs.set i v)) path
      else
        let ks2 := pyInsert i key ks
        let vs2 := pyInsert i v vs
        if ks2.length > ord - 1 then splitLeafGo ord ks2 vs2 path
        else fillB (.leaf ks2 vs2) path

/-- First index whose key equals `key`: the scan of `search`
(lines 56-59). -/
def findEq [DecidableEq K] (key : K) : List K → Option Nat
  | [] => none
  | k :: ks =>
      if k = key then some 0 else (findEq key ks).map (fun i => i + 1)

/-- `BPlusTree.search(key)` (lines 53-64).  `leaf.values[i]` out of range
would be an `IndexError` caught at the boundary, hence `none` either
way. -/
def search [LinearOrder K] (t : BPT K V) (key : K) : Option V :=
  match findLeafPath t key [] with
  | none => none
  | some (ks, vs, _) =>
      match findEq key ks with
      | some i => vs[i]?
      | none => none

/-- Leaves in chain order (left to right). -/
def leaves : BPT K V → List (List K × List V)
  | .leaf ks vs => [(ks, vs)]
  | .internal _ cs => (cs.attach.map (fun c => leaves c.1)).flatten
decreasing_by
  have := List.sizeOf_lt_of_mem c.2
  simp only [BPT.internal.sizeOf_spec]
  omega

/-- `BPlusTree.list_all()` (lines 84-103): walk the leaf chain zipping
keys with values. -/
def list_all (t : BPT K V) : List (K × V) :=
  ((leaves t).map (fun p => p.1.zip p.2)).flatten

/-- Number of nodes of the tree. -/
def nodeCountB : BPT K V → Nat
  | .leaf _ _ => 1
  | .internal _ cs => ((cs.attach.map (fun c => nodeCountB c.1)).sum) + 1
decreasing_by
  have := List.sizeOf_lt_of_mem c.2
  simp only [BPT.internal.sizeOf_spec]
  omega

def isLeafNode : BPT K V → Bool
  | .leaf _ _ => true
  | .internal _ _ => false

/-- Lengths (in nodes) of all root-to-leaf paths. -/
def leafDepths : BPT K V → List Nat
  | .leaf _ _ => [1]
  | .internal _ cs =>
      ((cs.attach.map (fun c => leafDepths c.1)).flatten).map (fun d => d + 1)
decreasing_by
  have := List.sizeOf_lt_of_mem c.2
  simp only [BPT.internal.sizeOf_spec]
  omega

/-- Occupancy bounds: leaves hold `1 .. ord-1` keys (a root leaf may hold
fewer), non-root internal nodes hold `ceil(ord/2)-1 .. ord-1` keys, a
root internal node at least one, and every internal node has exactly one
more child than keys. -/
def occOK (ord : Nat) : Bool → BPT K V → Bool
  | isRoot, .leaf ks _ =>
      (isRoot || decide (1 ≤ ks.length)) && decide (ks.length ≤ ord - 1)
  | isRoot, .internal ks cs =>
      decide (cs.length = ks.length + 1) &&
      decide ((if isRoot then 1 else (ord+1)/2 - 1) ≤ ks.length) &&
      decide (ks.length ≤ ord - 1) &&
      cs.attach.all (fun c => occOK ord false c.1)
decreasing_by
  have := List.sizeOf_lt_of_mem c.2
  simp only [BPT.internal.sizeOf_spec]
  omega

/-- The tree obtained by a sequence of `insert` calls on a fresh
`BPlusTree(order)` (root = empty leaf). -/
def ofOps [LinearOrder K] [Inhabited K] (ord : Nat) (ops : List (K × V)) :
    BPT K V :=
  ops.foldl (fun t p => insert ord t p.1 p.2) (.leaf [] [])

/-! Instrumented variants counting how many times a new root node is
created (`self.root = new_root` on a freshly allocated node, lines
126-131 and 156-162). -/

mutual

def insertInternalGoCnt [LinearOrder K] [Inhabited K] (ord : Nat)
    (ctx : BCtx K V) (leftNode : BPT K V) (key : K) (child : BPT K V)
    (rest : List (BCtx K V)) : BPT K V × Nat :=
  let i := scanPos key ctx.keys
  let ks := pyInsert i key ctx.keys
  let cs := pyInsert (i+1) child (ctx.children.set ctx.pos leftNode)
  if ks.length > ord - 1 then splitInternalGoCnt ord ks cs rest
  else (fillB (.internal ks cs) rest, 0)
termination_by (rest.length, 1)

def splitInternalGoCnt [LinearOrder K] [Inhabited K] (ord : Nat)
    (ks : List K) (cs : List (BPT K V)) (path : List (BCtx K V)) :
    BPT K V × Nat :=
  let mid := ks.length / 2
  let splitKey := ks.getD mid default
  let lNode : BPT K V := .internal (ks.take mid) (cs.take (mid+1))
  let rNode : BPT K V := .internal (ks.drop (mid+1)) (cs.drop (mid+1))
  match path with
  | [] => (.internal [splitKey] [lNode, rNode], 1)
  | ctx :: rest => insertInternalGoCnt ord ctx lNode splitKey rNode rest
termination_by (path.length, 0)

end

def splitLeafGoCnt [LinearOrder K] [Inhabited K] (ord : Nat)
    (ks : List K) (vs : List V) (path : List (BCtx K V)) : BPT K V × Nat :=
  let mid := (ord + 1) / 2
  let lLeaf : BPT K V := .leaf (ks.take mid) (vs.take mid)
  let rLeaf : BPT K V := .leaf (ks.drop mid) (vs.drop mid)
  let sep := (ks.drop mid).headD default
  match path with
  | [] => (.internal [sep] [lLeaf, rLeaf], 1)
  | ctx :: rest => insertInternalGoCnt ord ctx lLeaf sep rLeaf rest

/-- `insert` together with the number of new roots it creates. -/
def insertCnt [LinearOrder K] [Inhabited K] (ord : Nat) (t : BPT K V)
    (key : K) (v : V) : BPT K V × Nat :=
  match findLeafPath t key [] with
  | none => (t, 0)
  | some (ks, vs, path) =>
      let i := scanPos key ks
      if i < ks.length ∧ ks.getD i default = key then
        (fillB (.leaf ks (vs.set i v)) path, 0)
      else
        let ks2 := pyInsert i key ks
        let vs2 := pyInsert i v vs
        if ks2.length > ord - 1 then splitLeafGoCnt ord ks2 vs2 path
        else (fillB (.leaf ks2 vs2) path, 0)

/-! Well-formedness invariant.  Every key stored below a child lies in
the half-open interval delimited by the neighbouring separators:
`_find_leaf` descends to the first child whose separator exceeds the key
(strictly), so intervals are inclusive below and exclusive above. -/

/-- `lo ≤ k` and `k < hi` (`none` = unbounded). -/
def inB [LinearOrder K] (lo hi : Option K) (k : K) : Prop :=
  (∀ a ∈ lo, a ≤ k) ∧ (∀ b ∈ hi, k < b)

/-- Interval bounds of the children of an internal node with separators
`ks` inside outer bounds `(lo, hi)`: one pair per child. -/
def boundsList {K : Type} (lo hi : Option K) : List K → List (Option K × Option K)
  | [] => [(lo, hi)]
  | k :: ks => (lo, some k) :: boundsList (some k) hi ks

/-- All but the last entry of `boundsList` (independent of `hi`). -/
def frontBL {K : Type} (lo : Option K) : List K → List (Option K × Option K)
  | [] => []
  | k :: ks => (lo, some k) :: frontBL (some k) ks

/-- All but the first entry of `boundsList` (independent of `lo`). -/
def tailBL {K : Type} (hi : Option K) : List K → List (Option K × Option K)
  | [] => []
  | k :: ks => boundsList (some k) hi ks

/-- Lower bound after the keys `ks`. -/
def lastBnd {K : Type} (lo : Option K) (ks : List K) : Option K :=
  match ks.getLast? with
  | some k => some k
  | none => lo

/-- Upper bound before the keys `ks`. -/
def headBnd {K : Type} (hi : Option K) (ks : List K) : Option K :=
  match ks.head? with
  | some k => some k
  | none => hi

/-- Structural well-formedness within bounds: sorted keys, parallel value
lists, child count, occupancy (`rt` marks the root), and recursively
well-formed children in their separator intervals. -/
inductive WF [LinearOrder K] (ord : Nat) :
    Bool → Option K → Option K → BPT K V → Prop where
  | leaf : ∀ (rt : Bool) (lo hi : Option K) (ks : List K) (vs : List V),
      List.Pairwise (fun a b => a < b) ks →
      ks.length = vs.length →
      (∀ k ∈ ks, inB lo hi k) →
      ks.length ≤ ord - 1 →
      (rt = false → 1 ≤ ks.length) →
      WF ord rt lo hi (.leaf ks vs)
  | internal : ∀ (rt : Bool) (lo hi : Option K) (ks : List K)
      (cs : List (BPT K V)),
      cs.length = ks.length + 1 →
      List.Pairwise (fun a b => a < b) ks →
      (∀ k ∈ ks, inB lo hi k) →
      ks.length ≤ ord - 1 →
      ((if rt then 1 else (ord+1)/2 - 1) ≤ ks.length) →
      (∀ p ∈ (boundsList lo hi ks).zip cs, WF ord false p.1.1 p.1.2 p.2) →
      WF ord rt lo hi (.internal ks cs)

/-- Children of an internal node collectively well formed. -/
def ChildrenWF [LinearOrder K] (ord : Nat) (lo hi : Option K)
    (ks : List K) (cs : List (BPT K V)) : Prop :=
  List.Forall₂ (fun b c => WF ord false b.1 b.2 c) (boundsList lo hi ks) cs

/-- Validity of an ancestor path whose hole carries bounds `(lo, hi)`:
each level is an internal node split around the focused child, with the
sibling blocks well formed against the front/tail bound pairs. -/
def PathOk [LinearOrder K] (ord : Nat) :
    List (BCtx K V) → Option K → Option K → Prop
  | [], lo, hi => lo = none ∧ hi = none
  | c :: rest, lo, hi =>
      ∃ plo phi ksA ksB csA ch csB,
        PathOk ord rest plo phi ∧
        c.keys = ksA ++ ksB ∧ c.children = csA ++ ch :: csB ∧
        ksA.length = c.pos ∧ csA.length = c.pos ∧
        List.Pairwise (fun a b => a < b) c.keys ∧
        (∀ k ∈ c.keys, inB plo phi k) ∧
        c.keys.length ≤ ord - 1 ∧
        ((if rest.isEmpty then 1 else (ord+1)/2 - 1) ≤ c.keys.length) ∧
        lo = lastBnd plo ksA ∧ hi = headBnd phi ksB ∧
        List.Forall₂ (fun b c => WF ord false b.1 b.2 c)
          (frontBL plo ksA) csA ∧
        List.Forall₂ (fun b c => WF ord false b.1 b.2 c)
          (tailBL phi ksB) csB

/-- Leaves contributed by the left siblings along a path. -/
def ctxLeavesL : List (BCtx K V) → List (List K × List V)
  | [] => []
  | c :: rest =>
      ctxLeavesL rest ++ ((c.children.take c.pos).map leaves).flatten

/-- Leaves contributed by the right siblings along a path. -/
def ctxLeavesR : List (BCtx K V) → List (List K × List V)
  | [] => []
  | c :: rest =>
      ((c.children.drop (c.pos + 1)).map leaves).flatten ++ ctxLeavesR rest

/-- Entries contributed by the left siblings along a path. -/
def ctxEL (path : List (BCtx K V)) : List (K × V) :=
  ((ctxLeavesL path).map (fun p => p.1.zip p.2)).flatten

/-- Entries contributed by the right siblings along a path. -/
def ctxER (path : List (BCtx K V)) : List (K × V) :=
  ((ctxLeavesR path).map (fun p => p.1.zip p.2)).flatten

end BPTree

/-! ## Huffman codec (`huffman.py`)

`Node` has `char, freq, left, right` with `None` children; `__lt__`
compares frequencies only.  Python `None` is the `none` constructor, so a
leaf built from the frequency table is `node (some c) f none none`.  The
functions of the stdlib `heapq` module used by `build_huffman_tree`
(`heapify`, `heappush`, `heappop`) are not part of this repository; they
are translated below from CPython's `Lib/heapq.py` (`_siftdown`,
`_siftup` and the three public entry points), which is the implementation
the source imports. -/

inductive HNode (α : Type) where
  | none : HNode α
  | node (char : Option α) (freq : Nat) (l r : HNode α) : HNode α
deriving DecidableEq, Repr

namespace Huffman

variable {α : Type}

def hfreq : HNode α → Nat
  | .none => 0
  | .node _ f _ _ => f

/-- `Node.__lt__(self, other)`: `self.freq < other.freq`. -/
def hlt (a b : HNode α) : Bool := decide (hfreq a < hfreq b)

/-- `heapq._siftdown(heap, startpos, pos)` with `newitem = heap[pos]`
held out, exactly as CPython keeps it in a local. -/
def siftdownGo (newitem : HNode α) (startpos : Nat) :
    List (HNode α) → Nat → List (HNode α)
  | heap, pos =>
    if startpos < pos then
      let parentpos := (pos - 1) / 2
      let parent := heap.getD parentpos .none
      if hlt newitem parent then
        siftdownGo newitem startpos (heap.set pos parent) parentpos
      else heap.set pos newitem
    else heap.set pos newitem
termination_by heap pos => pos
decreasing_by omega

def siftdown (heap : List (HNode α)) (startpos pos : Nat) : List (HNode α) :=
  siftdownGo (heap.getD pos .none) startpos heap pos

/-- Loop of `heapq._siftup`: move the smaller child up until a leaf
position is reached; returns the heap and the final position. -/
def siftupGo (endpos : Nat) : List (HNode α) → Nat → List (HNode α) × Nat
  | heap, pos =>
    if 2 * pos + 1 < endpos then
      let childpos := 2 * pos + 1
      let rightpos := childpos + 1
      let cp := if rightpos < endpos ∧
          ¬ hlt (heap.getD childpos .none) (heap.getD rightpos .none) = true
        then rightpos else childpos
      siftupGo endpos (heap.set pos (heap.getD cp .none)) cp
    else (heap, pos)
termination_by heap pos => endpos - pos
decreasing_by
  split <;> omega

/-- `heapq._siftup(heap, pos)`. -/
def siftup (heap : List (HNode α)) (pos : Nat) : List (HNode α) :=
  let newitem := heap.getD pos .none
  let p := siftupGo heap.length heap pos
  siftdown (p.1.set p.2 newitem) pos p.2

/-- `heapq.heappush(heap, item)`. -/
def heappush (heap : List (HNode α)) (item : HNode α) : List (HNode α) :=
  siftdown (heap ++ [item]) 0 ((heap ++ [item]).length - 1)

/-- `heapq.heappop(heap)`: popping an empty list raises `IndexError`. -/
def heappop (heap : List (HNode α)) : Option (HNode α × List (HNode α)) :=
  match heap.getLast? with
  | Option.none => Option.none
  | some lastelt =>
      let h2 := heap.dropLast
      if h2.isEmpty then some (lastelt, h2)
      else some (h2.getD 0 .none, siftup (h2.set 0 lastelt) 0)

/-- `heapq.heapify(x)`: `for i in reversed(range(n // 2)): _siftup(x, i)`. -/
def heapifyGo : List (HNode α) → Nat → List (HNode α)
  | heap, 0 => heap
  | heap, i + 1 => heapifyGo (siftup heap i) i

def heapify (heap : List (HNode α)) : List (HNode α) :=
  heapifyGo heap (heap.length / 2)

/-- Python dict assignment `d[k] = v`: update in place, else append
(insertion order preserved). -/
def dictSet {κ β : Type} [DecidableEq κ] :
    List (κ × β) → κ → β → List (κ × β)
  | [], k, v => [(k, v)]
  | (a, b) :: t, k, v =>
      if a = k then (a, v) :: t else (a, b) :: dictSet t k v

/-- Python dict lookup `d[k]` (`None` = `KeyError`). -/
def lookupD {κ β : Type} [DecidableEq κ] : List (κ × β) → κ → Option β
  | [], _ => Option.none
  | (a, b) :: t, key => if key = a then some b else lookupD t key

/-- One step of `build_frequency_table`:
`freq[ch] = freq.get(ch, 0) + 1`. -/
def bump [DecidableEq α] (l : List (α × Nat)) (c : α) : List (α × Nat) :=
  match l with
  | [] => [(c, 1)]
  | (a, n) :: t => if a = c then (a, n + 1) :: t else (a, n) :: bump t c

def build_frequency_table [DecidableEq α] (text : List α) :
    List (α × Nat) :=
  text.foldl bump []

/-- Merge loop of `build_huffman_tree` (`while len(heap) > 1`).  Each
iteration pops two nodes and pushes one, so the heap shrinks by one and
the fuel `heap.length` passed below is never exhausted; `heap[0]` on an
empty heap is an `IndexError`, hence `none`. -/
def buildLoop : Nat → List (HNode α) → Option (HNode α)
  | 0, heap => if heap.length ≤ 1 then heap.head? else Option.none
  | fuel + 1, heap =>
      if heap.length ≤ 1 then heap.head?
      else
        match heappop heap with
        | Option.none => Option.none
        | some (left, h1) =>
            match heappop h1 with
            | Option.none => Option.none
            | some (right, h2) =>
                buildLoop fuel
                  (heappush h2
                    (.node Option.none (hfreq left + hfreq right) left right))

/-- `build_huffman_tree(freq_table)` (lines 28-50): heapify the leaf
nodes; a single-entry heap becomes a `None`-charred root with the only
node as left child; otherwise run the merge loop. -/
def build_huffman_tree [DecidableEq α] (ft : List (α × Nat)) :
    Option (HNode α) :=
  let heap := heapify (ft.map (fun p => HNode.node (some p.1) p.2 .none .none))
  if heap.length = 1 then
    match heappop heap with
    | Option.none => Option.none
    | some (only, _) => some (.node Option.none (hfreq only) only .none)
  else buildLoop heap.length heap

/-- `_walk` of `generate_codes` (lines 53-68): a char node records its
code (dict assignment) and stops; a merged node recurses left with
`code + '0'` (`false`) then right with `code + '1'` (`true`). -/
def walkCodes [DecidableEq α] :
    HNode α → List Bool → List (α × List Bool) → List (α × List Bool)
  | .none, _, codes => codes
  | .node (some c) _ _ _, code, codes => dictSet codes c code
  | .node Option.none _ l r, code, codes =>
      walkCodes r (code ++ [true]) (walkCodes l (code ++ [false]) codes)

def generate_codes [DecidableEq α] (root : HNode α) :
    List (α × List Bool) :=
  walkCodes root [] []

/-- `''.join(codes[ch] for ch in text)`; a missing key would be a
`KeyError`. -/
def encodeBits [DecidableEq α] (codes : List (α × List Bool)) :
    List α → Option (List Bool)
  | [] => some []
  | c :: t =>
      match lookupD codes c, encodeBits codes t with
      | some b, some bs => some (b ++ bs)
      | _, _ => Option.none

/-- `int(byte, 2)` on 8 bits, most significant first. -/
def bitsToByte (bits : List Bool) : Nat :=
  bits.foldl (fun a b => 2 * a + (if b then 1 else 0)) 0

/-- Chunking loop of `compress`: `for i in range(0, len(encoded), 8)`. -/
def bytesOf (bits : List Bool) : List Nat :=
  if bits.isEmpty then []
  else bitsToByte (bits.take 8) :: bytesOf (bits.drop 8)
termination_by bits.length
decreasing_by
  rename_i h
  simp [List.isEmpty_iff] at h
  cases hb : bits with
  | nil => exact absurd hb h
  | cons x xs => simp [hb]; omega

/-- `compress(text)` (lines 73-91): frequency table, tree, codes, bit
string, zero padding to a byte boundary, byte packing. -/
def compress [DecidableEq α] (text : List α) :
    Option (List Nat × List (α × List Bool) × Nat) :=
  match build_huffman_tree (build_frequency_table text) with
  | Option.none => Option.none
  | some root =>
      let codes := generate_codes root
      match encodeBits codes text with
      | Option.none => Option.none
      | some encoded =>
          let padding := (8 - encoded.length % 8) % 8
          let bits := encoded ++ List.replicate padding false
          some (bytesOf bits, codes, padding)

/-- `f"{b:08b}"` of a byte value, most significant bit first. -/
def byteToBits (b : Nat) : List Bool :=
  [b / 128 % 2 == 1, b / 64 % 2 == 1, b / 32 % 2 == 1, b / 16 % 2 == 1,
   b / 8 % 2 == 1, b / 4 % 2 == 1, b / 2 % 2 == 1, b % 2 == 1]

/-- Greedy scan of `decompress`: grow `curr` one bit at a time and emit
whenever it is a key of the reversed code dict. -/
def greedy [DecidableEq α] (rev : List (List Bool × α)) :
    List Bool → List Bool → List α → List α
  | [], _, res => res
  | bit :: rest, curr, res =>
      match lookupD rev (curr ++ [bit]) with
      | some ch => greedy rev rest [] (res ++ [ch])
      | Option.none => greedy rev rest (curr ++ [bit]) res

/-- `decompress(data_bytes, codes, padding)` (lines 94-113). -/
def decompress [DecidableEq α] (data : List Nat)
    (codes : List (α × List Bool)) (padding : Nat) : List α :=
  let rev := codes.foldl (fun d p => dictSet d p.2 p.1) []
  let bitStr := (data.map byteToBits).flatten
  let bits := if padding ≠ 0 then bitStr.take (bitStr.length - padding)
    else bitStr
  greedy rev bits [] []

/-! Abstractions used to state properties of the codec. -/

/-- Characters at the char-carrying nodes, left to right. -/
def charsH : HNode α → List α
  | .none => []
  | .node (some c) _ _ _ => [c]
  | .node Option.none _ l r => charsH l ++ charsH r

/-- The code entries `_walk` emits, in emission order. -/
def entriesOf : HNode α → List Bool → List (α × List Bool)
  | .none, _ => []
  | .node (some c) _ _ _, code => [(c, code)]
  | .node Option.none _ l r, code =>
      entriesOf l (code ++ [false]) ++ entriesOf r (code ++ [true])

def heapChars (heap : List (HNode α)) : List α := (heap.map charsH).flatten

/-- `p` is an initial segment of `b`. -/
def PrefixOf {β : Type} (p b : List β) : Prop := ∃ s, p ++ s = b

end Huffman

/-! ## Red-black tree: in-order model lemmas -/

namespace RBT

variable {K V : Type}

theorem fill_nil (t : RBTree K V) : fill t [] = t := rfl

theorem fill_cons (t : RBTree K V) (f : Frame K V) (fs : List (Frame K V)) :
    fill t (f :: fs) = fill (applyFrame f t) fs := rfl

theorem inorder_applyFrame (f : Frame K V) (t : RBTree K V) :
    inorder (applyFrame f t) =
      match f.dir with
      | .left => inorder t ++ (f.key, f.val) :: inorder f.sibling
      | .right => inorder f.sibling ++ (f.key, f.val) :: inorder t := by
  cases h : f.dir <;> simp [applyFrame, h, inorder]

theorem inorder_forceBlack (t : RBTree K V) :
    inorder (forceBlack t) = inorder t := by
  cases t <;> simp [forceBlack, inorder]

theorem inorder_fill (fs : List (Frame K V)) :
    ∀ t : RBTree K V,
      inorder (fill t fs) = ctxL fs ++ inorder t ++ ctxR fs := by
  induction fs with
  | nil => intro t; simp [fill_nil, ctxL, ctxR]
  | cons f fs ih =>
      intro t
      rw [fill_cons, ih, inorder_applyFrame]
      cases h : f.dir <;> simp [ctxL, ctxR, h]

theorem fixInsert_inorder (t : RBTree K V) (fs : List (Frame K V)) :
    inorder (fixInsert t fs) = ctxL fs ++ inorder t ++ ctxR fs := by
  induction t, fs using fixInsert.induct with
  | case1 t => simp [fixInsert, inorder_forceBlack, inorder_fill]
  | case2 t fp h => simp [fixInsert, h, inorder_fill]
  | case3 t fp h => simp [fixInsert, h, inorder_forceBlack, inorder_fill]
  | case4 t fp fg rest h1 h2 h3 ih =>
      cases hd : fp.dir <;>
        simp_all [fixInsert, inorder_forceBlack, inorder_fill, inorder,
          inorder_applyFrame, ctxL, ctxR, applyFrame]
  | case5 t fp fg rest h1 h2 h3 =>
      cases hd : fp.dir
      · simp_all [fixInsert, inorder_forceBlack, inorder_fill, inorder,
          ctxL, ctxR]
      · cases t <;>
          simp_all [fixInsert, inorder_forceBlack, inorder_fill, inorder,
            ctxL, ctxR]
  | case6 t fp fg rest h1 h2 h3 ih =>
      cases hd : fp.dir <;>
        simp_all [fixInsert, inorder_forceBlack, inorder_fill, inorder,
          inorder_applyFrame, ctxL, ctxR, applyFrame]
  | case7 t fp fg rest h1 h2 h3 =>
      cases hd : fp.dir
      · cases t <;>
          simp_all [fixInsert, inorder_forceBlack, inorder_fill, inorder,
            ctxL, ctxR]
      · simp_all [fixInsert, inorder_forceBlack, inorder_fill, inorder,
          ctxL, ctxR]
  | case8 t fp fg rest h1 =>
      simp_all [fixInsert, inorder_forceBlack, inorder_fill, inorder,
        ctxL, ctxR]

end RBT

/-! ## Association-list model lemmas -/

section ListModel

variable {K V : Type} [LinearOrder K]

theorem upsert_append_of_lt (key : K) (v : V) (A B : List (K × V))
    (hB : ∀ b ∈ B, key < b.1) :
    upsert key v (A ++ B) = upsert key v A ++ B := by
  induction A with
  | nil =>
      cases B with
      | nil => rfl
      | cons b t =>
          have : key < b.1 := hB b (by simp)
          simp [upsert, this]
  | cons a A ih =>
      by_cases h1 : key < a.1
      · simp [upsert, h1]
      · by_cases h2 : key = a.1
        · simp [upsert, h1, h2]
        · simp [upsert, h1, h2, ih]

theorem upsert_append_left (key : K) (v : V) (A X : List (K × V))
    (hA : ∀ a ∈ A, a.1 < key) :
    upsert key v (A ++ X) = A ++ upsert key v X := by
  induction A with
  | nil => rfl
  | cons a A ih =>
      have h1 : a.1 < key := hA a (by simp)
      have h2 : ¬ key < a.1 := not_lt_of_lt h1
      have h3 : ¬ key = a.1 := ne_of_gt h1
      simp [upsert, h2, h3]
      exact ih (fun x hx => hA x (by simp [hx]))

theorem mem_upsert (key : K) (v : V) (l : List (K × V)) :
    ∀ x ∈ upsert key v l, x.1 = key ∨ x ∈ l := by
  induction l with
  | nil => simp [upsert]
  | cons a l ih =>
      by_cases h1 : key < a.1
      · simp [upsert, h1]; tauto
      · by_cases h2 : key = a.1
        · simp [upsert, h1, h2]; tauto
        · simp only [upsert, if_neg h1, if_neg h2]
          intro x hx
          rcases List.mem_cons.mp hx with h | h
          · subst h; simp
          · rcases ih x h with h | h
            · exact Or.inl h
            · exact Or.inr (by simp [h])

theorem sortedE_upsert (key : K) (v : V) (l : List (K × V))
    (h : sortedE l) : sortedE (upsert key v l) := by
  induction l with
  | nil => simp [upsert, sortedE]
  | cons a l ih =>
      rw [sortedE, List.pairwise_cons] at h
      obtain ⟨ha, hl⟩ := h
      by_cases h1 : key < a.1
      · rw [sortedE, upsert]
        simp only [if_pos h1]
        refine List.Pairwise.cons ?_ (List.Pairwise.cons ha hl)
        intro b hb
        rcases List.mem_cons.mp hb with h | h
        · subst h; exact h1
        · exact lt_trans h1 (ha b h)
      · by_cases h2 : key = a.1
        · rw [sortedE, upsert]
          simp only [if_neg h1, if_pos h2]
          exact List.Pairwise.cons (fun b hb => h2 ▸ ha b hb) hl
        · rw [sortedE, upsert]
          simp only [if_neg h1, if_neg h2]
          have h3 : a.1 < key := lt_of_le_of_ne (not_lt.mp h1) (Ne.symm h2)
          refine List.Pairwise.cons ?_ (ih hl)
          intro b hb
          rcases mem_upsert key v l b hb with h | h
          · rw [h]; exact h3
          · exact ha b h

theorem lookupA_upsert_self (key : K) (v : V) (l : List (K × V)) :
    lookupA (upsert key v l) key = some v := by
  induction l with
  | nil => simp [upsert, lookupA]
  | cons a l ih =>
      by_cases h1 : key < a.1
      · simp [upsert, h1, lookupA]
      · by_cases h2 : key = a.1
        · simp [upsert, h1, h2, lookupA]
        · simp [upsert, h1, h2, lookupA, ih]

theorem lookupA_upsert_other (key k : K) (v : V) (l : List (K × V))
    (hne : k ≠ key) :
    lookupA (upsert key v l) k = lookupA l k := by
  induction l with
  | nil => simp [upsert, lookupA, hne]
  | cons a l ih =>
      by_cases h1 : key < a.1
      · simp [upsert, h1, lookupA, hne]
      · by_cases h2 : key = a.1
        · subst h2; simp [upsert, h1, lookupA, hne]
        · simp [upsert, h1, h2, lookupA, ih]

theorem lookupA_eq_none (key : K) (B : List (K × V))
    (h : ∀ b ∈ B, b.1 ≠ key) : lookupA B key = none := by
  induction B with
  | nil => rfl
  | cons b B ih =>
      have : key ≠ b.1 := (h b (by simp)).symm
      simp [lookupA, this]
      exact ih (fun x hx => h x (by simp [hx]))

theorem lookupA_append_of_left_ne (key : K) (A B : List (K × V))
    (h : ∀ a ∈ A, a.1 ≠ key) :
    lookupA (A ++ B) key = lookupA B key := by
  induction A with
  | nil => rfl
  | cons a A ih =>
      have : key ≠ a.1 := (h a (by simp)).symm
      simp [lookupA, this]
      exact ih (fun x hx => h x (by simp [hx]))

theorem lookupA_append_of_right_ne (key : K) (A B : List (K × V))
    (h : ∀ b ∈ B, b.1 ≠ key) :
    lookupA (A ++ B) key = lookupA A key := by
  induction A with
  | nil => exact lookupA_eq_none key B h
  | cons a A ih =>
      by_cases hk : key = a.1
      · simp [lookupA, hk]
      · simp [lookupA, hk, ih]

theorem lookupA_foldl_upsert (key : K) (ops : List (K × V)) :
    ∀ l0 : List (K × V),
      lookupA (ops.foldl (fun l p => upsert p.1 p.2 l) l0) key =
        ops.foldl (fun acc p => if p.1 = key then some p.2 else acc)
          (lookupA l0 key) := by
  induction ops with
  | nil => intro l0; rfl
  | cons p ops ih =>
      intro l0
      simp only [List.foldl_cons, ih]
      congr 1
      by_cases h : p.1 = key
      · subst h; simp [lookupA_upsert_self]
      · simp only [if_neg h]
        exact lookupA_upsert_other p.1 key p.2 l0 (Ne.symm h)

theorem lookupA_upsertFold (key : K) (ops : List (K × V)) :
    lookupA (upsertFold ops) key = mostRecent ops key := by
  simpa [upsertFold, mostRecent, lookupA] using
    lookupA_foldl_upsert key ops []

theorem sortedE_upsertFold (ops : List (K × V)) :
    sortedE (upsertFold ops) := by
  have h : ∀ (ops : List (K × V)) (l0 : List (K × V)), sortedE l0 →
      sortedE (ops.foldl (fun l p => upsert p.1 p.2 l) l0) := by
    intro ops
    induction ops with
    | nil => intro l0 h; exact h
    | cons p ops ih =>
        intro l0 h0
        exact ih _ (sortedE_upsert p.1 p.2 l0 h0)
  exact h ops [] (by simp [sortedE])

theorem mostRecent_isSome (key : K) (ops : List (K × V))
    (h : key ∈ ops.map Prod.fst) : (mostRecent ops key).isSome = true := by
  have haux : ∀ (ops : List (K × V)) (acc : Option V),
      key ∈ ops.map Prod.fst ∨ acc.isSome = true →
      (ops.foldl (fun acc p => if p.1 = key then some p.2 else acc)
        acc).isSome = true := by
    intro ops
    induction ops with
    | nil =>
        intro acc h
        rcases h with h | h
        · simp at h
        · exact h
    | cons p ops ih =>
        intro acc h
        simp only [List.foldl_cons]
        by_cases hp : p.1 = key
        · exact ih _ (Or.inr (by simp [hp]))
        · refine ih _ ?_
          rcases h with h | h
          · simp only [List.map_cons, List.mem_cons] at h
            rcases h with h | h
            · exact absurd h.symm hp
            · exact Or.inl h
          · exact Or.inr (by simp [hp, h])
  exact haux ops none (Or.inl h)

theorem mem_sorted_iff_lookupA (l : List (K × V)) (h : sortedE l)
    (p : K × V) : p ∈ l ↔ lookupA l p.1 = some p.2 := by
  induction l with
  | nil => simp [lookupA]
  | cons a l ih =>
      rw [sortedE, List.pairwise_cons] at h
      obtain ⟨ha, hl⟩ := h
      constructor
      · intro hp
        rcases List.mem_cons.mp hp with h | h
        · subst h; simp [lookupA]
        · have : p.1 ≠ a.1 := by
            have := ha p h
            exact ne_of_gt this
          simp [lookupA, this]
          exact (ih hl).mp h
      · intro hp
        by_cases hk : p.1 = a.1
        · rw [lookupA, if_pos hk] at hp
          have : p = a := Prod.ext hk (by injection hp with hh; exact hh.symm)
          simp [this]
        · rw [lookupA, if_neg hk] at hp
          exact List.mem_cons_of_mem a ((ih hl).mpr hp)

end ListModel

/-! ## Red-black tree: functional correctness of insert and search -/

namespace RBT

variable {K V : Type} [LinearOrder K]

theorem insertGo_inorder (key : K) (v : V) :
    ∀ (t : RBTree K V) (fs : List (Frame K V)),
      sortedE (ctxL fs ++ inorder t ++ ctxR fs) →
      inorder (insertGo key v t fs) =
        ctxL fs ++ upsert key v (inorder t) ++ ctxR fs := by
  intro t
  induction t with
  | nil =>
      intro fs _
      rw [insertGo, fixInsert_inorder]
      simp [inorder, upsert]
  | node c k v0 l r ihl ihr =>
      intro fs hs
      rw [insertGo]
      by_cases h1 : key < k
      · rw [if_pos h1]
        have hctx :
            ctxL (⟨Dir.left, c, k, v0, r⟩ :: fs) = ctxL fs ∧
            ctxR (⟨Dir.left, c, k, v0, r⟩ :: fs) =
              (k, v0) :: inorder r ++ ctxR fs := by
          constructor <;> simp [ctxL, ctxR]
        have hs' : sortedE (ctxL (⟨Dir.left, c, k, v0, r⟩ :: fs) ++
            inorder l ++ ctxR (⟨Dir.left, c, k, v0, r⟩ :: fs)) := by
          rw [hctx.1, hctx.2]
          simpa [inorder, sortedE] using hs
        have := ihl (⟨Dir.left, c, k, v0, r⟩ :: fs) hs'
        rw [this, hctx.1, hctx.2]
        have hB : ∀ b ∈ (k, v0) :: inorder r, key < b.1 := by
          intro b hb
          rcases List.mem_cons.mp hb with h | h
          · subst h; exact h1
          · -- from sortedness, everything in `r` is greater than `k`
            have hsub : List.Pairwise (fun p q : K × V => p.1 < q.1)
                ((k, v0) :: inorder r) := by
              have h2 := hs
              rw [sortedE] at h2
              have : ((k, v0) :: inorder r).Sublist
                  (ctxL fs ++ inorder (RBTree.node c k v0 l r) ++ ctxR fs) := by
                simp only [inorder]
                refine List.Sublist.trans ?_ (List.sublist_append_left _ _)
                refine List.Sublist.trans ?_ (List.sublist_append_right _ _)
                exact List.sublist_append_right _ _
              exact List.Pairwise.sublist this h2
            rcases List.pairwise_cons.mp hsub with ⟨hk, _⟩
            exact lt_trans h1 (hk b h)
        rw [show inorder (RBTree.node c k v0 l r) =
              inorder l ++ ((k, v0) :: inorder r) by simp [inorder],
            upsert_append_of_lt key v _ _ hB]
        simp
      · rw [if_neg h1]
        by_cases h2 : k < key
        · rw [if_pos h2]
          have hctx :
              ctxL (⟨Dir.right, c, k, v0, l⟩ :: fs) =
                ctxL fs ++ (inorder l ++ [(k, v0)]) ∧
              ctxR (⟨Dir.right, c, k, v0, l⟩ :: fs) = ctxR fs := by
            constructor <;> simp [ctxL, ctxR]
          have hs' : sortedE (ctxL (⟨Dir.right, c, k, v0, l⟩ :: fs) ++
              inorder r ++ ctxR (⟨Dir.right, c, k, v0, l⟩ :: fs)) := by
            rw [hctx.1, hctx.2]
            simpa [inorder, sortedE] using hs
          have := ihr (⟨Dir.right, c, k, v0, l⟩ :: fs) hs'
          rw [this, hctx.1, hctx.2]
          have hA : ∀ a ∈ inorder l ++ [(k, v0)], a.1 < key := by
            intro a ha
            rcases List.mem_append.mp ha with h | h
            · -- everything in `l` is smaller than `k`
              have hsub : List.Pairwise (fun p q : K × V => p.1 < q.1)
                  (inorder l ++ [(k, v0)]) := by
                have hbig := hs
                rw [sortedE] at hbig
                have : (inorder l ++ [(k, v0)]).Sublist
                    (ctxL fs ++ inorder (RBTree.node c k v0 l r) ++ ctxR fs) := by
                  simp only [inorder]
                  refine List.Sublist.trans ?_ (List.sublist_append_left _ _)
                  refine List.Sublist.trans ?_ (List.sublist_append_right _ _)
                  refine List.Sublist.append_left ?_ _
                  simpa using List.cons_sublist_cons.mpr (List.nil_sublist _)
                exact List.Pairwise.sublist this hbig
              have := (List.pairwise_append.mp hsub).2.2 a h (k, v0) (by simp)
              exact lt_trans this h2
            · rw [List.mem_singleton] at h
              subst h
              exact h2
          rw [show inorder (RBTree.node c k v0 l r) =
                (inorder l ++ [(k, v0)]) ++ inorder r by simp [inorder],
              upsert_append_left key v _ _ hA]
          simp
        · -- equal keys: value overwritten in place
          rw [if_neg h2]
          have hkey : key = k := le_antisymm (not_lt.mp h2) (not_lt.mp h1)
          rw [inorder_fill]
          have hA : ∀ a ∈ inorder l, a.1 < key := by
            intro a ha
            have hsub : List.Pairwise (fun p q : K × V => p.1 < q.1)
                (inorder l ++ [(k, v0)]) := by
              have hbig := hs
              rw [sortedE] at hbig
              have : (inorder l ++ [(k, v0)]).Sublist
                  (ctxL fs ++ inorder (RBTree.node c k v0 l r) ++ ctxR fs) := by
                simp only [inorder]
                refine List.Sublist.trans ?_ (List.sublist_append_left _ _)
                refine List.Sublist.trans ?_ (List.sublist_append_right _ _)
                refine List.Sublist.append_left ?_ _
                simpa using List.cons_sublist_cons.mpr (List.nil_sublist _)
              exact List.Pairwise.sublist this hbig
            have := (List.pairwise_append.mp hsub).2.2 a ha (k, v0) (by simp)
            rw [hkey]; exact this
          rw [show inorder (RBTree.node c k v0 l r) =
                inorder l ++ ((k, v0) :: inorder r) by simp [inorder],
              upsert_append_left key v _ _ hA]
          rw [show inorder (RBTree.node c k v l r) =
                inorder l ++ ((k, v) :: inorder r) by simp [inorder]]
          have : upsert key v ((k, v0) :: inorder r) = (k, v) :: inorder r := by
            rw [upsert]
            simp [hkey, if_neg h1]
          rw [this]

theorem insert_inorder (t : RBTree K V) (key : K) (v : V)
    (h : sortedE (inorder t)) :
    inorder (insert t key v) = upsert key v (inorder t) := by
  have := insertGo_inorder key v t [] (by simpa [ctxL, ctxR] using h)
  simpa [ctxL, ctxR, insert] using this

theorem search_eq_lookupA (t : RBTree K V) (key : K)
    (h : sortedE (inorder t)) :
    search t key = lookupA (inorder t) key := by
  induction t with
  | nil => rfl
  | node c k v0 l r ihl ihr =>
      rw [sortedE] at h
      simp only [inorder] at h
      have hsplit := List.pairwise_append.mp
        (by simpa using h :
          List.Pairwise (fun p q : K × V => p.1 < q.1)
            (inorder l ++ (k, v0) :: inorder r))
      obtain ⟨hL, hR, hLR⟩ := hsplit
      rcases List.pairwise_cons.mp hR with ⟨hk, hr⟩
      rw [search, inorder]
      by_cases h1 : key = k
      · rw [if_pos h1]
        rw [lookupA_append_of_left_ne key _ _
          (fun a ha => ne_of_lt (h1 ▸ hLR a ha (k, v0) (by simp)))]
        simp [lookupA, h1]
      · rw [if_neg h1]
        by_cases h2 : key < k
        · rw [if_pos h2]
          rw [lookupA_append_of_right_ne key _ _ ?_]
          · exact ihl hL
          · intro b hb
            rcases List.mem_cons.mp hb with h | h
            · subst h; exact ne_of_gt h2
            · exact ne_of_gt (lt_trans h2 (hk b h))
        · rw [if_neg h2]
          have h3 : k < key := lt_of_le_of_ne (not_lt.mp h2) (Ne.symm h1)
          rw [lookupA_append_of_left_ne key _ _
            (fun a ha => ne_of_lt (lt_trans (hLR a ha (k, v0) (by simp)) h3))]
          rw [lookupA, if_neg h1]
          exact ihr hr

theorem inorder_ofOps_aux (ops : List (K × V)) :
    ∀ (t : RBTree K V) (l : List (K × V)), inorder t = l → sortedE l →
      inorder (ops.foldl (fun t p => insert t p.1 p.2) t) =
        ops.foldl (fun l p => upsert p.1 p.2 l) l ∧
      sortedE (ops.foldl (fun l p => upsert p.1 p.2 l) l) := by
  induction ops with
  | nil => intro t l h hs; exact ⟨h, hs⟩
  | cons p ops ih =>
      intro t l h hs
      simp only [List.foldl_cons]
      exact ih (insert t p.1 p.2) (upsert p.1 p.2 l)
        (by rw [insert_inorder t p.1 p.2 (h ▸ hs), h])
        (sortedE_upsert p.1 p.2 l hs)

theorem inorder_ofOps (ops : List (K × V)) :
    inorder (ofOps ops) = upsertFold ops := by
  exact (inorder_ofOps_aux ops .nil [] rfl (by simp [sortedE])).1

theorem sortedE_inorder_ofOps (ops : List (K × V)) :
    sortedE (inorder (ofOps ops)) := by
  rw [inorder_ofOps]; exact sortedE_upsertFold ops

theorem search_ofOps (ops : List (K × V)) (key : K) :
    search (ofOps ops) key = mostRecent ops key := by
  rw [search_eq_lookupA _ _ (sortedE_inorder_ofOps ops), inorder_ofOps,
      lookupA_upsertFold]

end RBT

/-! ## B+ tree: basic lemmas -/

namespace BPTree

variable {K V : Type}

theorem leaves_internal (ks : List K) (cs : List (BPT K V)) :
    leaves (.internal ks cs) = (cs.map leaves).flatten := by
  rw [leaves]
  congr 1
  simp [List.map_attach, List.pmap_eq_map]

theorem list_all_leaf (ks : List K) (vs : List V) :
    list_all (.leaf ks vs) = ks.zip vs := by
  simp [list_all, leaves]

theorem list_all_internal (ks : List K) (cs : List (BPT K V)) :
    list_all (.internal ks cs) = (cs.map list_all).flatten := by
  simp only [list_all, leaves_internal]
  rw [List.map_flatten, List.flatten_flatten, List.map_map, List.map_map]
  rfl

theorem pyInsert_eq {α : Type} (a : α) :
    ∀ (i : Nat) (l : List α), pyInsert i a l = l.take i ++ a :: l.drop i := by
  intro i l
  induction l generalizing i with
  | nil => cases i <;> simp [pyInsert]
  | cons x l ih =>
      cases i with
      | zero => simp [pyInsert]
      | succ n => simp [pyInsert, ih]

theorem scanPos_append [LinearOrder K] (key : K) (A B : List K)
    (hA : ∀ a ∈ A, a < key) (hB : ∀ b ∈ B.head?, ¬ b < key) :
    scanPos key (A ++ B) = A.length := by
  induction A with
  | nil =>
      cases B with
      | nil => rfl
      | cons b B' =>
          have := hB b (by simp)
          simp [scanPos, this]
  | cons a A ih =>
      have ha : a < key := hA a (by simp)
      rw [show (a :: A) ++ B = a :: (A ++ B) from rfl,
          show scanPos key (a :: (A ++ B)) =
            if a < key then scanPos key (A ++ B) + 1 else 0 from rfl,
          if_pos ha, ih (fun x hx => hA x (by simp [hx]))]
      simp

theorem childIdxAux_some [LinearOrder K] (key : K) :
    ∀ (ks : List K) (i : Nat), childIdxAux key ks = some i →
      ∃ A b B, ks = A ++ b :: B ∧ A.length = i ∧
        (∀ a ∈ A, ¬ key < a) ∧ key < b := by
  intro ks
  induction ks with
  | nil => intro i h; simp [childIdxAux] at h
  | cons k ks ih =>
      intro i h
      rw [childIdxAux] at h
      by_cases hk : key < k
      · rw [if_pos hk] at h
        injection h with h
        exact ⟨[], k, ks, by simp, h ▸ rfl, by simp, hk⟩
      · rw [if_neg hk] at h
        cases hx : childIdxAux key ks with
        | none => rw [hx] at h; simp at h
        | some j =>
            rw [hx] at h
            have h2 : j + 1 = i := by simpa using h
            obtain ⟨A, b, B, hks, hlen, hA, hb⟩ := ih j hx
            refine ⟨k :: A, b, B, by simp [hks], ?_, ?_, hb⟩
            · simp [hlen, ← h2]
            · intro a ha
              rcases List.mem_cons.mp ha with h1 | h1
              · subst h1; exact hk
              · exact hA a h1

theorem childIdxAux_none [LinearOrder K] (key : K) :
    ∀ ks : List K, childIdxAux key ks = none → ∀ a ∈ ks, ¬ key < a := by
  intro ks
  induction ks with
  | nil => intro _ a ha; simp at ha
  | cons k ks ih =>
      intro h a ha
      rw [childIdxAux] at h
      by_cases hk : key < k
      · rw [if_pos hk] at h; simp at h
      · rw [if_neg hk] at h
        rcases List.mem_cons.mp ha with h1 | h1
        · subst h1; exact hk
        · refine ih ?_ a h1
          cases hx : childIdxAux key ks with
          | none => rfl
          | some j => rw [hx] at h; simp at h

theorem findEq_some [DecidableEq K] (key : K) :
    ∀ (ks : List K) (i : Nat), findEq key ks = some i →
      ∃ A B, ks = A ++ key :: B ∧ A.length = i ∧ ∀ a ∈ A, a ≠ key := by
  intro ks
  induction ks with
  | nil => intro i h; simp [findEq] at h
  | cons k ks ih =>
      intro i h
      rw [findEq] at h
      by_cases hk : k = key
      · rw [if_pos hk] at h
        injection h with h
        exact ⟨[], ks, by simp [hk], h ▸ rfl, by simp⟩
      · rw [if_neg hk] at h
        cases hx : findEq key ks with
        | none => rw [hx] at h; simp at h
        | some j =>
            rw [hx] at h
            have h2 : j + 1 = i := by simpa using h
            obtain ⟨A, B, hks, hlen, hA⟩ := ih j hx
            refine ⟨k :: A, B, by simp [hks], by simp [hlen, ← h2], ?_⟩
            intro a ha
            rcases List.mem_cons.mp ha with h1 | h1
            · subst h1; exact hk
            · exact hA a h1

theorem findEq_none [DecidableEq K] (key : K) :
    ∀ ks : List K, findEq key ks = none → ∀ a ∈ ks, a ≠ key := by
  intro ks
  induction ks with
  | nil => intro _ a ha; simp at ha
  | cons k ks ih =>
      intro h a ha
      rw [findEq] at h
      by_cases hk : k = key
      · rw [if_pos hk] at h; simp at h
      · rw [if_neg hk] at h
        rcases List.mem_cons.mp ha with h1 | h1
        · subst h1; exact hk
        · refine ih ?_ a h1
          cases hx : findEq key ks with
          | none => rfl
          | some j => rw [hx] at h; simp at h

theorem lastBnd_nil (lo : Option K) : lastBnd lo ([] : List K) = lo := rfl

theorem lastBnd_cons (lo : Option K) (k : K) (ks : List K) :
    lastBnd lo (k :: ks) = lastBnd (some k) ks := by
  cases ks with
  | nil => rfl
  | cons b ks =>
      simp only [lastBnd, List.getLast?_cons_cons]
      cases h : (b :: ks).getLast? with
      | none => simp [List.getLast?_eq_none_iff] at h
      | some x => simp

theorem lastBnd_append (lo : Option K) (A B : List K) :
    lastBnd lo (A ++ B) = lastBnd (lastBnd lo A) B := by
  induction A generalizing lo with
  | nil => simp [lastBnd_nil]
  | cons a A ih => simp [lastBnd_cons, ih]

theorem boundsList_eq (lo hi : Option K) :
    ∀ ks : List K, boundsList lo hi ks = frontBL lo ks ++ [(lastBnd lo ks, hi)] := by
  intro ks
  induction ks generalizing lo with
  | nil => simp [boundsList, frontBL, lastBnd_nil]
  | cons k ks ih => simp [boundsList, frontBL, ih, lastBnd_cons]

theorem frontBL_append (lo : Option K) (A B : List K) :
    frontBL lo (A ++ B) = frontBL lo A ++ frontBL (lastBnd lo A) B := by
  induction A generalizing lo with
  | nil => simp [frontBL, lastBnd_nil]
  | cons a A ih => simp [frontBL, ih, lastBnd_cons]

theorem boundsList_append_left (lo hi : Option K) (A B : List K) :
    boundsList lo hi (A ++ B) =
      frontBL lo A ++ boundsList (lastBnd lo A) hi B := by
  rw [boundsList_eq, frontBL_append, boundsList_eq, lastBnd_append]
  simp

theorem boundsList_mid (plo phi : Option K) (ksA ms ksB : List K) :
    boundsList plo phi (ksA ++ ms ++ ksB) =
      frontBL plo ksA ++
        boundsList (lastBnd plo ksA) (headBnd phi ksB) ms ++
        tailBL phi ksB := by
  cases ksB with
  | nil =>
      simp only [headBnd, List.head?_nil, tailBL, List.append_nil]
      rw [boundsList_append_left]
  | cons b ksB =>
      simp only [headBnd, List.head?_cons, tailBL]
      rw [show ksA ++ ms ++ b :: ksB = (ksA ++ ms) ++ b :: ksB by simp,
          boundsList_append_left, frontBL_append, boundsList_eq (lastBnd plo ksA)]
      simp only [boundsList, lastBnd_append]
      simp

theorem boundsList_length (lo hi : Option K) :
    ∀ ks : List K, (boundsList lo hi ks).length = ks.length + 1 := by
  intro ks
  induction ks generalizing lo with
  | nil => rfl
  | cons k ks ih => simp [boundsList, ih]

theorem frontBL_length (lo : Option K) :
    ∀ ks : List K, (frontBL lo ks).length = ks.length := by
  intro ks
  induction ks generalizing lo with
  | nil => rfl
  | cons k ks ih => simp [frontBL, ih]

theorem frontBL_snd_mem (lo : Option K) :
    ∀ (ks : List K) (p : Option K × Option K), p ∈ frontBL lo ks →
      ∃ k ∈ ks, p.2 = some k := by
  intro ks
  induction ks generalizing lo with
  | nil => intro p hp; simp [frontBL] at hp
  | cons k ks ih =>
      intro p hp
      rw [frontBL] at hp
      rcases List.mem_cons.mp hp with h | h
      · exact ⟨k, by simp, by simp [h]⟩
      · obtain ⟨k2, hk2, he⟩ := ih (some k) p h
        exact ⟨k2, by simp [hk2], he⟩

theorem boundsList_fst_mem (lo hi : Option K) :
    ∀ (ks : List K) (p : Option K × Option K), p ∈ boundsList lo hi ks →
      p.1 = lo ∨ ∃ k ∈ ks, p.1 = some k := by
  intro ks
  induction ks generalizing lo with
  | nil => intro p hp; simp [boundsList] at hp; simp [hp]
  | cons k ks ih =>
      intro p hp
      rw [boundsList] at hp
      rcases List.mem_cons.mp hp with h | h
      · left; simp [h]
      · rcases ih (some k) p h with h | ⟨k2, hk2, he⟩
        · exact Or.inr ⟨k, by simp, h⟩
        · exact Or.inr ⟨k2, by simp [hk2], he⟩

theorem f2_append {α β : Type} {R : α → β → Prop} {a b c d}
    (h1 : List.Forall₂ R a b) (h2 : List.Forall₂ R c d) :
    List.Forall₂ R (a ++ c) (b ++ d) := by
  induction h1 with
  | nil => exact h2
  | cons hr _ ih => exact List.Forall₂.cons hr ih

theorem f2_decomp {α β : Type} {R : α → β → Prop} :
    ∀ {a₁ a₂ : List α} {l : List β}, List.Forall₂ R (a₁ ++ a₂) l →
      ∃ l₁ l₂, l = l₁ ++ l₂ ∧ l₁.length = a₁.length ∧
        List.Forall₂ R a₁ l₁ ∧ List.Forall₂ R a₂ l₂ := by
  intro a₁
  induction a₁ with
  | nil =>
      intro a₂ l h
      exact ⟨[], l, by simp, rfl, List.Forall₂.nil, h⟩
  | cons x a₁ ih =>
      intro a₂ l h
      cases h with
      | cons hr hrest =>
          obtain ⟨l₁, l₂, hl, hlen, h1, h2⟩ := ih hrest
          exact ⟨_ :: l₁, l₂, by simp [hl], by simp [hlen],
            List.Forall₂.cons hr h1, h2⟩

theorem f2_singleton {α β : Type} {R : α → β → Prop} {x : α} {l : List β}
    (h : List.Forall₂ R [x] l) : ∃ y, l = [y] ∧ R x y := by
  cases h with
  | cons hr hrest => cases hrest; exact ⟨_, rfl, hr⟩

theorem set_at_length {α : Type} :
    ∀ (csA : List α) (ch : α) (csB : List α) (x : α),
      (csA ++ ch :: csB).set csA.length x = csA ++ x :: csB := by
  intro csA
  induction csA with
  | nil => intro ch csB x; simp
  | cons c csA ih => intro ch csB x; simp [List.set_cons_succ, ih]

theorem mem_zip_right {α β : Type} :
    ∀ {l₁ : List α} {l₂ : List β}, l₁.length = l₂.length →
      ∀ c ∈ l₂, ∃ b, (b, c) ∈ l₁.zip l₂ := by
  intro l₁
  induction l₁ with
  | nil =>
      intro l₂ h c hc
      cases l₂ with
      | nil => simp at hc
      | cons x l₂ => simp at h
  | cons b l₁ ih =>
      intro l₂ h c hc
      cases l₂ with
      | nil => simp at hc
      | cons x l₂ =>
          rcases List.mem_cons.mp hc with h1 | h1
          · exact ⟨b, by simp [h1]⟩
          · obtain ⟨b2, hb2⟩ := ih (by simpa using h) c h1
            exact ⟨b2, by simp [hb2]⟩

theorem inB_none_none (k : K) [LinearOrder K] : inB (none : Option K) none k := by
  simp [inB]

theorem ChildrenWF_iff_zip [LinearOrder K] {ord : Nat} {lo hi : Option K}
    {ks : List K} {cs : List (BPT K V)} :
    ChildrenWF ord lo hi ks cs ↔
      (cs.length = ks.length + 1 ∧
       ∀ p ∈ (boundsList lo hi ks).zip cs, WF ord false p.1.1 p.1.2 p.2) := by
  rw [ChildrenWF, List.forall₂_iff_zip]
  constructor
  · rintro ⟨hl, hz⟩
    refine ⟨by rw [← hl, boundsList_length], fun p hp => ?_⟩
    obtain ⟨b, c⟩ := p
    exact hz hp
  · rintro ⟨hl, hz⟩
    refine ⟨by rw [boundsList_length, hl], fun {a b} hab => hz (a, b) hab⟩

/-- Every interval of `boundsList` is contained in the outer interval. -/
theorem boundsList_nested [LinearOrder K] :
    ∀ (ks : List K) (lo hi : Option K),
      List.Pairwise (fun a b => a < b) ks →
      (∀ k ∈ ks, inB lo hi k) →
      ∀ p ∈ boundsList lo hi ks, ∀ x, inB p.1 p.2 x → inB lo hi x := by
  intro ks
  induction ks with
  | nil =>
      intro lo hi _ _ p hp x hx
      simp [boundsList] at hp
      simpa [hp] using hx
  | cons k ks ih =>
      intro lo hi hpw hin p hp x hx
      have hk : inB lo hi k := hin k (by simp)
      rcases List.pairwise_cons.mp hpw with ⟨hklt, hpw'⟩
      rw [boundsList] at hp
      rcases List.mem_cons.mp hp with h | h
      · subst h
        obtain ⟨hx1, hx2⟩ := hx
        refine ⟨hx1, fun b hb => ?_⟩
        have hxk : x < k := hx2 k (by simp)
        exact lt_trans hxk (hk.2 b hb)
      · have hin' : ∀ k2 ∈ ks, inB (some k) hi k2 := by
          intro k2 hk2
          refine ⟨fun a ha => ?_, (hin k2 (by simp [hk2])).2⟩
          have hak : k = a := by simpa using ha
          subst hak
          exact le_of_lt (hklt k2 hk2)
        have := ih (some k) hi hpw' hin' p h x hx
        obtain ⟨h1, h2⟩ := this
        refine ⟨fun a ha => ?_, h2⟩
        have hkx : k ≤ x := h1 k (by simp)
        exact le_trans (hk.1 a ha) hkx

theorem getElem?_at_length {α : Type} :
    ∀ (csA : List α) (ch : α) (csB : List α),
      (csA ++ ch :: csB)[csA.length]? = some ch := by
  intro csA
  induction csA with
  | nil => intro ch csB; simp
  | cons c csA ih => intro ch csB; simpa using ih ch csB

/-- Entries of a well-formed tree lie within its bounds. -/
theorem WF_entries_inB [LinearOrder K] {ord : Nat} :
    ∀ {rt : Bool} {lo hi : Option K} {t : BPT K V}, WF ord rt lo hi t →
      ∀ p ∈ list_all t, inB lo hi p.1 := by
  intro rt lo hi t h
  induction h with
  | leaf rt lo hi ks vs hpw hlen hin hocc hroot =>
      intro p hp
      rw [list_all_leaf] at hp
      exact hin p.1 (List.of_mem_zip hp).1
  | internal rt lo hi ks cs hlen hpw hin hocc1 hocc2 hch ih =>
      intro p hp
      rw [list_all_internal] at hp
      rw [List.mem_flatten] at hp
      obtain ⟨la, hla, hpla⟩ := hp
      rw [List.mem_map] at hla
      obtain ⟨c, hc, hceq⟩ := hla
      have hlb : (boundsList lo hi ks).length = cs.length := by
        rw [boundsList_length]; omega
      obtain ⟨b, hb⟩ := mem_zip_right hlb c hc
      have hwfp := ih (b, c) hb p (hceq ▸ hpla)
      exact boundsList_nested ks lo hi hpw hin (b, c).1
        (List.of_mem_zip hb).1 p.1 hwfp

/-- Descent through a well-formed tree: `_find_leaf` succeeds, lands on a
leaf whose bounds contain the key, and produces a valid ancestor path
that reconstructs the original tree. -/
theorem findLeafPath_descend [LinearOrder K] [Inhabited K] {ord : Nat} :
    ∀ (t : BPT K V) (key : K) (acc : List (BCtx K V)) (lo hi : Option K),
      WF ord acc.isEmpty lo hi t → PathOk ord acc lo hi → inB lo hi key →
      ∃ ks vs path lo2 hi2,
        findLeafPath t key acc = some (ks, vs, path) ∧
        PathOk ord path lo2 hi2 ∧ inB lo2 hi2 key ∧
        List.Pairwise (fun a b => a < b) ks ∧
        ks.length = vs.length ∧
        (∀ k ∈ ks, inB lo2 hi2 k) ∧
        ks.length ≤ ord - 1 ∧
        (path.isEmpty = false → 1 ≤ ks.length) ∧
        fillB (.leaf ks vs) path = fillB t acc := by
  intro t key acc
  induction t, key, acc using findLeafPath.induct with
  | case1 ks vs key acc =>
      intro lo hi hwf hpath hkey
      cases hwf with
      | leaf rt lo hi ks vs hpw hlen hin hocc hroot =>
          exact ⟨ks, vs, acc, lo, hi, by rw [findLeafPath], hpath, hkey, hpw,
            hlen, hin, hocc, fun h => hroot (by simpa using h), rfl⟩
  | case2 ks cs key acc hnone =>
      -- a missing child contradicts well-formedness
      intro lo hi hwf hpath hkey
      exfalso
      cases hwf with
      | internal rt lo hi ks cs hlen hpw hin hocc1 hocc2 hch =>
          have hi2 : childIdx key ks cs.length < cs.length := by
            rw [childIdx]
            cases hx : childIdxAux key ks with
            | none =>
                show cs.length - 1 < cs.length
                omega
            | some j =>
                show j < cs.length
                obtain ⟨A, b, B, hks, hlenA, _, _⟩ :=
                  childIdxAux_some key ks j hx
                have : ks.length = A.length + B.length + 1 := by
                  rw [hks]; simp; omega
                omega
          rw [List.getElem?_eq_none_iff] at hnone
          omega
  | case3 ks cs key acc c hsome ih =>
      intro lo hi hwf hpath hkey
      cases hwf with
      | internal rt lo hi ks cs hlen hpw hin hocc1 hocc2 hch =>
          -- decompose the keys at the chosen child index
          have hsplit : ∃ ksA ksB, ks = ksA ++ ksB ∧
              ksA.length = childIdx key ks cs.length ∧
              (∀ a ∈ ksA, ¬ key < a) ∧
              (∀ b ∈ ksB.head?, key < b) := by
            rw [childIdx]
            cases hx : childIdxAux key ks with
            | none =>
                refine ⟨ks, [], by simp, ?_, childIdxAux_none key ks hx, by simp⟩
                show ks.length = cs.length - 1
                omega
            | some j =>
                obtain ⟨A, b, B, hks, hlenA, hA, hb⟩ :=
                  childIdxAux_some key ks j hx
                refine ⟨A, b :: B, hks, ?_, hA, by simpa using hb⟩
                show A.length = j
                exact hlenA
          obtain ⟨ksA, ksB, hks, hlenA, hksA, hksB⟩ := hsplit
          set i := childIdx key ks cs.length with hidef
          -- decompose the children accordingly
          have hcw : ChildrenWF ord lo hi ks cs :=
            ChildrenWF_iff_zip.mpr ⟨hlen, hch⟩
          rw [ChildrenWF, hks,
              show ksA ++ ksB = ksA ++ [] ++ ksB by simp,
              boundsList_mid, List.append_assoc] at hcw
          obtain ⟨csA, csR, hcseq, hcsAlen, hf2A, hf2R⟩ := f2_decomp hcw
          rw [show boundsList (lastBnd lo ksA) (headBnd hi ksB) [] =
                [(lastBnd lo ksA, headBnd hi ksB)] from rfl] at hf2R
          obtain ⟨csM, csB, hcseq2, hcsMlen, hf2M, hf2B⟩ := f2_decomp hf2R
          obtain ⟨ch, hchEq, hwfch⟩ := f2_singleton hf2M
          subst hchEq
          rw [hcseq2] at hcseq
          have hcsA_i : csA.length = i := by
            rw [hcsAlen, frontBL_length, hlenA]
          -- the matched child is `ch`
          have hcs : cs = csA ++ ch :: csB := by simpa using hcseq
          have hget : cs[i]? = some ch := by
            rw [hcs, ← hcsA_i]
            exact getElem?_at_length csA ch csB
          have hceq : c = ch := by
            rw [hidef] at hget
            rw [hget] at hsome
            injection hsome with hsome
            exact hsome.symm
          subst hceq
          -- bounds of the hole contain the key
          have hkey2 : inB (lastBnd lo ksA) (headBnd hi ksB) key := by
            constructor
            · intro a ha
              rw [lastBnd] at ha
              cases hg : ksA.getLast? with
              | none =>
                  rw [hg] at ha
                  exact hkey.1 a ha
              | some m =>
                  rw [hg] at ha
                  have ham : m = a := by simpa using ha
                  subst ham
                  have : m ∈ ksA := List.mem_of_mem_getLast? hg
                  exact not_lt.mp (hksA m this)
            · intro b hb
              rw [headBnd] at hb
              cases hh : ksB.head? with
              | none =>
                  rw [hh] at hb
                  exact hkey.2 b hb
              | some m =>
                  rw [hh] at hb
                  have hbm : m = b := by simpa using hb
                  subst hbm
                  exact hksB m hh
          -- the extended path is valid
          have hpath2 : PathOk ord (⟨ks, cs, i⟩ :: acc)
              (lastBnd lo ksA) (headBnd hi ksB) := by
            refine ⟨lo, hi, ksA, ksB, csA, c, csB, hpath, hks, hcs, ?_, ?_,
              hpw, hin, hocc1, ?_, rfl, rfl, hf2A, hf2B⟩
            · exact hlenA
            · exact hcsA_i
            · exact hocc2
          have hwf2 : WF ord (⟨ks, cs, i⟩ :: acc : List (BCtx K V)).isEmpty
              (lastBnd lo ksA) (headBnd hi ksB) c := by
            simpa using hwfch
          obtain ⟨ks2, vs2, path2, lo2, hi2, heq, hp2, hk2, hpw2, hl2, hin2,
            ho2, hr2, hfill2⟩ :=
              ih (lastBnd lo ksA) (headBnd hi ksB) hwf2 hpath2 hkey2
          refine ⟨ks2, vs2, path2, lo2, hi2, ?_, hp2, hk2, hpw2, hl2, hin2,
            ho2, hr2, ?_⟩
          · rw [findLeafPath, hsome]
            exact heq
          · rw [hfill2]
            rw [show fillB c (⟨ks, cs, i⟩ :: acc) =
                  fillB (.internal ks (cs.set i c)) acc from rfl]
            have : cs.set i c = cs := by
              rw [hcs, ← hcsA_i, set_at_length]
            rw [this]

theorem drop_at_length_succ {α : Type} :
    ∀ (A : List α) (x : α) (B : List α),
      (A ++ x :: B).drop (A.length + 1) = B := by
  intro A
  induction A with
  | nil => intro x B; simp
  | cons a A ih => intro x B; simpa using ih x B

theorem tailBL_length (phi : Option K) :
    ∀ ksB : List K, (tailBL phi ksB).length = ksB.length := by
  intro ksB
  cases ksB with
  | nil => rfl
  | cons b B => simp [tailBL, boundsList_length]

theorem fillB_nil (t : BPT K V) : fillB t [] = t := rfl

theorem fillB_cons (t : BPT K V) (c : BCtx K V) (rest : List (BCtx K V)) :
    fillB t (c :: rest) =
      fillB (.internal c.keys (c.children.set c.pos t)) rest := rfl

/-- Entry sequences commute with collecting leaves. -/
theorem entries_of_leaves (X : List (BPT K V)) :
    ((((X.map leaves).flatten).map (fun p => p.1.zip p.2)).flatten) =
      (X.map list_all).flatten := by
  rw [List.map_flatten, List.flatten_flatten, List.map_map, List.map_map]
  rfl

theorem ctxEL_cons (c : BCtx K V) (rest : List (BCtx K V)) :
    ctxEL (c :: rest) =
      ctxEL rest ++ ((c.children.take c.pos).map list_all).flatten := by
  rw [ctxEL, ctxLeavesL]
  rw [List.map_append, List.flatten_append, ← entries_of_leaves]
  rfl

theorem ctxER_cons (c : BCtx K V) (rest : List (BCtx K V)) :
    ctxER (c :: rest) =
      ((c.children.drop (c.pos + 1)).map list_all).flatten ++ ctxER rest := by
  rw [ctxER, ctxLeavesR]
  rw [List.map_append, List.flatten_append, ← entries_of_leaves]
  rfl

/-- Filling a valid path decomposes the leaf sequence. -/
theorem leaves_fillB [LinearOrder K] {ord : Nat} :
    ∀ (path : List (BCtx K V)) (lo hi : Option K) (t : BPT K V),
      PathOk ord path lo hi →
      leaves (fillB t path) =
        ctxLeavesL path ++ leaves t ++ ctxLeavesR path := by
  intro path
  induction path with
  | nil => intro lo hi t _; simp [fillB_nil, ctxLeavesL, ctxLeavesR]
  | cons c rest ih =>
      intro lo hi t hp
      obtain ⟨plo, phi, ksA, ksB, csA, ch, csB, hrest, hks, hcs, hlA, hcA,
        hpw, hin, ho1, ho2, hlo, hhi, hf2A, hf2B⟩ := hp
      rw [fillB_cons, ih plo phi _ hrest]
      have hset : c.children.set c.pos t = csA ++ t :: csB := by
        rw [hcs, ← hcA, set_at_length]
      have htake : c.children.take c.pos = csA := by
        rw [hcs, ← hcA, List.take_left]
      have hdrop : c.children.drop (c.pos + 1) = csB := by
        rw [hcs, ← hcA, drop_at_length_succ]
      rw [ctxLeavesL, ctxLeavesR, htake, hdrop, hset, leaves_internal]
      simp

/-- Filling a valid path yields the entry sequence in context order. -/
theorem list_all_fillB [LinearOrder K] {ord : Nat}
    (path : List (BCtx K V)) (lo hi : Option K) (t : BPT K V)
    (hp : PathOk ord path lo hi) :
    list_all (fillB t path) = ctxEL path ++ list_all t ++ ctxER path := by
  rw [list_all, leaves_fillB path lo hi t hp]
  rw [List.map_append, List.map_append, List.flatten_append,
    List.flatten_append]
  rfl

/-- Filling a valid path with a well-formed subtree gives a well-formed
tree. -/
theorem fillB_WF [LinearOrder K] {ord : Nat} :
    ∀ (path : List (BCtx K V)) (lo hi : Option K) (s : BPT K V),
      PathOk ord path lo hi → WF ord path.isEmpty lo hi s →
      WF ord true none none (fillB s path) := by
  intro path
  induction path with
  | nil =>
      intro lo hi s hp hwf
      obtain ⟨h1, h2⟩ := hp
      subst h1; subst h2
      simpa [fillB_nil] using hwf
  | cons c rest ih =>
      intro lo hi s hp hwf
      obtain ⟨plo, phi, ksA, ksB, csA, ch, csB, hrest, hks, hcs, hlA, hcA,
        hpw, hin, ho1, ho2, hlo, hhi, hf2A, hf2B⟩ := hp
      rw [fillB_cons]
      refine ih plo phi _ hrest ?_
      have hset : c.children.set c.pos s = csA ++ s :: csB := by
        rw [hcs, ← hcA, set_at_length]
      rw [hset]
      have hf2 : List.Forall₂ (fun b c => WF ord false b.1 b.2 c)
          (boundsList plo phi c.keys) (csA ++ s :: csB) := by
        rw [hks, show ksA ++ ksB = ksA ++ [] ++ ksB by simp, boundsList_mid,
          List.append_assoc]
        refine f2_append hf2A ?_
        rw [show boundsList (lastBnd plo ksA) (headBnd phi ksB) [] =
              [(lastBnd plo ksA, headBnd phi ksB)] from rfl]
        have hmid : List.Forall₂ (fun b c => WF ord false b.1 b.2 c)
            [(lastBnd plo ksA, headBnd phi ksB)] [s] := by
          refine List.Forall₂.cons ?_ List.Forall₂.nil
          rw [← hlo, ← hhi]
          simpa using hwf
        simpa using f2_append hmid hf2B
      have hlens := ChildrenWF_iff_zip.mp hf2
      exact WF.internal _ plo phi c.keys _ hlens.1 hpw hin ho1 ho2 hlens.2

theorem f2_mem_right {α β : Type} {R : α → β → Prop} :
    ∀ {bs : List α} {cs : List β}, List.Forall₂ R bs cs →
      ∀ c ∈ cs, ∃ b ∈ bs, R b c := by
  intro bs cs h
  induction h with
  | nil => intro c hc; simp at hc
  | cons hr hrest ih =>
      intro c hc
      rcases List.mem_cons.mp hc with h1 | h1
      · subst h1; exact ⟨_, by simp, hr⟩
      · obtain ⟨b, hb, hrb⟩ := ih c h1
        exact ⟨b, by simp [hb], hrb⟩

theorem pairwise_le_getLast [LinearOrder K] :
    ∀ (A : List K) (m : K), List.Pairwise (fun a b => a < b) A →
      A.getLast? = some m → ∀ a ∈ A, a ≤ m := by
  intro A
  induction A with
  | nil => intro m _ h; simp at h
  | cons x A ih =>
      intro m hpw hl a ha
      rcases List.pairwise_cons.mp hpw with ⟨hx, hpw2⟩
      cases A with
      | nil =>
          have h1 : x = m := by simpa using hl
          have h2 : a = x := by simpa using ha
          simp [h1, h2]
      | cons y A2 =>
          have hl2 : (y :: A2).getLast? = some m := by
            rw [List.getLast?_cons_cons] at hl; exact hl
          rcases List.mem_cons.mp ha with h1 | h1
          · subst h1
            exact le_of_lt (hx m (List.mem_of_mem_getLast? hl2))
          · exact ih m hpw2 hl2 a h1

theorem tailBL_mem_fst (phi : Option K) :
    ∀ (ksB : List K) (p : Option K × Option K), p ∈ tailBL phi ksB →
      ∃ k ∈ ksB, p.1 = some k := by
  intro ksB p hp
  cases ksB with
  | nil => simp [tailBL] at hp
  | cons b B =>
      rw [tailBL] at hp
      rcases boundsList_fst_mem (some b) phi B p hp with h | ⟨k, hk, he⟩
      · exact ⟨b, by simp, h⟩
      · exact ⟨k, by simp [hk], he⟩

/-- Entries of the left context are below, and of the right context
above, every key in the hole interval. -/
theorem PathOk_ctx_bounds [LinearOrder K] {ord : Nat} :
    ∀ (path : List (BCtx K V)) (lo hi : Option K), PathOk ord path lo hi →
      ∀ x, inB lo hi x →
        (∀ p ∈ ctxEL path, p.1 < x) ∧ (∀ q ∈ ctxER path, x < q.1) := by
  intro path
  induction path with
  | nil =>
      intro lo hi _ x _
      constructor <;>
        (intro p hp; simp [ctxEL, ctxER, ctxLeavesL, ctxLeavesR] at hp)
  | cons c rest ih =>
      intro lo hi hp x hx
      obtain ⟨plo, phi, ksA, ksB, csA, ch, csB, hrest, hks, hcs, hlA, hcA,
        hpw, hin, ho1, ho2, hlo, hhi, hf2A, hf2B⟩ := hp
      have htake : c.children.take c.pos = csA := by
        rw [hcs, ← hcA, List.take_left]
      have hdrop : c.children.drop (c.pos + 1) = csB := by
        rw [hcs, ← hcA, drop_at_length_succ]
      have hpwA : List.Pairwise (fun a b => a < b) ksA :=
        (List.pairwise_append.mp (hks ▸ hpw)).1
      have hpwB : List.Pairwise (fun a b => a < b) ksB :=
        (List.pairwise_append.mp (hks ▸ hpw)).2.1
      have hx2 : inB plo phi x := by
        constructor
        · intro a ha
          cases hg : ksA.getLast? with
          | none =>
              refine hx.1 a ?_
              rw [hlo, lastBnd, hg]
              exact ha
          | some m =>
              have hmx : m ≤ x := hx.1 m (by rw [hlo, lastBnd, hg]; simp)
              have hm : m ∈ c.keys := by
                rw [hks]
                exact List.mem_append_left _ (List.mem_of_mem_getLast? hg)
              exact le_trans ((hin m hm).1 a ha) hmx
        · intro b hb
          cases hh : ksB.head? with
          | none =>
              refine hx.2 b ?_
              rw [hhi, headBnd, hh]
              exact hb
          | some m =>
              have hxm : x < m := hx.2 m (by rw [hhi, headBnd, hh]; simp)
              have hm : m ∈ c.keys := by
                rw [hks]
                exact List.mem_append_right _ (List.mem_of_mem_head? hh)
              exact lt_trans hxm ((hin m hm).2 b hb)
      have hihs := ih plo phi hrest x hx2
      constructor
      · intro p hp2
        rw [ctxEL_cons, htake] at hp2
        rcases List.mem_append.mp hp2 with h | h
        · exact hihs.1 p h
        · rw [List.mem_flatten] at h
          obtain ⟨la, hla, hpla⟩ := h
          rw [List.mem_map] at hla
          obtain ⟨q, hq, hqe⟩ := hla
          obtain ⟨bpair, hbmem, hwfq⟩ := f2_mem_right hf2A q hq
          obtain ⟨k, hkA, hksnd⟩ := frontBL_snd_mem plo ksA bpair hbmem
          have hpk := (WF_entries_inB hwfq p (hqe ▸ hpla)).2
          have hplt : p.1 < k := by
            refine hpk k ?_
            rw [hksnd]; simp
          cases hg : ksA.getLast? with
          | none =>
              rw [List.getLast?_eq_none_iff] at hg
              rw [hg] at hkA
              simp at hkA
          | some m =>
              have hkm : k ≤ m := pairwise_le_getLast ksA m hpwA hg k hkA
              have hmx : m ≤ x := hx.1 m (by rw [hlo, lastBnd, hg]; simp)
              exact lt_of_lt_of_le hplt (le_trans hkm hmx)
      · intro q hq2
        rw [ctxER_cons, hdrop] at hq2
        rcases List.mem_append.mp hq2 with h | h
        · rw [List.mem_flatten] at h
          obtain ⟨la, hla, hqla⟩ := h
          rw [List.mem_map] at hla
          obtain ⟨w, hw, hwe⟩ := hla
          obtain ⟨bpair, hbmem, hwfw⟩ := f2_mem_right hf2B w hw
          obtain ⟨k, hkB, hkfst⟩ := tailBL_mem_fst phi ksB bpair hbmem
          have hqk := (WF_entries_inB hwfw q (hwe ▸ hqla)).1
          have hkle : k ≤ q.1 := by
            refine hqk k ?_
            rw [hkfst]; simp
          cases ksB with
          | nil => simp at hkB
          | cons b B =>
              have hxb : x < b := hx.2 b (by rw [hhi, headBnd]; simp)
              have hbk : b ≤ k := by
                rcases List.mem_cons.mp hkB with h1 | h1
                · simp [h1]
                · exact le_of_lt ((List.pairwise_cons.mp hpwB).1 k h1)
              exact lt_of_lt_of_le hxb (le_trans hbk hkle)
        · exact hihs.2 q h

theorem pyInsert_length {α : Type} (i : Nat) (a : α) (l : List α) :
    (pyInsert i a l).length = l.length + 1 := by
  rw [pyInsert_eq]
  simp
  omega

theorem pyInsert_mem {α : Type} (i : Nat) (a : α) (l : List α) (x : α)
    (h : x ∈ pyInsert i a l) : x = a ∨ x ∈ l := by
  rw [pyInsert_eq] at h
  rcases List.mem_append.mp h with h1 | h1
  · exact Or.inr (List.mem_of_mem_take h1)
  · rcases List.mem_cons.mp h1 with h2 | h2
    · exact Or.inl h2
    · exact Or.inr (List.mem_of_mem_drop h2)

theorem scanPos_cons [LinearOrder K] (key a : K) (l : List K) :
    scanPos key (a :: l) = if a < key then scanPos key l + 1 else 0 := rfl

theorem scan_found [LinearOrder K] [Inhabited K] (key : K) :
    ∀ ks : List K, List.Pairwise (fun a b => a < b) ks → key ∈ ks →
      scanPos key ks < ks.length ∧
      ks.getD (scanPos key ks) default = key := by
  intro ks
  induction ks with
  | nil => intro _ h; simp at h
  | cons a ks ih =>
      intro hpw hmem
      rcases List.pairwise_cons.mp hpw with ⟨ha, hpw2⟩
      by_cases hlt : a < key
      · have hne : key ≠ a := ne_of_gt hlt
        have hmem2 : key ∈ ks := by
          rcases List.mem_cons.mp hmem with h | h
          · exact absurd h hne
          · exact h
        obtain ⟨h1, h2⟩ := ih hpw2 hmem2
        rw [scanPos_cons, if_pos hlt]
        exact ⟨by simpa using h1, by simpa using h2⟩
      · have hka : key = a := by
          rcases List.mem_cons.mp hmem with h | h
          · exact h
          · exact absurd (ha key h) hlt
        rw [scanPos_cons, if_neg hlt]
        simp [hka]

theorem scan_not_found [LinearOrder K] [Inhabited K] (key : K)
    (ks : List K) (hmem : key ∉ ks) :
    ¬(scanPos key ks < ks.length ∧
      ks.getD (scanPos key ks) default = key) := by
  rintro ⟨hlt, heq⟩
  apply hmem
  rw [List.getD_eq_getElem?_getD, List.getElem?_eq_getElem hlt] at heq
  simp only [Option.getD_some] at heq
  exact heq ▸ List.getElem_mem hlt

theorem zip_upsert_present [LinearOrder K] (key : K) (v : V) :
    ∀ (ks : List K) (vs : List V), List.Pairwise (fun a b => a < b) ks →
      ks.length = vs.length → key ∈ ks →
      ks.zip (vs.set (scanPos key ks) v) = upsert key v (ks.zip vs) := by
  intro ks
  induction ks with
  | nil => intro vs _ _ h; simp at h
  | cons a ks ih =>
      intro vs hpw hlen hmem
      cases vs with
      | nil => simp at hlen
      | cons b vs =>
          rcases List.pairwise_cons.mp hpw with ⟨ha, hpw2⟩
          by_cases hlt : a < key
          · have hne : key ≠ a := ne_of_gt hlt
            have hmem2 : key ∈ ks := by
              rcases List.mem_cons.mp hmem with h | h
              · exact absurd h hne
              · exact h
            rw [scanPos_cons, if_pos hlt, List.set_cons_succ,
              List.zip_cons_cons, List.zip_cons_cons, upsert,
              if_neg (by simpa using not_lt_of_lt hlt), if_neg (by simpa using hne)]
            rw [ih vs hpw2 (by simpa using hlen) hmem2]
          · have hka : key = a := by
              rcases List.mem_cons.mp hmem with h | h
              · exact h
              · exact absurd (ha key h) hlt
            rw [scanPos_cons, if_neg hlt, List.set_cons_zero,
              List.zip_cons_cons, List.zip_cons_cons, upsert,
              if_neg (by simp [hka]), if_pos (by simp [hka])]
            rw [hka]

theorem zip_upsert_absent [LinearOrder K] (key : K) (v : V) :
    ∀ (ks : List K) (vs : List V), List.Pairwise (fun a b => a < b) ks →
      ks.length = vs.length → key ∉ ks →
      (pyInsert (scanPos key ks) key ks).zip
          (pyInsert (scanPos key ks) v vs) =
        upsert key v (ks.zip vs) := by
  intro ks
  induction ks with
  | nil =>
      intro vs _ hlen _
      cases vs with
      | nil => simp [scanPos, pyInsert, upsert]
      | cons b vs => simp at hlen
  | cons a ks ih =>
      intro vs hpw hlen hmem
      rcases List.pairwise_cons.mp hpw with ⟨ha, hpw2⟩
      have hne : key ≠ a := fun h => hmem (by simp [h])
      cases vs with
      | nil => simp at hlen
      | cons b vs =>
          by_cases hlt : a < key
          · have hmem2 : key ∉ ks := fun h => hmem (by simp [h])
            rw [scanPos_cons, if_pos hlt,
              show pyInsert (scanPos key ks + 1) key (a :: ks) =
                a :: pyInsert (scanPos key ks) key ks from rfl,
              show pyInsert (scanPos key ks + 1) v (b :: vs) =
                b :: pyInsert (scanPos key ks) v vs from rfl,
              List.zip_cons_cons, List.zip_cons_cons, upsert,
              if_neg (by simpa using not_lt_of_lt hlt), if_neg (by simpa using hne)]
            rw [ih vs hpw2 (by simpa using hlen) hmem2]
          · have hka : key < a := lt_of_le_of_ne (not_lt.mp hlt) hne
            rw [scanPos_cons, if_neg hlt]
            rw [show pyInsert 0 key (a :: ks) = key :: a :: ks from rfl,
              show pyInsert 0 v (b :: vs) = v :: b :: vs from rfl,
              List.zip_cons_cons, List.zip_cons_cons, upsert,
              if_pos (by simpa using hka)]

theorem pyInsert_sorted [LinearOrder K] (key : K) :
    ∀ ks : List K, List.Pairwise (fun a b => a < b) ks → key ∉ ks →
      List.Pairwise (fun a b => a < b)
        (pyInsert (scanPos key ks) key ks) := by
  intro ks
  induction ks with
  | nil => intro _ _; simp [scanPos, pyInsert]
  | cons a ks ih =>
      intro hpw hmem
      rcases List.pairwise_cons.mp hpw with ⟨ha, hpw2⟩
      have hne : key ≠ a := fun h => hmem (by simp [h])
      by_cases hlt : a < key
      · have hmem2 : key ∉ ks := fun h => hmem (by simp [h])
        rw [scanPos_cons, if_pos hlt,
          show pyInsert (scanPos key ks + 1) key (a :: ks) =
            a :: pyInsert (scanPos key ks) key ks from rfl]
        refine List.Pairwise.cons ?_ (ih hpw2 hmem2)
        intro x hx
        rcases pyInsert_mem _ _ _ x hx with h | h
        · rw [h]; exact hlt
        · exact ha x h
      · have hka : key < a := lt_of_le_of_ne (not_lt.mp hlt) hne
        rw [scanPos_cons, if_neg hlt,
          show pyInsert 0 key (a :: ks) = key :: a :: ks from rfl]
        refine List.Pairwise.cons ?_ hpw
        intro x hx
        rcases List.mem_cons.mp hx with h | h
        · rw [h]; exact hka
        · exact lt_trans hka (ha x h)

theorem take_left_of_length {α : Type} {A : List α} {n : Nat}
    (h : A.length = n) (B : List α) : (A ++ B).take n = A := by
  rw [← h, List.take_left]

theorem drop_left_of_length {α : Type} {A : List α} {n : Nat}
    (h : A.length = n) (B : List α) : (A ++ B).drop n = B := by
  rw [← h, List.drop_left]

/-- What `_split_internal` does to an overflowing internal node: the two
halves are well formed on either side of the pulled-up key, which is
strictly inside the outer bounds, and together they carry all leaves. -/
theorem splitInternal_pieces [LinearOrder K] [Inhabited K] {ord : Nat}
    (hord : 3 ≤ ord) (lo hi : Option K) (ks : List K) (cs : List (BPT K V))
    (hkl : ks.length = ord) (hcl : cs.length = ord + 1)
    (hpw : List.Pairwise (fun a b => a < b) ks)
    (hin : ∀ k ∈ ks, inB lo hi k)
    (hch : ∀ p ∈ (boundsList lo hi ks).zip cs, WF ord false p.1.1 p.1.2 p.2) :
    WF ord false lo (some (ks.getD (ks.length / 2) default))
        (.internal (ks.take (ks.length / 2)) (cs.take (ks.length / 2 + 1))) ∧
    WF ord false (some (ks.getD (ks.length / 2) default)) hi
        (.internal (ks.drop (ks.length / 2 + 1)) (cs.drop (ks.length / 2 + 1))) ∧
    (∀ a ∈ lo, a < ks.getD (ks.length / 2) default) ∧
    (∀ b ∈ hi, ks.getD (ks.length / 2) default < b) ∧
    ((cs.take (ks.length / 2 + 1)).map leaves).flatten ++
        ((cs.drop (ks.length / 2 + 1)).map leaves).flatten =
      (cs.map leaves).flatten := by
  have hmid1 : 1 ≤ ks.length / 2 := by omega
  have hmidlt : ks.length / 2 < ks.length := by omega
  set mid := ks.length / 2 with hmiddef
  have hskel : ks.getD mid default = ks[mid] := by
    rw [List.getD_eq_getElem?_getD, List.getElem?_eq_getElem hmidlt]; rfl
  have hdecomp : ks = ks.take mid ++ ks.getD mid default :: ks.drop (mid + 1) := by
    rw [hskel, ← List.drop_eq_getElem_cons hmidlt, List.take_append_drop]
  set sk := ks.getD mid default with hskdef
  have hlenL : (ks.take mid).length = mid := by
    rw [List.length_take]; omega
  have hlenR : (ks.drop (mid + 1)).length = ks.length - (mid + 1) := by
    rw [List.length_drop]
  -- split the children according to the bound decomposition
  have hcw : ChildrenWF ord lo hi ks cs := ChildrenWF_iff_zip.mpr ⟨by omega, hch⟩
  rw [ChildrenWF] at hcw
  rw [hdecomp, show ks.take mid ++ sk :: ks.drop (mid + 1) =
        ks.take mid ++ [sk] ++ ks.drop (mid + 1) by simp,
      boundsList_mid, List.append_assoc] at hcw
  obtain ⟨csL0, csR0, hcseq, hcsL0len, hf2L, hf2R0⟩ := f2_decomp hcw
  rw [show boundsList (lastBnd lo (ks.take mid))
        (headBnd hi (ks.drop (mid + 1))) [sk] =
      [(lastBnd lo (ks.take mid), some sk),
       (some sk, headBnd hi (ks.drop (mid + 1)))] from rfl] at hf2R0
  rw [show ([(lastBnd lo (ks.take mid), some sk),
       (some sk, headBnd hi (ks.drop (mid + 1)))] ++
        tailBL hi (ks.drop (mid + 1))) =
      [(lastBnd lo (ks.take mid), some sk)] ++
        ((some sk, headBnd hi (ks.drop (mid + 1))) ::
          tailBL hi (ks.drop (mid + 1))) from rfl] at hf2R0
  obtain ⟨csM, csB1, hcseq2, hcsMlen, hf2M, hf2B1⟩ := f2_decomp hf2R0
  obtain ⟨cM1, hchMeq, hwfM1⟩ := f2_singleton hf2M
  subst hchMeq
  cases hf2B1 with
  | cons hwfM2 hf2B0 =>
    rename_i cM2 csB0
    rw [hcseq2] at hcseq
    -- identify the halves with take/drop
    have hcsL : cs.take (mid + 1) = csL0 ++ [cM1] := by
      rw [hcseq, show csL0 ++ ([cM1] ++ cM2 :: csB0) =
            (csL0 ++ [cM1]) ++ cM2 :: csB0 by simp]
      refine take_left_of_length ?_ _
      rw [List.length_append, hcsL0len, frontBL_length, hlenL]
      simp
    have hcsB : cs.drop (mid + 1) = cM2 :: csB0 := by
      rw [hcseq, show csL0 ++ ([cM1] ++ cM2 :: csB0) =
            (csL0 ++ [cM1]) ++ cM2 :: csB0 by simp]
      refine drop_left_of_length ?_ _
      rw [List.length_append, hcsL0len, frontBL_length, hlenL]
      simp
    -- pairwise pieces and membership facts
    have hpwL : List.Pairwise (fun a b => a < b) (ks.take mid) :=
      (List.pairwise_append.mp (hdecomp ▸ hpw)).1
    have hpwR : List.Pairwise (fun a b => a < b) (sk :: ks.drop (mid + 1)) :=
      (List.pairwise_append.mp (hdecomp ▸ hpw)).2.1
    have hcross : ∀ a ∈ ks.take mid, ∀ b ∈ sk :: ks.drop (mid + 1), a < b :=
      (List.pairwise_append.mp (hdecomp ▸ hpw)).2.2
    have hskmem : sk ∈ ks := by rw [hdecomp]; simp
    have hinL : ∀ k ∈ ks.take mid, inB lo (some sk) k := by
      intro k hk
      refine ⟨(hin k (List.mem_of_mem_take hk)).1, fun b hb => ?_⟩
      have hbs : sk = b := by simpa using hb
      subst hbs
      exact hcross k hk sk (by simp)
    have hinR : ∀ k ∈ ks.drop (mid + 1), inB (some sk) hi k := by
      intro k hk
      refine ⟨fun a ha => ?_, (hin k (List.mem_of_mem_drop hk)).2⟩
      have has : sk = a := by simpa using ha
      subst has
      exact le_of_lt ((List.pairwise_cons.mp hpwR).1 k hk)
    -- the pulled-up key is strictly inside the outer bounds
    have hstrictL : ∀ a ∈ lo, a < sk := by
      intro a ha
      cases htk : ks.take mid with
      | nil =>
          exfalso
          have := congrArg List.length htk
          rw [hlenL] at this
          simp at this
          omega
      | cons k0 tl =>
          have hk0 : k0 ∈ ks.take mid := by rw [htk]; simp
          have h1 : a ≤ k0 := (hin k0 (List.mem_of_mem_take hk0)).1 a ha
          exact lt_of_le_of_lt h1 (hcross k0 hk0 sk (by simp))
    have hstrictR : ∀ b ∈ hi, sk < b := (hin sk hskmem).2
    have hblL : boundsList lo (some sk) (ks.take mid) =
        frontBL lo (ks.take mid) ++ [(lastBnd lo (ks.take mid), some sk)] :=
      boundsList_eq lo (some sk) (ks.take mid)
    have hblR : boundsList (some sk) hi (ks.drop (mid + 1)) =
        (some sk, headBnd hi (ks.drop (mid + 1))) ::
          tailBL hi (ks.drop (mid + 1)) := by
      cases hdk : ks.drop (mid + 1) with
      | nil => simp [boundsList, tailBL, headBnd]
      | cons r R => simp [boundsList, tailBL, headBnd]
    refine ⟨?_, ?_, hstrictL, hstrictR, ?_⟩
    · -- left half
      have hf2 : List.Forall₂ (fun b c => WF ord false b.1 b.2 c)
          (boundsList lo (some sk) (ks.take mid)) (csL0 ++ [cM1]) := by
        rw [hblL]
        refine f2_append hf2L ?_
        exact List.Forall₂.cons hwfM1 List.Forall₂.nil
      rw [hcsL]
      have hl2 := ChildrenWF_iff_zip.mp hf2
      refine WF.internal false lo (some sk) _ _ hl2.1 hpwL hinL ?_ ?_ hl2.2
      · rw [hlenL]; omega
      · rw [hlenL]
        simp only [Bool.false_eq_true, if_false]
        omega
    · -- right half
      have hf2 : List.Forall₂ (fun b c => WF ord false b.1 b.2 c)
          (boundsList (some sk) hi (ks.drop (mid + 1))) (cM2 :: csB0) := by
        rw [hblR]
        exact List.Forall₂.cons hwfM2 hf2B0
      rw [hcsB]
      have hl2 := ChildrenWF_iff_zip.mp hf2
      refine WF.internal false (some sk) hi _ _ hl2.1
        (List.pairwise_cons.mp hpwR).2 hinR ?_ ?_ hl2.2
      · rw [hlenR]; omega
      · rw [hlenR]
        simp only [Bool.false_eq_true, if_false]
        omega
    · rw [← List.flatten_append, ← List.map_append, List.take_append_drop]

theorem take_at_length_succ {α : Type} :
    ∀ (A : List α) (x : α) (B : List α),
      (A ++ x :: B).take (A.length + 1) = A ++ [x] := by
  intro A
  induction A with
  | nil => intro x B; simp
  | cons a A ih => intro x B; simpa using ih x B

/-- One `_insert_internal` call: the separator and right node land right
after the focused position, producing a node over the parent's bounds
whose children are collectively well formed; the result then either
splits or fills, by the overflow test. -/
theorem insertInternalGo_step [LinearOrder K] [Inhabited K] {ord : Nat}
    (rest : List (BCtx K V)) (ctx : BCtx K V)
    (lo hi : Option K) (L R : BPT K V) (s : K)
    (hpath : PathOk ord (ctx :: rest) lo hi)
    (hL : WF ord false lo (some s) L) (hR : WF ord false (some s) hi R)
    (hsl : ∀ a ∈ lo, a < s) (hsr : ∀ b ∈ hi, s < b) :
    ∃ (plo phi : Option K) (ks2 : List K) (cs2 : List (BPT K V)),
      PathOk ord rest plo phi ∧
      insertInternalGo ord ctx L s R rest =
        (if ks2.length > ord - 1 then splitInternalGo ord ks2 cs2 rest
         else fillB (.internal ks2 cs2) rest) ∧
      ks2.length = ctx.keys.length + 1 ∧
      cs2.length = ks2.length + 1 ∧
      List.Pairwise (fun a b => a < b) ks2 ∧
      (∀ k ∈ ks2, inB plo phi k) ∧
      (∀ p ∈ (boundsList plo phi ks2).zip cs2,
        WF ord false p.1.1 p.1.2 p.2) ∧
      ((if rest.isEmpty then 1 else (ord+1)/2 - 1) ≤ ctx.keys.length) ∧
      ctx.keys.length ≤ ord - 1 ∧
      (cs2.map leaves).flatten =
        ((ctx.children.take ctx.pos).map leaves).flatten ++ leaves L ++
          leaves R ++
          ((ctx.children.drop (ctx.pos + 1)).map leaves).flatten := by
  obtain ⟨plo, phi, ksA, ksB, csA, ch, csB, hrest, hks, hcs, hlA, hcA,
    hpw, hin, ho1, ho2, hlo, hhi, hf2A, hf2B⟩ := hpath
  -- facts about the two key blocks around the hole
  have hpwA : List.Pairwise (fun a b => a < b) ksA :=
    (List.pairwise_append.mp (hks ▸ hpw)).1
  have hpwB : List.Pairwise (fun a b => a < b) ksB :=
    (List.pairwise_append.mp (hks ▸ hpw)).2.1
  have hcrossAB : ∀ a ∈ ksA, ∀ b ∈ ksB, a < b :=
    (List.pairwise_append.mp (hks ▸ hpw)).2.2
  have hAlt : ∀ a ∈ ksA, a < s := by
    intro a ha
    cases hg : ksA.getLast? with
    | none =>
        rw [List.getLast?_eq_none_iff] at hg
        rw [hg] at ha
        simp at ha
    | some m =>
        have h1 : a ≤ m := pairwise_le_getLast ksA m hpwA hg a ha
        have h2 : m < s := by
          refine hsl m ?_
          rw [hlo, lastBnd, hg]
          simp
        exact lt_of_le_of_lt h1 h2
  have hBgt : ∀ b ∈ ksB, s < b := by
    intro b hb
    cases hBs : ksB with
    | nil => rw [hBs] at hb; simp at hb
    | cons b0 B =>
        have hsb0 : s < b0 := by
          refine hsr b0 ?_
          rw [hhi, headBnd, hBs]
          simp
        rw [hBs] at hb
        rcases List.mem_cons.mp hb with h | h
        · rw [h]; exact hsb0
        · refine lt_trans hsb0 ?_
          have := hBs ▸ hpwB
          exact (List.pairwise_cons.mp this).1 b h
  -- the scan lands exactly at the hole position
  have hscan : scanPos s ctx.keys = ctx.pos := by
    rw [hks, ← hlA]
    refine scanPos_append s ksA ksB hAlt ?_
    intro b hb
    exact not_lt_of_lt (hBgt b (List.mem_of_mem_head? hb))
  have htakeK : ctx.keys.take ctx.pos = ksA := by
    rw [hks, ← hlA, List.take_left]
  have hdropK : ctx.keys.drop ctx.pos = ksB := by
    rw [hks, ← hlA, List.drop_left]
  have hks2 : pyInsert (scanPos s ctx.keys) s ctx.keys = ksA ++ s :: ksB := by
    rw [pyInsert_eq, hscan, htakeK, hdropK]
  have hcs2 : pyInsert (scanPos s ctx.keys + 1) R
      (ctx.children.set ctx.pos L) = csA ++ L :: R :: csB := by
    rw [pyInsert_eq, hscan]
    have hset : ctx.children.set ctx.pos L = csA ++ L :: csB := by
      rw [hcs, ← hcA, set_at_length]
    rw [hset, ← hcA, take_at_length_succ, drop_at_length_succ]
    simp
  refine ⟨plo, phi, ksA ++ s :: ksB, csA ++ L :: R :: csB, hrest, ?_, ?_, ?_,
    ?_, ?_, ?_, ?_, ?_, ?_⟩
  · rw [insertInternalGo, hks2, hcs2]
  · rw [hks]; simp; omega
  · have h1 : csA.length = ksA.length := by rw [hcA, hlA]
    have h2 : csB.length = ksB.length := by
      rw [← List.Forall₂.length_eq hf2B, tailBL_length]
    simp [h1, h2]
    omega
  · rw [List.pairwise_append]
    refine ⟨hpwA, ?_, ?_⟩
    · rw [List.pairwise_cons]
      exact ⟨hBgt, hpwB⟩
    · intro a ha b hb
      rcases List.mem_cons.mp hb with h | h
      · rw [h]; exact hAlt a ha
      · exact hcrossAB a ha b h
  · intro k hk
    rcases List.mem_append.mp hk with h | h
    · exact hin k (by rw [hks]; exact List.mem_append_left _ h)
    · rcases List.mem_cons.mp h with h2 | h2
      · subst h2
        constructor
        · intro a ha
          cases hg : ksA.getLast? with
          | none =>
              refine le_of_lt (hsl a ?_)
              rw [hlo, lastBnd, hg]
              exact ha
          | some m =>
              have hm : m ∈ ctx.keys := by
                rw [hks]
                exact List.mem_append_left _ (List.mem_of_mem_getLast? hg)
              have h3 : m < k := by
                refine hsl m ?_
                rw [hlo, lastBnd, hg]; simp
              exact le_trans ((hin m hm).1 a ha) (le_of_lt h3)
        · intro b hb
          cases hh : ksB.head? with
          | none =>
              refine hsr b ?_
              rw [hhi, headBnd, hh]
              exact hb
          | some m =>
              have hm : m ∈ ctx.keys := by
                rw [hks]
                exact List.mem_append_right _ (List.mem_of_mem_head? hh)
              have h3 : k < m := by
                refine hsr m ?_
                rw [hhi, headBnd, hh]; simp
              exact lt_trans h3 ((hin m hm).2 b hb)
      · exact hin k (by rw [hks]; exact List.mem_append_right _ h2)
  · -- children of the new node are collectively well formed
    have hf2 : List.Forall₂ (fun b c => WF ord false b.1 b.2 c)
        (boundsList plo phi (ksA ++ s :: ksB)) (csA ++ L :: R :: csB) := by
      rw [show ksA ++ s :: ksB = ksA ++ [s] ++ ksB by simp, boundsList_mid,
        List.append_assoc]
      refine f2_append hf2A ?_
      rw [show boundsList (lastBnd plo ksA) (headBnd phi ksB) [s] =
            [(lastBnd plo ksA, some s), (some s, headBnd phi ksB)] from rfl]
      have hL2 : WF ord false (lastBnd plo ksA) (some s) L := by
        rw [← hlo]; exact hL
      have hR2 : WF ord false (some s) (headBnd phi ksB) R := by
        rw [← hhi]; exact hR
      exact List.Forall₂.cons hL2 (List.Forall₂.cons hR2 hf2B)
    exact (ChildrenWF_iff_zip.mp hf2).2
  · exact ho2
  · exact ho1
  · have htake : ctx.children.take ctx.pos = csA := by
      rw [hcs, ← hcA, List.take_left]
    have hdrop : ctx.children.drop (ctx.pos + 1) = csB := by
      rw [hcs, ← hcA, drop_at_length_succ]
    rw [htake, hdrop]
    simp

theorem splitInternalGo_nil_eq [LinearOrder K] [Inhabited K] (ord : Nat)
    (ks : List K) (cs : List (BPT K V)) :
    splitInternalGo ord ks cs [] =
      .internal [ks.getD (ks.length / 2) default]
        [.internal (ks.take (ks.length / 2)) (cs.take (ks.length / 2 + 1)),
         .internal (ks.drop (ks.length / 2 + 1))
           (cs.drop (ks.length / 2 + 1))] := by
  rw [splitInternalGo]

theorem splitInternalGo_cons_eq [LinearOrder K] [Inhabited K] (ord : Nat)
    (ks : List K) (cs : List (BPT K V)) (ctx : BCtx K V)
    (rest : List (BCtx K V)) :
    splitInternalGo ord ks cs (ctx :: rest) =
      insertInternalGo ord ctx
        (.internal (ks.take (ks.length / 2)) (cs.take (ks.length / 2 + 1)))
        (ks.getD (ks.length / 2) default)
        (.internal (ks.drop (ks.length / 2 + 1))
          (cs.drop (ks.length / 2 + 1))) rest := by
  rw [splitInternalGo]

/-- `_insert_internal` with a fresh separator and right sibling, applied
along a valid path, yields a well-formed tree whose leaf sequence places
the two nodes' leaves exactly in the hole. -/
theorem insertInternalGo_ok [LinearOrder K] [Inhabited K] {ord : Nat}
    (hord : 3 ≤ ord) :
    ∀ (rest : List (BCtx K V)) (ctx : BCtx K V) (lo hi : Option K)
      (L R : BPT K V) (s : K),
      PathOk ord (ctx :: rest) lo hi →
      WF ord false lo (some s) L →
      WF ord false (some s) hi R →
      (∀ a ∈ lo, a < s) → (∀ b ∈ hi, s < b) →
      WF ord true none none (insertInternalGo ord ctx L s R rest) ∧
      leaves (insertInternalGo ord ctx L s R rest) =
        ctxLeavesL (ctx :: rest) ++ leaves L ++ leaves R ++
          ctxLeavesR (ctx :: rest) := by
  intro rest
  induction rest with
  | nil =>
      intro ctx lo hi L R s hpath hL hR hsl hsr
      obtain ⟨plo, phi, ks2, cs2, hrest, heq, hkl, hcl, hpw2, hin2, hch2,
        ho2, ho1, hleq⟩ :=
        insertInternalGo_step [] ctx lo hi L R s hpath hL hR hsl hsr
      obtain ⟨hplo, hphi⟩ := hrest
      subst hplo; subst hphi
      rw [heq]
      have hctxL : ctxLeavesL [ctx] =
          ((ctx.children.take ctx.pos).map leaves).flatten := by
        simp [ctxLeavesL]
      have hctxR : ctxLeavesR [ctx] =
          ((ctx.children.drop (ctx.pos + 1)).map leaves).flatten := by
        simp [ctxLeavesR]
      by_cases hover : ks2.length > ord - 1
      · rw [if_pos hover]
        have hkord : ks2.length = ord := by omega
        have hcord : cs2.length = ord + 1 := by omega
        obtain ⟨hwL, hwR, hstL, hstR, hlv⟩ :=
          splitInternal_pieces hord none none ks2 cs2 hkord hcord hpw2
            hin2 hch2
        rw [splitInternalGo_nil_eq]
        constructor
        · refine WF.internal true none none _ _ (by simp) (by simp) ?_
            (by simp; omega) (by simp) ?_
          · intro k _
            exact ⟨by simp, by simp⟩
          · intro p hp
            rw [show boundsList (none : Option K) none
                  [ks2.getD (ks2.length / 2) default] =
                [(none, some (ks2.getD (ks2.length / 2) default)),
                 (some (ks2.getD (ks2.length / 2) default), none)]
                from rfl] at hp
            simp only [List.zip_cons_cons, List.zip_nil_right] at hp
            rcases List.mem_cons.mp hp with h | h
            · rw [h]; exact hwL
            · rcases List.mem_cons.mp h with h2 | h2
              · rw [h2]; exact hwR
              · simp at h2
        · rw [leaves_internal]
          simp only [List.map_cons, List.map_nil, List.flatten_cons,
            List.flatten_nil, List.append_nil]
          rw [leaves_internal, leaves_internal, hlv, hleq, hctxL, hctxR]
      · rw [if_neg hover]
        have hwfnode : WF ord true none none (BPT.internal ks2 cs2) := by
          refine WF.internal true none none _ _ hcl hpw2 hin2 (by omega)
            (by simp; omega) hch2
        constructor
        · exact hwfnode
        · rw [fillB_nil, leaves_internal, hleq, hctxL, hctxR]
  | cons ctx2 rest2 ih =>
      intro ctx lo hi L R s hpath hL hR hsl hsr
      obtain ⟨plo, phi, ks2, cs2, hrest, heq, hkl, hcl, hpw2, hin2, hch2,
        ho2, ho1, hleq⟩ :=
        insertInternalGo_step (ctx2 :: rest2) ctx lo hi L R s hpath hL hR
          hsl hsr
      rw [heq]
      have hctxL : ctxLeavesL (ctx :: ctx2 :: rest2) =
          ctxLeavesL (ctx2 :: rest2) ++
            ((ctx.children.take ctx.pos).map leaves).flatten := by
        rw [ctxLeavesL]
      have hctxR : ctxLeavesR (ctx :: ctx2 :: rest2) =
          ((ctx.children.drop (ctx.pos + 1)).map leaves).flatten ++
            ctxLeavesR (ctx2 :: rest2) := by
        rw [ctxLeavesR]
      by_cases hover : ks2.length > ord - 1
      · rw [if_pos hover]
        have hkord : ks2.length = ord := by omega
        have hcord : cs2.length = ord + 1 := by omega
        obtain ⟨hwL, hwR, hstL, hstR, hlv⟩ :=
          splitInternal_pieces hord plo phi ks2 cs2 hkord hcord hpw2
            hin2 hch2
        rw [splitInternalGo_cons_eq]
        obtain ⟨hwf2, hlv2⟩ := ih ctx2 plo phi _ _ _ hrest hwL hwR hstL hstR
        refine ⟨hwf2, ?_⟩
        rw [hlv2, hctxL, hctxR]
        rw [show leaves (BPT.internal (ks2.take (ks2.length / 2))
              (cs2.take (ks2.length / 2 + 1))) =
            ((cs2.take (ks2.length / 2 + 1)).map leaves).flatten from
          leaves_internal _ _]
        rw [show leaves (BPT.internal (ks2.drop (ks2.length / 2 + 1))
              (cs2.drop (ks2.length / 2 + 1))) =
            ((cs2.drop (ks2.length / 2 + 1)).map leaves).flatten from
          leaves_internal _ _]
        rw [show ctxLeavesL (ctx2 :: rest2) ++
              ((cs2.take (ks2.length / 2 + 1)).map leaves).flatten ++
              ((cs2.drop (ks2.length / 2 + 1)).map leaves).flatten ++
              ctxLeavesR (ctx2 :: rest2) =
            ctxLeavesL (ctx2 :: rest2) ++
              (((cs2.take (ks2.length / 2 + 1)).map leaves).flatten ++
               ((cs2.drop (ks2.length / 2 + 1)).map leaves).flatten) ++
              ctxLeavesR (ctx2 :: rest2) by simp]
        rw [hlv, hleq]
        simp
      · rw [if_neg hover]
        have hwfnode : WF ord
            (ctx2 :: rest2 : List (BCtx K V)).isEmpty plo phi
            (BPT.internal ks2 cs2) := by
          refine WF.internal _ plo phi _ _ hcl hpw2 hin2 (by omega) ?_ hch2
          simp only [List.isEmpty_cons, Bool.false_eq_true, if_false]
          simp only [List.isEmpty_cons, Bool.false_eq_true, if_false] at ho2
          omega
        constructor
        · exact fillB_WF _ plo phi _ hrest hwfnode
        · rw [leaves_fillB _ plo phi _ hrest, leaves_internal, hleq,
            hctxL, hctxR]
          simp

theorem splitLeafGo_nil_eq [LinearOrder K] [Inhabited K] (ord : Nat)
    (ks : List K) (vs : List V) :
    splitLeafGo ord ks vs [] =
      .internal [(ks.drop ((ord + 1) / 2)).headD default]
        [.leaf (ks.take ((ord + 1) / 2)) (vs.take ((ord + 1) / 2)),
         .leaf (ks.drop ((ord + 1) / 2)) (vs.drop ((ord + 1) / 2))] := by
  rw [splitLeafGo]

theorem splitLeafGo_cons_eq [LinearOrder K] [Inhabited K] (ord : Nat)
    (ks : List K) (vs : List V) (ctx : BCtx K V) (rest : List (BCtx K V)) :
    splitLeafGo ord ks vs (ctx :: rest) =
      insertInternalGo ord ctx
        (.leaf (ks.take ((ord + 1) / 2)) (vs.take ((ord + 1) / 2)))
        ((ks.drop ((ord + 1) / 2)).headD default)
        (.leaf (ks.drop ((ord + 1) / 2)) (vs.drop ((ord + 1) / 2))) rest := by
  rw [splitLeafGo]

/-- The two halves produced by `_split_leaf` are well formed around the
copied-up separator (= the new leaf's first key), which stays strictly
inside the outer bounds. -/
theorem splitLeaf_pieces [LinearOrder K] [Inhabited K] {ord : Nat}
    (hord : 3 ≤ ord) (lo hi : Option K) (ks : List K) (vs : List V)
    (hkl : ks.length = ord) (hlen : ks.length = vs.length)
    (hpw : List.Pairwise (fun a b => a < b) ks)
    (hin : ∀ k ∈ ks, inB lo hi k) :
    WF ord false lo (some ((ks.drop ((ord + 1) / 2)).headD default))
        (.leaf (ks.take ((ord + 1) / 2)) (vs.take ((ord + 1) / 2))) ∧
    WF ord false (some ((ks.drop ((ord + 1) / 2)).headD default)) hi
        (.leaf (ks.drop ((ord + 1) / 2)) (vs.drop ((ord + 1) / 2))) ∧
    (∀ a ∈ lo, a < (ks.drop ((ord + 1) / 2)).headD default) ∧
    (∀ b ∈ hi, (ks.drop ((ord + 1) / 2)).headD default < b) := by
  set mid := (ord + 1) / 2 with hmiddef
  have hmid1 : 1 ≤ mid := by omega
  have hmidlt : mid < ks.length := by omega
  have hmidle : mid ≤ ord - 1 := by omega
  have hsep : (ks.drop mid).headD default = ks[mid] := by
    rw [List.drop_eq_getElem_cons hmidlt]
    rfl
  have hdropc : ks.drop mid = (ks.drop mid).headD default :: ks.drop (mid + 1) := by
    rw [hsep]
    exact List.drop_eq_getElem_cons hmidlt
  have hdecomp : ks = ks.take mid ++ (ks.drop mid).headD default :: ks.drop (mid + 1) := by
    rw [← hdropc, List.take_append_drop]
  set sep := (ks.drop mid).headD default with hsepdef
  have hlenL : (ks.take mid).length = mid := by
    rw [List.length_take]; omega
  have hpwL : List.Pairwise (fun a b => a < b) (ks.take mid) :=
    (List.pairwise_append.mp (hdecomp ▸ hpw)).1
  have hpwR : List.Pairwise (fun a b => a < b) (sep :: ks.drop (mid + 1)) :=
    (List.pairwise_append.mp (hdecomp ▸ hpw)).2.1
  have hcross : ∀ a ∈ ks.take mid, ∀ b ∈ sep :: ks.drop (mid + 1), a < b :=
    (List.pairwise_append.mp (hdecomp ▸ hpw)).2.2
  have hsepmem : sep ∈ ks := by rw [hdecomp]; simp
  refine ⟨?_, ?_, ?_, (hin sep hsepmem).2⟩
  · refine WF.leaf false lo (some sep) _ _ hpwL ?_ ?_ (by omega) ?_
    · rw [hlenL, List.length_take]
      omega
    · intro k hk
      refine ⟨(hin k (List.mem_of_mem_take hk)).1, fun b hb => ?_⟩
      have hbs : sep = b := by simpa using hb
      subst hbs
      exact hcross k hk sep (by simp)
    · intro _
      rw [hlenL]; omega
  · rw [hdropc]
    refine WF.leaf false (some sep) hi _ _ hpwR ?_ ?_ ?_ ?_
    · rw [← hdropc]
      rw [List.length_drop, List.length_drop]
      omega
    · intro k hk
      refine ⟨fun a ha => ?_, ?_⟩
      · have has : sep = a := by simpa using ha
        subst has
        rcases List.mem_cons.mp hk with h | h
        · rw [h]
        · exact le_of_lt ((List.pairwise_cons.mp hpwR).1 k h)
      · refine (hin k ?_).2
        rw [hdecomp]
        rcases List.mem_cons.mp hk with h | h
        · rw [h]; simp
        · simp [h]
    · rw [← hdropc, List.length_drop]
      omega
    · intro _
      rw [← hdropc, List.length_drop]
      omega
  · intro a ha
    cases htk : ks.take mid with
    | nil =>
        exfalso
        have := congrArg List.length htk
        rw [hlenL] at this
        simp at this
        omega
    | cons k0 tl =>
        have hk0 : k0 ∈ ks.take mid := by rw [htk]; simp
        have h1 : a ≤ k0 := (hin k0 (List.mem_of_mem_take hk0)).1 a ha
        exact lt_of_le_of_lt h1 (hcross k0 hk0 sep (by simp))

/-- `_split_leaf` along a valid path: the result is well formed and its
leaf chain replaces the overflowing leaf with its two halves in place. -/
theorem splitLeafGo_ok [LinearOrder K] [Inhabited K] {ord : Nat}
    (hord : 3 ≤ ord) (ks : List K) (vs : List V)
    (path : List (BCtx K V)) (lo hi : Option K)
    (hpath : PathOk ord path lo hi)
    (hkl : ks.length = ord) (hlen : ks.length = vs.length)
    (hpw : List.Pairwise (fun a b => a < b) ks)
    (hin : ∀ k ∈ ks, inB lo hi k) :
    WF ord true none none (splitLeafGo ord ks vs path) ∧
    leaves (splitLeafGo ord ks vs path) =
      ctxLeavesL path ++
        [(ks.take ((ord + 1) / 2), vs.take ((ord + 1) / 2)),
         (ks.drop ((ord + 1) / 2), vs.drop ((ord + 1) / 2))] ++
        ctxLeavesR path := by
  obtain ⟨hwL, hwR, hstL, hstR⟩ :=
    splitLeaf_pieces hord lo hi ks vs hkl hlen hpw hin
  cases path with
  | nil =>
      obtain ⟨hplo, hphi⟩ := hpath
      subst hplo; subst hphi
      rw [splitLeafGo_nil_eq]
      constructor
      · refine WF.internal true none none _ _ (by simp) (by simp) ?_
          (by simp; omega) (by simp) ?_
        · intro k _
          exact ⟨by simp, by simp⟩
        · intro p hp
          rw [show boundsList (none : Option K) none
                [(ks.drop ((ord + 1) / 2)).headD default] =
              [(none, some ((ks.drop ((ord + 1) / 2)).headD default)),
               (some ((ks.drop ((ord + 1) / 2)).headD default), none)]
              from rfl] at hp
          simp only [List.zip_cons_cons, List.zip_nil_right] at hp
          rcases List.mem_cons.mp hp with h | h
          · rw [h]; exact hwL
          · rcases List.mem_cons.mp h with h2 | h2
            · rw [h2]; exact hwR
            · simp at h2
      · rw [leaves_internal]
        simp [ctxLeavesL, ctxLeavesR, leaves]
  | cons ctx rest =>
      rw [splitLeafGo_cons_eq]
      obtain ⟨hwf2, hlv2⟩ :=
        insertInternalGo_ok hord rest ctx lo hi _ _ _ hpath hwL hwR hstL hstR
      refine ⟨hwf2, ?_⟩
      rw [hlv2]
      simp [leaves]

theorem zip_split {α β : Type} :
    ∀ (n : Nat) (A : List α) (B : List β), A.length = B.length →
      (A.take n).zip (B.take n) ++ (A.drop n).zip (B.drop n) = A.zip B := by
  intro n A
  induction A generalizing n with
  | nil =>
      intro B h
      cases B with
      | nil => simp
      | cons b B => simp at h
  | cons a A ih =>
      intro B h
      cases B with
      | nil => simp at h
      | cons b B =>
          cases n with
          | zero => simp
          | succ n =>
              simp only [List.take_succ_cons, List.drop_succ_cons,
                List.zip_cons_cons, List.cons_append]
              rw [ih n B (by simpa using h)]

/-- `BPlusTree.insert` on a well-formed tree stays well formed and acts
as insert-or-overwrite on the sorted entry sequence. -/
theorem insert_ok [LinearOrder K] [Inhabited K] {ord : Nat}
    (hord : 3 ≤ ord) (t : BPT K V) (key : K) (v : V)
    (hwf : WF ord true none none t) :
    WF ord true none none (BPTree.insert ord t key v) ∧
    list_all (BPTree.insert ord t key v) = upsert key v (list_all t) := by
  obtain ⟨ks, vs, path, lo2, hi2, hfind, hpath, hkey, hpw, hlen, hin, ho,
    hro, hfill⟩ :=
    findLeafPath_descend t key [] none none (by simpa using hwf)
      ⟨rfl, rfl⟩ (inB_none_none key)
  have ht : list_all t = ctxEL path ++ ks.zip vs ++ ctxER path := by
    conv_lhs => rw [show t = fillB (.leaf ks vs) path by rw [hfill]; rfl]
    rw [list_all_fillB path lo2 hi2 _ hpath, list_all_leaf]
  have hbounds := PathOk_ctx_bounds path lo2 hi2 hpath key hkey
  have hfact : upsert key v (ctxEL path ++ ks.zip vs ++ ctxER path) =
      ctxEL path ++ upsert key v (ks.zip vs) ++ ctxER path := by
    rw [upsert_append_of_lt key v _ _ hbounds.2,
      upsert_append_left key v _ _ hbounds.1]
  rw [BPTree.insert]
  simp only [hfind]
  by_cases hmem : key ∈ ks
  · have hfound := scan_found key ks hpw hmem
    rw [if_pos hfound]
    refine ⟨?_, ?_⟩
    · refine fillB_WF path lo2 hi2 _ hpath ?_
      refine WF.leaf _ lo2 hi2 ks _ hpw ?_ hin ho hro
      rw [List.length_set]
      exact hlen
    · rw [list_all_fillB path lo2 hi2 _ hpath, list_all_leaf,
        zip_upsert_present key v ks vs hpw hlen hmem, ht, hfact]
  · have hnf := scan_not_found key ks hmem
    rw [if_neg hnf]
    have hpw2 := pyInsert_sorted key ks hpw hmem
    have hlen2 : (pyInsert (scanPos key ks) key ks).length = ks.length + 1 :=
      pyInsert_length _ _ _
    have hvlen2 : (pyInsert (scanPos key ks) v vs).length = vs.length + 1 :=
      pyInsert_length _ _ _
    have hin2 : ∀ k ∈ pyInsert (scanPos key ks) key ks, inB lo2 hi2 k := by
      intro k hk
      rcases pyInsert_mem _ _ _ k hk with h | h
      · rw [h]; exact hkey
      · exact hin k h
    have hzip := zip_upsert_absent key v ks vs hpw hlen hmem
    by_cases hov : (pyInsert (scanPos key ks) key ks).length > ord - 1
    · rw [if_pos hov]
      have hkord : (pyInsert (scanPos key ks) key ks).length = ord := by
        omega
      obtain ⟨hwf2, hlv2⟩ := splitLeafGo_ok hord _ _ path lo2 hi2 hpath
        hkord (by rw [hlen2, hvlen2, hlen]) hpw2 hin2
      refine ⟨hwf2, ?_⟩
      rw [list_all, hlv2]
      rw [List.map_append, List.map_append, List.flatten_append,
        List.flatten_append]
      have hmid : ((List.map (fun p : List K × List V => p.1.zip p.2)
          [((pyInsert (scanPos key ks) key ks).take ((ord + 1) / 2),
            (pyInsert (scanPos key ks) v vs).take ((ord + 1) / 2)),
           ((pyInsert (scanPos key ks) key ks).drop ((ord + 1) / 2),
            (pyInsert (scanPos key ks) v vs).drop ((ord + 1) / 2))]).flatten)
          = upsert key v (ks.zip vs) := by
        simp only [List.map_cons, List.map_nil, List.flatten_cons,
          List.flatten_nil, List.append_nil]
        rw [zip_split ((ord + 1) / 2) _ _ (by rw [hlen2, hvlen2, hlen]),
          hzip]
      rw [hmid, ht, hfact]
      rfl
    · rw [if_neg hov]
      refine ⟨?_, ?_⟩
      · refine fillB_WF path lo2 hi2 _ hpath ?_
        refine WF.leaf _ lo2 hi2 _ _ hpw2 ?_ hin2 ?_ ?_
        · rw [hlen2, hvlen2, hlen]
        · omega
        · intro _
          rw [hlen2]
          omega
      · rw [list_all_fillB path lo2 hi2 _ hpath, list_all_leaf, hzip, ht,
          hfact]

theorem searchLeaf_lookup [LinearOrder K] (key : K) :
    ∀ (ks : List K) (vs : List V), ks.length = vs.length →
      (match findEq key ks with
       | some i => vs[i]?
       | none => none) = lookupA (ks.zip vs) key := by
  intro ks
  induction ks with
  | nil => intro vs _; simp [findEq, lookupA]
  | cons k ks ih =>
      intro vs hlen
      cases vs with
      | nil => simp at hlen
      | cons b vs =>
          rw [findEq]
          by_cases hk : k = key
          · rw [if_pos hk]
            simp [lookupA, hk.symm]
          · rw [if_neg hk]
            have hne : key ≠ k := Ne.symm hk
            rw [List.zip_cons_cons, lookupA, if_neg hne]
            rw [← ih vs (by simpa using hlen)]
            cases hx : findEq key ks with
            | none => simp
            | some j => simp

/-- `BPlusTree.search` on a well-formed tree is lookup in the sorted
entry sequence. -/
theorem search_ok [LinearOrder K] [Inhabited K] {ord : Nat}
    (t : BPT K V) (key : K) (hwf : WF ord true none none t) :
    BPTree.search t key = lookupA (list_all t) key := by
  obtain ⟨ks, vs, path, lo2, hi2, hfind, hpath, hkey, hpw, hlen, hin, ho,
    hro, hfill⟩ :=
    findLeafPath_descend t key [] none none (by simpa using hwf)
      ⟨rfl, rfl⟩ (inB_none_none key)
  have ht : list_all t = ctxEL path ++ ks.zip vs ++ ctxER path := by
    conv_lhs => rw [show t = fillB (.leaf ks vs) path by rw [hfill]; rfl]
    rw [list_all_fillB path lo2 hi2 _ hpath, list_all_leaf]
  have hbounds := PathOk_ctx_bounds path lo2 hi2 hpath key hkey
  rw [BPTree.search]
  simp only [hfind]
  rw [ht]
  rw [lookupA_append_of_right_ne key _ _
    (fun b hb => ne_of_gt (hbounds.2 b hb)),
    lookupA_append_of_left_ne key _ _
    (fun a ha => ne_of_lt (hbounds.1 a ha))]
  exact searchLeaf_lookup key ks vs hlen

/-- A fresh `BPlusTree(order)` built by a sequence of inserts is well
formed and carries exactly the upsert-folded entries. -/
theorem ofOps_ok [LinearOrder K] [Inhabited K] {ord : Nat}
    (hord : 3 ≤ ord) (ops : List (K × V)) :
    WF ord true none none (ofOps ord ops : BPT K V) ∧
    list_all (ofOps ord ops : BPT K V) = upsertFold ops := by
  have haux : ∀ (ops : List (K × V)) (t : BPT K V) (l : List (K × V)),
      WF ord true none none t → list_all t = l →
      WF ord true none none
        (ops.foldl (fun t p => BPTree.insert ord t p.1 p.2) t) ∧
      list_all (ops.foldl (fun t p => BPTree.insert ord t p.1 p.2) t) =
        ops.foldl (fun l p => upsert p.1 p.2 l) l := by
    intro ops
    induction ops with
    | nil => intro t l hwf hl; exact ⟨hwf, hl⟩
    | cons p ops ih =>
        intro t l hwf hl
        obtain ⟨hwf2, he2⟩ := insert_ok hord t p.1 p.2 hwf
        simp only [List.foldl_cons]
        exact ih _ _ hwf2 (by rw [he2, hl])
  refine haux ops (.leaf [] []) [] ?_ (by simp [list_all_leaf])
  exact WF.leaf true none none [] [] (by simp) rfl (by simp) (by simp)
    (by simp)

theorem search_ofOps_bpt [LinearOrder K] [Inhabited K] {ord : Nat}
    (hord : 3 ≤ ord) (ops : List (K × V)) (key : K) :
    BPTree.search (ofOps ord ops : BPT K V) key = mostRecent ops key := by
  obtain ⟨hwf, he⟩ := ofOps_ok hord ops
  rw [search_ok _ key hwf, he, lookupA_upsertFold]

end BPTree

/-! ## Red-black invariants through `insert` -/

namespace RBT

variable {K V : Type}

theorem redOK_weaken :
    ∀ (t : RBTree K V) (c : Color), redOK c t = true → redOK .black t = true := by
  intro t c h
  cases t with
  | nil => rfl
  | node c2 k v l r =>
      simp only [redOK, Bool.and_eq_true] at h ⊢
      exact ⟨⟨by simp [isRed], h.1.2⟩, h.2⟩

theorem redOK_rootBlack (t : RBTree K V) (h : redOK .red t = true) :
    isBlackRoot t = true := by
  cases t with
  | nil => rfl
  | node c2 k v l r =>
      simp only [redOK, Bool.and_eq_true] at h
      cases c2 with
      | red => simp [isRed] at h
      | black => rfl

theorem isBlackRoot_not_rootRed (t : RBTree K V) (h : isBlackRoot t = true) :
    rootRed t = false := by
  cases t with
  | nil => rfl
  | node c2 k v l r =>
      cases c2 with
      | red => simp [isBlackRoot, isRed] at h
      | black => rfl

theorem rootRed_false_isBlackRoot (t : RBTree K V) (h : rootRed t = false) :
    isBlackRoot t = true := by
  cases t with
  | nil => rfl
  | node c2 k v l r =>
      cases c2 with
      | red => simp [rootRed] at h
      | black => rfl

theorem redOK_of_rootBlack (t : RBTree K V) (c : Color)
    (hb : isBlackRoot t = true) (h : redOK .black t = true) :
    redOK c t = true := by
  cases t with
  | nil => rfl
  | node c2 k v l r =>
      simp only [redOK, Bool.and_eq_true] at h ⊢
      refine ⟨⟨?_, h.1.2⟩, h.2⟩
      cases c2 with
      | red => simp [isBlackRoot, isRed] at hb
      | black => simp [isRed]

theorem isBlackRoot_forceBlack (t : RBTree K V) :
    isBlackRoot (forceBlack t) = true := by
  cases t <;> rfl

theorem redOK_forceBlack (t : RBTree K V) (c : Color)
    (h : redOK .black t = true) : redOK c (forceBlack t) = true := by
  cases t with
  | nil => rfl
  | node c2 k v l r =>
      simp only [forceBlack, redOK, Bool.and_eq_true] at h ⊢
      exact ⟨⟨by simp [isRed], redOK_weaken l c2 h.1.2⟩, redOK_weaken r c2 h.2⟩

theorem bh_forceBlack_isSome (t : RBTree K V)
    (h : (bh t).isSome = true) : (bh (forceBlack t)).isSome = true := by
  cases t with
  | nil => rfl
  | node c2 k v l r =>
      simp only [bh, forceBlack] at h ⊢
      cases hl : bh l with
      | none => rw [hl] at h; simp at h
      | some a =>
          cases hr : bh r with
          | none => rw [hl, hr] at h; simp at h
          | some b =>
              rw [hl, hr] at h
              by_cases hab : a = b
              · simp [hab]
              · simp [hab] at h

theorem bh_forceBlack_red (t : RBTree K V) (n : Nat)
    (hr : rootRed t = true) (h : bh t = some n) :
    bh (forceBlack t) = some (n + 1) := by
  cases t with
  | nil => simp [rootRed] at hr
  | node c2 k v l r =>
      cases c2 with
      | black => simp [rootRed] at hr
      | red =>
          simp only [bh, forceBlack] at h ⊢
          cases hl : bh l with
          | none => rw [hl] at h; simp at h
          | some a =>
              cases hr2 : bh r with
              | none => rw [hl, hr2] at h; simp at h
              | some b =>
                  rw [hl, hr2] at h
                  by_cases hab : a = b
                  · simp only [hab, if_pos rfl] at h ⊢
                    injection h with h
                    simp [colorBH] at h
                    simp [colorBH, h]
                  · simp [hab] at h

/-- `self.root.color = 'black'` restores all three invariants once the
filled tree is balanced and internally red-red free. -/
theorem RBInv_forceBlack (t : RBTree K V)
    (h1 : (bh t).isSome = true) (h2 : redOK .black t = true) :
    RBInv (forceBlack t) :=
  ⟨isBlackRoot_forceBlack t, redOK_forceBlack t .black h2,
    bh_forceBlack_isSome t h1⟩

/-- Rebuilding along a valid ancestor path preserves balance and the
red-red freedom, provided a red focus root sits under a black parent. -/
theorem fill_ok :
    ∀ (fs : List (Frame K V)) (n : Nat) (t : RBTree K V),
      framesOk fs n → bh t = some n → redOK .black t = true →
      (rootRed t = true → headBlack fs) →
      (bh (fill t fs)).isSome = true ∧ redOK .black (fill t fs) = true := by
  intro fs
  induction fs with
  | nil =>
      intro n t _ hbh hred _
      exact ⟨by simp [fill_nil, hbh], hred⟩
  | cons f fs ih =>
      intro n t hfr hbh hred hhd
      obtain ⟨hsb, hsred, hfred, hrest⟩ := hfr
      rw [fill_cons]
      have htc : redOK f.color t = true := by
        cases hc : f.color with
        | black => exact hred
        | red =>
            have hrt : rootRed t = false := by
              cases hx : rootRed t with
              | false => rfl
              | true =>
                  have := hhd hx
                  rw [headBlack] at this
                  rw [this] at hc
                  cases hc
            exact redOK_of_rootBlack t .red (rootRed_false_isBlackRoot t hrt)
              hred
      have hsc : redOK f.color f.sibling = true := by
        cases hc : f.color with
        | black => exact hsred
        | red => exact redOK_of_rootBlack f.sibling .red (hfred hc).1 hsred
      have hbh2 : bh (applyFrame f t) = some (n + colorBH f.color) := by
        cases hd : f.dir <;>
          simp [applyFrame, hd, bh, hbh, hsb]
      have hred2 : redOK .black (applyFrame f t) = true := by
        cases hd : f.dir <;>
          · simp only [applyFrame, hd, redOK, Bool.and_eq_true]
            exact ⟨⟨by simp [isRed], by simp [htc, hsc]⟩, by simp [htc, hsc]⟩
      have hhd2 : rootRed (applyFrame f t) = true → headBlack fs := by
        intro hx
        have hfc : f.color = .red := by
          cases hd : f.dir <;> (
            rw [applyFrame] at hx
            rw [hd] at hx
            cases hc : f.color with
            | red => rfl
            | black => rw [hc] at hx; simp [rootRed] at hx)
        exact (hfred hfc).2
      exact ih (n + colorBH f.color) _ hrest hbh2 hred2 hhd2

theorem bh_node (c : Color) (k : K) (v : V) (l r : RBTree K V) (a : Nat)
    (hl : bh l = some a) (hr : bh r = some a) :
    bh (.node c k v l r) = some (a + colorBH c) := by
  simp [bh, hl, hr]

theorem bh_node_inv (c : Color) (k : K) (v : V) (l r : RBTree K V) (n : Nat)
    (h : bh (.node c k v l r) = some n) :
    ∃ a, bh l = some a ∧ bh r = some a ∧ a + colorBH c = n := by
  simp only [bh] at h
  cases hl : bh l with
  | none => rw [hl] at h; simp at h
  | some a =>
      cases hr : bh r with
      | none => rw [hl, hr] at h; simp at h
      | some b =>
          rw [hl, hr] at h
          by_cases hab : a = b
          · subst hab
            simp only [if_pos rfl] at h
            exact ⟨a, rfl, rfl, by injection h⟩
          · simp [hab] at h

theorem redOK_node_inv (pc c : Color) (k : K) (v : V) (l r : RBTree K V)
    (h : redOK pc (.node c k v l r) = true) :
    (isRed pc && isRed c) = false ∧ redOK c l = true ∧ redOK c r = true := by
  simp only [redOK, Bool.and_eq_true] at h
  refine ⟨?_, h.1.2, h.2⟩
  have h2 := h.1.1
  cases hpc : isRed pc <;> cases hc2 : isRed c <;> simp_all

/-- Common tail of the rotation cases: a black-rooted restructured node of
black height `n+1` filled into the remaining valid path and re-blackened
yields the invariants. -/
theorem rot_ok (rest : List (Frame K V)) (n : Nat) (outer : RBTree K V)
    (hbh : bh outer = some (n + 1)) (hred : redOK .black outer = true)
    (hroot : rootRed outer = false) (hfr : framesOk rest (n + 1)) :
    RBInv (forceBlack (fill outer rest)) := by
  obtain ⟨a, b⟩ := fill_ok rest (n + 1) outer hfr hbh hred
    (fun hx => absurd hx (by simp [hroot]))
  exact RBInv_forceBlack _ a b

/-- `_fix_insert` restores the red-black invariants from a red focus that
is balanced and internally red-red free, inside a valid ancestor path. -/
theorem fixInsert_ok :
    ∀ (t : RBTree K V) (fs : List (Frame K V)) (n : Nat),
      bh t = some n → redOK .black t = true → rootRed t = true →
      framesOk fs n → RBInv (fixInsert t fs) := by
  intro t fs
  induction t, fs using fixInsert.induct with
  | case1 t =>
      intro n hbh hred hroot hfr
      rw [show fixInsert t [] = forceBlack (fill t []) from rfl]
      exact RBInv_forceBlack _ (by simp [fill_nil, hbh]) (by simp [fill_nil, hred])
  | case2 t fp h =>
      intro n hbh hred hroot hfr
      exact False.elim ((hfr.2.2.1 h).2)
  | case3 t fp h =>
      intro n hbh hred hroot hfr
      rw [show fixInsert t [fp] =
        if fp.color = .red then fill t [fp] else forceBlack (fill t [fp])
        from rfl, if_neg h]
      have hfb : fp.color = .black := by
        cases hc : fp.color
        · exact absurd hc h
        · rfl
      obtain ⟨a, b⟩ := fill_ok [fp] n t hfr hbh hred (fun _ => hfb)
      exact RBInv_forceBlack _ a b
  | case4 t fp fg rest h1 h2 h3 ih =>
      intro n hbh hred hroot hfr
      obtain ⟨hpsb, hpsred, hpfred, hrest1⟩ := hfr
      obtain ⟨hpsBlack, hhb⟩ := hpfred h1
      rw [h1] at hrest1
      simp only [colorBH, Nat.add_zero] at hrest1
      obtain ⟨hgsb, hgsred, hgfred, hrest2⟩ := hrest1
      have hgc : fg.color = .black := hhb
      rw [hgc] at hrest2
      simp only [colorBH] at hrest2
      simp only [fixInsert, h1, h2, h3, if_true, ite_true]
      have hbhL : bh (applyFrame { fp with color := .black } t) =
          some (n + 1) := by
        cases hd : fp.dir <;>
          simp [applyFrame, hd, bh, hbh, hpsb, colorBH]
      have hLblack : isBlackRoot (applyFrame { fp with color := .black } t)
          = true := by
        cases hd : fp.dir <;> simp [applyFrame, hd, isBlackRoot, isRed]
      have hredL : redOK .black (applyFrame { fp with color := .black } t)
          = true := by
        cases hd : fp.dir <;>
          simp [applyFrame, hd, redOK, isRed, hred, hpsred]
      have hbhR : bh (forceBlack fg.sibling) = some (n + 1) :=
        bh_forceBlack_red fg.sibling n h3 hgsb
      refine ih (n + 1) ?_ ?_ rfl hrest2
      · rw [bh_node .red fg.key fg.val _ _ (n+1) hbhL hbhR]
        simp [colorBH]
      · simp only [redOK, Bool.and_eq_true]
        refine ⟨⟨by simp [isRed], ?_⟩, ?_⟩
        · exact redOK_of_rootBlack _ .red hLblack hredL
        · exact redOK_forceBlack fg.sibling .red hgsred
  | case5 t fp fg rest h1 h2 h3 =>
      intro n hbh hred hroot hfr
      obtain ⟨hpsb, hpsred, hpfred, hrest1⟩ := hfr
      obtain ⟨hpsBlack, hhb⟩ := hpfred h1
      rw [h1] at hrest1
      simp only [colorBH, Nat.add_zero] at hrest1
      obtain ⟨hgsb, hgsred, hgfred, hrest2⟩ := hrest1
      have hgc : fg.color = .black := hhb
      rw [hgc] at hrest2
      simp only [colorBH] at hrest2
      have hu : rootRed fg.sibling = false := by
        cases hx : rootRed fg.sibling
        · rfl
        · exact absurd hx h3
      have huB : isBlackRoot fg.sibling = true :=
        rootRed_false_isBlackRoot fg.sibling hu
      cases hd : fp.dir with
      | left =>
          simp only [fixInsert, h1, h2, h3, hd, if_true, ite_true, if_false,
            ite_false]
          have hin : bh (RBTree.node .red fg.key fg.val fp.sibling fg.sibling)
              = some n := by
            rw [bh_node .red fg.key fg.val _ _ n hpsb hgsb]
            simp [colorBH]
          refine rot_ok rest n _ ?_ ?_ rfl hrest2
          · rw [bh_node .black fp.key fp.val _ _ n hbh hin]
            simp [colorBH]
          · simp only [redOK, Bool.and_eq_true]
            refine ⟨⟨by simp [isRed], hred⟩, ⟨⟨by simp [isRed], ?_⟩, ?_⟩⟩
            · exact redOK_of_rootBlack _ .red hpsBlack hpsred
            · exact redOK_of_rootBlack _ .red huB hgsred
      | right =>
          cases t with
          | nil => simp [rootRed] at hroot
          | node tc tk tv tl tr =>
              have htc : tc = .red := by
                cases tc
                · rfl
                · simp [rootRed] at hroot
              subst htc
              obtain ⟨a, hta, htb, htn⟩ := bh_node_inv .red tk tv tl tr n hbh
              simp only [colorBH, Nat.add_zero] at htn
              subst htn
              obtain ⟨_, htl, htr⟩ := redOK_node_inv .black .red tk tv tl tr hred
              have htlB : isBlackRoot tl = true := redOK_rootBlack tl htl
              have htrB : isBlackRoot tr = true := redOK_rootBlack tr htr
              simp only [fixInsert, h1, h2, h3, hd, if_true, ite_true,
                if_false, ite_false]
              have hinL : bh (RBTree.node .red fp.key fp.val fp.sibling tl)
                  = some a := by
                rw [bh_node .red fp.key fp.val _ _ a hpsb hta]
                simp [colorBH]
              have hinR : bh (RBTree.node .red fg.key fg.val tr fg.sibling)
                  = some a := by
                rw [bh_node .red fg.key fg.val _ _ a htb hgsb]
                simp [colorBH]
              refine rot_ok rest a _ ?_ ?_ rfl hrest2
              · rw [bh_node .black tk tv _ _ a hinL hinR]
                simp [colorBH]
              · simp only [redOK, Bool.and_eq_true, h1]
                refine ⟨⟨by simp [isRed], ⟨⟨by simp [isRed], ?_⟩, ?_⟩⟩,
                  ⟨⟨by simp [isRed], ?_⟩, ?_⟩⟩
                · exact redOK_of_rootBlack _ .red hpsBlack hpsred
                · exact redOK_of_rootBlack _ .red htlB (redOK_weaken tl .red htl)
                · exact redOK_of_rootBlack _ .red htrB (redOK_weaken tr .red htr)
                · exact redOK_of_rootBlack _ .red huB hgsred
  | case6 t fp fg rest h1 h2 h3 ih =>
      intro n hbh hred hroot hfr
      obtain ⟨hpsb, hpsred, hpfred, hrest1⟩ := hfr
      obtain ⟨hpsBlack, hhb⟩ := hpfred h1
      rw [h1] at hrest1
      simp only [colorBH, Nat.add_zero] at hrest1
      obtain ⟨hgsb, hgsred, hgfred, hrest2⟩ := hrest1
      have hgc : fg.color = .black := hhb
      rw [hgc] at hrest2
      simp only [colorBH] at hrest2
      simp only [fixInsert, h1, h2, h3, if_true, ite_true]
      have hbhL : bh (applyFrame { fp with color := .black } t) =
          some (n + 1) := by
        cases hd : fp.dir <;>
          simp [applyFrame, hd, bh, hbh, hpsb, colorBH]
      have hLblack : isBlackRoot (applyFrame { fp with color := .black } t)
          = true := by
        cases hd : fp.dir <;> simp [applyFrame, hd, isBlackRoot, isRed]
      have hredL : redOK .black (applyFrame { fp with color := .black } t)
          = true := by
        cases hd : fp.dir <;>
          simp [applyFrame, hd, redOK, isRed, hred, hpsred]
      have hbhR : bh (forceBlack fg.sibling) = some (n + 1) :=
        bh_forceBlack_red fg.sibling n h3 hgsb
      refine ih (n + 1) ?_ ?_ rfl hrest2
      · rw [bh_node .red fg.key fg.val _ _ (n+1) hbhR hbhL]
        simp [colorBH]
      · simp only [redOK, Bool.and_eq_true]
        refine ⟨⟨by simp [isRed], ?_⟩, ?_⟩
        · exact redOK_forceBlack fg.sibling .red hgsred
        · exact redOK_of_rootBlack _ .red hLblack hredL
  | case7 t fp fg rest h1 h2 h3 =>
      intro n hbh hred hroot hfr
      obtain ⟨hpsb, hpsred, hpfred, hrest1⟩ := hfr
      obtain ⟨hpsBlack, hhb⟩ := hpfred h1
      rw [h1] at hrest1
      simp only [colorBH, Nat.add_zero] at hrest1
      obtain ⟨hgsb, hgsred, hgfred, hrest2⟩ := hrest1
      have hgc : fg.color = .black := hhb
      rw [hgc] at hrest2
      simp only [colorBH] at hrest2
      have hu : rootRed fg.sibling = false := by
        cases hx : rootRed fg.sibling
        · rfl
        · exact absurd hx h3
      have huB : isBlackRoot fg.sibling = true :=
        rootRed_false_isBlackRoot fg.sibling hu
      cases hd : fp.dir with
      | left =>
          cases t with
          | nil => simp [rootRed] at hroot
          | node tc tk tv tl tr =>
              have htc : tc = .red := by
                cases tc
                · rfl
                · simp [rootRed] at hroot
              subst htc
              obtain ⟨a, hta, htb, htn⟩ := bh_node_inv .red tk tv tl tr n hbh
              simp only [colorBH, Nat.add_zero] at htn
              subst htn
              obtain ⟨_, htl, htr⟩ := redOK_node_inv .black .red tk tv tl tr hred
              have htlB : isBlackRoot tl = true := redOK_rootBlack tl htl
              have htrB : isBlackRoot tr = true := redOK_rootBlack tr htr
              simp only [fixInsert, h1, h2, h3, hd, if_true, ite_true,
                if_false, ite_false]
              have hinL : bh (RBTree.node .red fg.key fg.val fg.sibling tl)
                  = some a := by
                rw [bh_node .red fg.key fg.val _ _ a hgsb hta]
                simp [colorBH]
              have hinR : bh (RBTree.node .red fp.key fp.val tr fp.sibling)
                  = some a := by
                rw [bh_node .red fp.key fp.val _ _ a htb hpsb]
                simp [colorBH]
              refine rot_ok rest a _ ?_ ?_ rfl hrest2
              · rw [bh_node .black tk tv _ _ a hinL hinR]
                simp [colorBH]
              · simp only [redOK, Bool.and_eq_true, h1]
                refine ⟨⟨by simp [isRed], ⟨⟨by simp [isRed], ?_⟩, ?_⟩⟩,
                  ⟨⟨by simp [isRed], ?_⟩, ?_⟩⟩
                · exact redOK_of_rootBlack _ .red huB hgsred
                · exact redOK_of_rootBlack _ .red htlB (redOK_weaken tl .red htl)
                · exact redOK_of_rootBlack _ .red htrB (redOK_weaken tr .red htr)
                · exact redOK_of_rootBlack _ .red hpsBlack hpsred
      | right =>
          simp only [fixInsert, h1, h2, h3, hd, if_true, ite_true, if_false,
            ite_false]
          have hin : bh (RBTree.node .red fg.key fg.val fg.sibling fp.sibling)
              = some n := by
            rw [bh_node .red fg.key fg.val _ _ n hgsb hpsb]
            simp [colorBH]
          refine rot_ok rest n _ ?_ ?_ rfl hrest2
          · rw [bh_node .black fp.key fp.val _ _ n hin hbh]
            simp [colorBH]
          · simp only [redOK, Bool.and_eq_true]
            refine ⟨⟨by simp [isRed], ⟨⟨by simp [isRed], ?_⟩, ?_⟩⟩, hred⟩
            · exact redOK_of_rootBlack _ .red huB hgsred
            · exact redOK_of_rootBlack _ .red hpsBlack hpsred
  | case8 t fp fg rest h1 =>
      intro n hbh hred hroot hfr
      simp only [fixInsert, h1, if_false, ite_false]
      have hfb : fp.color = .black := by
        cases hc : fp.color
        · exact absurd hc h1
        · rfl
      obtain ⟨a, b⟩ := fill_ok (fp :: fg :: rest) n t hfr hbh hred
        (fun _ => hfb)
      exact RBInv_forceBlack _ a b

theorem isBlackRoot_fill_indep :
    ∀ (fs : List (Frame K V)) (c : Color) (k k2 : K) (v v2 : V)
      (l l2 r r2 : RBTree K V),
      isBlackRoot (fill (.node c k v l r) fs) =
        isBlackRoot (fill (.node c k2 v2 l2 r2) fs) := by
  intro fs
  induction fs with
  | nil => intro c k k2 v v2 l l2 r r2; rfl
  | cons f fs ih =>
      intro c k k2 v v2 l l2 r r2
      rw [fill_cons, fill_cons]
      cases hd : f.dir <;> simp only [applyFrame, hd] <;> apply ih

/-- The descent of `insert` keeps a valid ancestor path; at the bottom the
fix-up, and on an equal key the untouched refill, restore the invariants. -/
theorem insertGo_ok [LinearOrder K] :
    ∀ (t : RBTree K V) (fs : List (Frame K V)) (key : K) (v : V) (n : Nat),
      bh t = some n → redOK .black t = true → framesOk fs n →
      (rootRed t = true → headBlack fs) →
      isBlackRoot (fill t fs) = true →
      RBInv (insertGo key v t fs) := by
  intro t
  induction t with
  | nil =>
      intro fs key v n hbh hred hfr hhd hblack
      rw [show insertGo key v RBTree.nil fs =
        fixInsert (.node .red key v .nil .nil) fs from rfl]
      have hn : n = 1 := by
        have : (1 : Nat) = n := by simpa [bh] using hbh
        omega
      subst hn
      exact fixInsert_ok _ fs 1 (by simp [bh, colorBH]) (by simp [redOK, isRed])
        rfl hfr
  | node c k v0 l r ihl ihr =>
      intro fs key v n hbh hred hfr hhd hblack
      obtain ⟨a, hla, hra, han⟩ := bh_node_inv c k v0 l r n hbh
      obtain ⟨hcc, hcl, hcr⟩ := redOK_node_inv .black c k v0 l r hred
      rw [insertGo]
      by_cases h1 : key < k
      · rw [if_pos h1]
        refine ihl (⟨.left, c, k, v0, r⟩ :: fs) key v a hla
          (redOK_weaken l c hcl) ⟨hra, redOK_weaken r c hcr, ?_, ?_⟩ ?_
          hblack
        · intro hc
          refine ⟨redOK_rootBlack r (hc ▸ hcr), ?_⟩
          exact hhd (by rw [show (⟨.left, c, k, v0, r⟩ : Frame K V).color = c
            from rfl] at hc; rw [hc]; rfl)
        · rw [show (⟨.left, c, k, v0, r⟩ : Frame K V).color = c from rfl, han]
          exact hfr
        · intro hx
          show c = Color.black
          cases hc2 : c with
          | black => rfl
          | red =>
              rw [hc2] at hcl
              rw [isBlackRoot_not_rootRed l (redOK_rootBlack l hcl)] at hx
              cases hx
      · rw [if_neg h1]
        by_cases h2 : k < key
        · rw [if_pos h2]
          refine ihr (⟨.right, c, k, v0, l⟩ :: fs) key v a hra
            (redOK_weaken r c hcr) ⟨hla, redOK_weaken l c hcl, ?_, ?_⟩ ?_
            hblack
          · intro hc
            refine ⟨redOK_rootBlack l (hc ▸ hcl), ?_⟩
            exact hhd (by rw [show (⟨.right, c, k, v0, l⟩ : Frame K V).color = c
              from rfl] at hc; rw [hc]; rfl)
          · rw [show (⟨.right, c, k, v0, l⟩ : Frame K V).color = c from rfl,
              han]
            exact hfr
          · intro hx
            show c = Color.black
            cases hc2 : c with
            | black => rfl
            | red =>
                rw [hc2] at hcr
                rw [isBlackRoot_not_rootRed r (redOK_rootBlack r hcr)] at hx
                cases hx
        · rw [if_neg h2]
          have hbh2 : bh (RBTree.node c k v l r) = some n := by
            rw [bh_node c k v l r a hla hra, han]
          have hred2 : redOK .black (RBTree.node c k v l r) = true := by
            simp only [redOK, Bool.and_eq_true]
            exact ⟨⟨by simp [isRed], hcl⟩, hcr⟩
          have hhd2 : rootRed (RBTree.node c k v l r) = true →
              headBlack fs := by
            intro hx
            apply hhd
            cases hc2 : c with
            | red => rfl
            | black => rw [hc2] at hx; simp [rootRed] at hx
          obtain ⟨ha, hb⟩ := fill_ok fs n (RBTree.node c k v l r) hfr hbh2
            hred2 hhd2
          refine ⟨?_, hb, ha⟩
          rw [isBlackRoot_fill_indep fs c k k v v0 l l r r]
          exact hblack

theorem insert_RBInv [LinearOrder K] (t : RBTree K V) (key : K) (v : V)
    (h : RBInv t) : RBInv (insert t key v) := by
  obtain ⟨hb, hr, hs⟩ := h
  obtain ⟨n, hn⟩ := Option.isSome_iff_exists.mp hs
  refine insertGo_ok t [] key v n hn hr trivial ?_ (by simpa [fill_nil] using hb)
  intro hx
  rw [isBlackRoot_not_rootRed t hb] at hx
  cases hx

/-- Every tree built by a sequence of inserts on a fresh `RedBlackTree()`
satisfies the red-black invariants. -/
theorem ofOps_RBInv [LinearOrder K] (ops : List (K × V)) :
    RBInv (ofOps ops : RBTree K V) := by
  have haux : ∀ (ops : List (K × V)) (t : RBTree K V), RBInv t →
      RBInv (ops.foldl (fun t p => insert t p.1 p.2) t) := by
    intro ops
    induction ops with
    | nil => intro t h; exact h
    | cons p ops ih => intro t h; exact ih _ (insert_RBInv t p.1 p.2 h)
  exact haux ops .nil ⟨rfl, rfl, rfl⟩

/-- A consistent black height means all root-to-`NULL_LEAF` paths count the
same number of black nodes. -/
theorem bh_blackCounts :
    ∀ (t : RBTree K V) (n : Nat), bh t = some n →
      ∀ m ∈ blackCounts t, m = n := by
  intro t
  induction t with
  | nil =>
      intro n h m hm
      simp only [blackCounts, List.mem_singleton] at hm
      have h1 : (1 : Nat) = n := by simpa [bh] using h
      omega
  | node c k v l r ihl ihr =>
      intro n h m hm
      obtain ⟨a, hla, hra, han⟩ := bh_node_inv c k v l r n h
      simp only [blackCounts, List.mem_map, List.mem_append] at hm
      obtain ⟨m0, hm0, hmeq⟩ := hm
      rcases hm0 with h0 | h0
      · have := ihl a hla m0 h0
        omega
      · have := ihr a hra m0 h0
        omega

theorem blackCounts_ne_nil : ∀ t : RBTree K V, blackCounts t ≠ [] := by
  intro t
  induction t with
  | nil => simp [blackCounts]
  | node c k v l r ihl ihr =>
      simp only [blackCounts]
      intro h
      rw [List.map_eq_nil_iff, List.append_eq_nil] at h
      exact ihl h.1

end RBT

/-! ## B+ tree: occupancy and root-creation count -/

namespace BPTree

variable {K V : Type}

theorem occOK_leaf {ord : Nat} (isRoot : Bool) (ks : List K) (vs : List V) :
    occOK ord isRoot (.leaf ks vs : BPT K V) =
      ((isRoot || decide (1 ≤ ks.length)) && decide (ks.length ≤ ord - 1)) := by
  rw [occOK]

theorem occOK_internal {ord : Nat} (isRoot : Bool) (ks : List K)
    (cs : List (BPT K V)) :
    occOK ord isRoot (.internal ks cs) = true ↔
      (cs.length = ks.length + 1 ∧
       ((if isRoot then 1 else (ord+1)/2 - 1) ≤ ks.length) ∧
       ks.length ≤ ord - 1 ∧
       ∀ c ∈ cs, occOK ord false c = true) := by
  rw [occOK]
  simp only [Bool.and_eq_true, decide_eq_true_eq, List.all_eq_true,
    List.mem_attach, true_implies, Subtype.forall]
  constructor
  · rintro ⟨⟨⟨h1, h2⟩, h3⟩, h4⟩
    exact ⟨h1, h2, h3, h4⟩
  · rintro ⟨h1, h2, h3, h4⟩
    exact ⟨⟨⟨h1, h2⟩, h3⟩, h4⟩

/-- Well-formedness implies the executable occupancy check. -/
theorem WF_occOK [LinearOrder K] {ord : Nat} :
    ∀ {rt : Bool} {lo hi : Option K} {t : BPT K V}, WF ord rt lo hi t →
      occOK ord rt t = true := by
  intro rt lo hi t h
  induction h with
  | leaf rt lo hi ks vs hpw hlen hin hocc hroot =>
      rw [occOK_leaf]
      simp only [Bool.and_eq_true, Bool.or_eq_true, decide_eq_true_eq]
      refine ⟨?_, hocc⟩
      cases rt with
      | true => exact Or.inl rfl
      | false => exact Or.inr (hroot rfl)
  | internal rt lo hi ks cs hlen hpw hin hocc1 hocc2 hch ih =>
      rw [occOK_internal]
      refine ⟨hlen, hocc2, hocc1, ?_⟩
      intro c hc
      have hlb : (boundsList lo hi ks).length = cs.length := by
        rw [boundsList_length]
        omega
      obtain ⟨b, hb⟩ := mem_zip_right hlb c hc
      exact ih (b, c) hb

theorem splitInternalGoCnt_nil_eq [LinearOrder K] [Inhabited K] (ord : Nat)
    (ks : List K) (cs : List (BPT K V)) :
    splitInternalGoCnt ord ks cs [] =
      (.internal [ks.getD (ks.length / 2) default]
        [.internal (ks.take (ks.length / 2)) (cs.take (ks.length / 2 + 1)),
         .internal (ks.drop (ks.length / 2 + 1))
           (cs.drop (ks.length / 2 + 1))], 1) := by
  rw [splitInternalGoCnt]

theorem splitInternalGoCnt_cons_eq [LinearOrder K] [Inhabited K] (ord : Nat)
    (ks : List K) (cs : List (BPT K V)) (ctx : BCtx K V)
    (rest : List (BCtx K V)) :
    splitInternalGoCnt ord ks cs (ctx :: rest) =
      insertInternalGoCnt ord ctx
        (.internal (ks.take (ks.length / 2)) (cs.take (ks.length / 2 + 1)))
        (ks.getD (ks.length / 2) default)
        (.internal (ks.drop (ks.length / 2 + 1))
          (cs.drop (ks.length / 2 + 1))) rest := by
  rw [splitInternalGoCnt]

theorem insertInternalGoCnt_eq [LinearOrder K] [Inhabited K] (ord : Nat)
    (ctx : BCtx K V) (leftNode : BPT K V) (key : K) (child : BPT K V)
    (rest : List (BCtx K V)) :
    insertInternalGoCnt ord ctx leftNode key child rest =
      (if (pyInsert (scanPos key ctx.keys) key ctx.keys).length > ord - 1 then
        splitInternalGoCnt ord (pyInsert (scanPos key ctx.keys) key ctx.keys)
          (pyInsert (scanPos key ctx.keys + 1) child
            (ctx.children.set ctx.pos leftNode)) rest
      else
        (fillB (.internal (pyInsert (scanPos key ctx.keys) key ctx.keys)
          (pyInsert (scanPos key ctx.keys + 1) child
            (ctx.children.set ctx.pos leftNode))) rest, 0)) := by
  rw [insertInternalGoCnt]

theorem insertInternalGo_eq [LinearOrder K] [Inhabited K] (ord : Nat)
    (ctx : BCtx K V) (leftNode : BPT K V) (key : K) (child : BPT K V)
    (rest : List (BCtx K V)) :
    insertInternalGo ord ctx leftNode key child rest =
      (if (pyInsert (scanPos key ctx.keys) key ctx.keys).length > ord - 1 then
        splitInternalGo ord (pyInsert (scanPos key ctx.keys) key ctx.keys)
          (pyInsert (scanPos key ctx.keys + 1) child
            (ctx.children.set ctx.pos leftNode)) rest
      else
        fillB (.internal (pyInsert (scanPos key ctx.keys) key ctx.keys)
          (pyInsert (scanPos key ctx.keys + 1) child
            (ctx.children.set ctx.pos leftNode))) rest) := by
  rw [insertInternalGo]

/-- The instrumented internal-split agrees with the plain one and creates
at most one new root. -/
theorem splitInternalGoCnt_spec [LinearOrder K] [Inhabited K] (ord : Nat) :
    ∀ (path : List (BCtx K V)) (ks : List K) (cs : List (BPT K V)),
      (splitInternalGoCnt ord ks cs path).1 = splitInternalGo ord ks cs path ∧
      (splitInternalGoCnt ord ks cs path).2 ≤ 1 := by
  intro path
  induction path with
  | nil =>
      intro ks cs
      rw [splitInternalGoCnt_nil_eq, splitInternalGo_nil_eq]
      exact ⟨rfl, le_refl 1⟩
  | cons ctx rest ih =>
      intro ks cs
      rw [splitInternalGoCnt_cons_eq, splitInternalGo_cons_eq,
        insertInternalGoCnt_eq, insertInternalGo_eq]
      by_cases hov : (pyInsert (scanPos (ks.getD (ks.length / 2) default)
          ctx.keys) (ks.getD (ks.length / 2) default) ctx.keys).length >
          ord - 1
      · rw [if_pos hov, if_pos hov]
        exact ih _ _
      · rw [if_neg hov, if_neg hov]
        exact ⟨rfl, by omega⟩

theorem insertInternalGoCnt_spec [LinearOrder K] [Inhabited K] (ord : Nat)
    (ctx : BCtx K V) (leftNode : BPT K V) (key : K) (child : BPT K V)
    (rest : List (BCtx K V)) :
    (insertInternalGoCnt ord ctx leftNode key child rest).1 =
      insertInternalGo ord ctx leftNode key child rest ∧
    (insertInternalGoCnt ord ctx leftNode key child rest).2 ≤ 1 := by
  rw [insertInternalGoCnt_eq, insertInternalGo_eq]
  by_cases hov : (pyInsert (scanPos key ctx.keys) key ctx.keys).length >
      ord - 1
  · rw [if_pos hov, if_pos hov]
    exact splitInternalGoCnt_spec ord rest _ _
  · rw [if_neg hov, if_neg hov]
    exact ⟨rfl, by omega⟩

theorem splitLeafGoCnt_spec [LinearOrder K] [Inhabited K] (ord : Nat)
    (ks : List K) (vs : List V) (path : List (BCtx K V)) :
    (splitLeafGoCnt ord ks vs path).1 = splitLeafGo ord ks vs path ∧
    (splitLeafGoCnt ord ks vs path).2 ≤ 1 := by
  cases path with
  | nil => exact ⟨rfl, le_refl 1⟩
  | cons ctx rest =>
      rw [show splitLeafGoCnt ord ks vs (ctx :: rest) =
        insertInternalGoCnt ord ctx (.leaf (ks.take ((ord+1)/2))
          (vs.take ((ord+1)/2))) ((ks.drop ((ord+1)/2)).headD default)
          (.leaf (ks.drop ((ord+1)/2)) (vs.drop ((ord+1)/2))) rest from rfl]
      rw [show splitLeafGo ord ks vs (ctx :: rest) =
        insertInternalGo ord ctx (.leaf (ks.take ((ord+1)/2))
          (vs.take ((ord+1)/2))) ((ks.drop ((ord+1)/2)).headD default)
          (.leaf (ks.drop ((ord+1)/2)) (vs.drop ((ord+1)/2))) rest from rfl]
      exact insertInternalGoCnt_spec ord ctx _ _ _ rest

/-- `insert` instrumented with root creations: it computes the same tree
and creates at most one new root. -/
theorem insertCnt_spec [LinearOrder K] [Inhabited K] (ord : Nat)
    (t : BPT K V) (key : K) (v : V) :
    (insertCnt ord t key v).1 = insert ord t key v ∧
    (insertCnt ord t key v).2 ≤ 1 := by
  cases hfind : findLeafPath t key [] with
  | none =>
      rw [insertCnt, BPTree.insert]
      simp [hfind]
  | some res =>
      obtain ⟨ks, vs, path⟩ := res
      rw [insertCnt, BPTree.insert]
      simp only [hfind]
      by_cases hf : scanPos key ks < ks.length ∧
          ks.getD (scanPos key ks) default = key
      · rw [if_pos hf, if_pos hf]
        exact ⟨rfl, by omega⟩
      · rw [if_neg hf, if_neg hf]
        by_cases hov : (pyInsert (scanPos key ks) key ks).length > ord - 1
        · rw [if_pos hov, if_pos hov]
          exact splitLeafGoCnt_spec ord _ _ path
        · rw [if_neg hov, if_neg hov]
          exact ⟨rfl, by omega⟩

end BPTree

/-! ## Re-inserting a present key: in-place overwrite -/

namespace RBT

variable {K V : Type}

/-- When the key is already present, the descent of `insert` ends at the
matching node and only overwrites its value: no fix-up, no new node. -/
theorem insertGo_eq_setVal [LinearOrder K] (key : K) (v : V) :
    ∀ (t : RBTree K V) (fs : List (Frame K V)),
      search t key ≠ none →
      insertGo key v t fs = fill (setVal t key v) fs := by
  intro t
  induction t with
  | nil => intro fs h; simp [search] at h
  | node c k v0 l r ihl ihr =>
      intro fs h
      rw [insertGo, setVal]
      by_cases h1 : key < k
      · rw [if_pos h1, if_pos h1]
        have hne : ¬ key = k := ne_of_lt h1
        rw [search, if_neg hne, if_pos h1] at h
        rw [ihl _ h]
        rfl
      · rw [if_neg h1, if_neg h1]
        by_cases h2 : k < key
        · rw [if_pos h2, if_pos h2]
          have hne : ¬ key = k := ne_of_gt h2
          rw [search, if_neg hne, if_neg h1] at h
          rw [ihr _ h]
          rfl
        · rw [if_neg h2, if_neg h2]

theorem insert_eq_setVal [LinearOrder K] (t : RBTree K V) (key : K) (v : V)
    (h : search t key ≠ none) : insert t key v = setVal t key v := by
  rw [insert, insertGo_eq_setVal key v t [] h, fill_nil]

theorem nodeCount_setVal [LinearOrder K] (key : K) (v : V) :
    ∀ t : RBTree K V, nodeCount (setVal t key v) = nodeCount t := by
  intro t
  induction t with
  | nil => rfl
  | node c k v0 l r ihl ihr =>
      rw [setVal]
      split_ifs <;> simp [nodeCount, ihl, ihr]

theorem inorder_setVal_length [LinearOrder K] (key : K) (v : V) :
    ∀ t : RBTree K V,
      (inorder (setVal t key v)).length = (inorder t).length := by
  intro t
  induction t with
  | nil => rfl
  | node c k v0 l r ihl ihr =>
      rw [setVal]
      split_ifs <;> simp [inorder, ihl, ihr]

theorem search_setVal [LinearOrder K] (key : K) (v : V) :
    ∀ t : RBTree K V, search t key ≠ none →
      search (setVal t key v) key = some v := by
  intro t
  induction t with
  | nil => intro h; simp [search] at h
  | node c k v0 l r ihl ihr =>
      intro h
      rw [setVal]
      by_cases h1 : key < k
      · have hne : ¬ key = k := ne_of_lt h1
        rw [search, if_neg hne, if_pos h1] at h
        rw [if_pos h1, search, if_neg hne, if_pos h1]
        exact ihl h
      · rw [if_neg h1]
        by_cases h2 : k < key
        · have hne : ¬ key = k := ne_of_gt h2
          rw [search, if_neg hne, if_neg h1] at h
          rw [if_pos h2, search, if_neg hne, if_neg h1]
          exact ihr h
        · rw [if_neg h2, search]
          have heq : key = k := le_antisymm (not_lt.mp h2) (not_lt.mp h1)
          rw [if_pos heq]

theorem setVal_setVal [LinearOrder K] (key : K) (v : V) :
    ∀ t : RBTree K V, setVal (setVal t key v) key v = setVal t key v := by
  intro t
  induction t with
  | nil => rfl
  | node c k v0 l r ihl ihr =>
      rw [setVal]
      by_cases h1 : key < k
      · rw [if_pos h1, setVal, if_pos h1, ihl]
      · rw [if_neg h1]
        by_cases h2 : k < key
        · rw [if_pos h2, setVal, if_neg h1, if_pos h2, ihr]
        · rw [if_neg h2, setVal, if_neg h1, if_neg h2]

theorem insert_idem [LinearOrder K] (t : RBTree K V) (key : K) (v : V)
    (h : search t key ≠ none) :
    insert (insert t key v) key v = insert t key v := by
  rw [insert_eq_setVal t key v h]
  have h2 : search (setVal t key v) key = some v := search_setVal key v t h
  rw [insert_eq_setVal _ key v (by rw [h2]; exact Option.some_ne_none v),
    setVal_setVal]

end RBT

namespace BPTree

variable {K V : Type}

theorem nodeCountB_internal (ks : List K) (cs : List (BPT K V)) :
    nodeCountB (.internal ks cs) = (cs.map nodeCountB).sum + 1 := by
  rw [nodeCountB]
  congr 2
  simp [List.map_attach, List.pmap_eq_map]

theorem fillB_append (t : BPT K V) (a b : List (BCtx K V)) :
    fillB t (a ++ b) = fillB (fillB t a) b := by
  simp [fillB]

/-- Along a valid path, replacing the focus by one with the same node count
leaves the total node count unchanged. -/
theorem nodeCountB_fillB_congr [LinearOrder K] {ord : Nat} :
    ∀ (path : List (BCtx K V)) (lo hi : Option K) (s s2 : BPT K V),
      PathOk ord path lo hi → nodeCountB s = nodeCountB s2 →
      nodeCountB (fillB s path) = nodeCountB (fillB s2 path) := by
  intro path
  induction path with
  | nil => intro lo hi s s2 _ h; simpa [fillB_nil] using h
  | cons c rest ih =>
      intro lo hi s s2 hpath h
      obtain ⟨plo, phi, ksA, ksB, csA, ch, csB, hrest, hkeys, hcs, hlA, hcA,
        hpw, hin, hocc1, hocc2, hlo, hhi, hf2A, hf2B⟩ := hpath
      rw [fillB_cons, fillB_cons]
      refine ih plo phi _ _ hrest ?_
      rw [hcs, ← hcA, set_at_length, set_at_length,
        nodeCountB_internal, nodeCountB_internal]
      simp [h]

theorem inB_step [LinearOrder K] (key : K) (plo phi : Option K)
    (ksA ksB : List K)
    (hin : ∀ k ∈ ksA ++ ksB, inB plo phi k)
    (hkey : inB (lastBnd plo ksA) (headBnd phi ksB) key) :
    inB plo phi key := by
  constructor
  · intro a ha
    cases hgl : ksA.getLast? with
    | none =>
        refine hkey.1 a ?_
        rw [lastBnd, hgl]
        exact ha
    | some m =>
        have hm : m ∈ ksA := List.mem_of_mem_getLast? hgl
        have h1 : m ≤ key := hkey.1 m (by rw [lastBnd, hgl]; rfl)
        have h2 := (hin m (List.mem_append.mpr (Or.inl hm))).1 a ha
        exact le_trans h2 h1
  · intro b hb
    cases hh : ksB.head? with
    | none =>
        refine hkey.2 b ?_
        rw [headBnd, hh]
        exact hb
    | some m =>
        have hm : m ∈ ksB := List.mem_of_mem_head? hh
        have h1 : key < m := hkey.2 m (by rw [headBnd, hh]; rfl)
        have h2 := (hin m (List.mem_append.mpr (Or.inr hm))).2 b hb
        exact lt_trans h1 h2

theorem childIdxAux_append_skip [LinearOrder K] (key : K) :
    ∀ (ksA ksB : List K), (∀ a ∈ ksA, ¬ key < a) →
      childIdxAux key (ksA ++ ksB) =
        (childIdxAux key ksB).map (fun i => i + ksA.length) := by
  intro ksA
  induction ksA with
  | nil =>
      intro ksB _
      simp
  | cons a ksA ih =>
      intro ksB hA
      rw [List.cons_append, childIdxAux,
        if_neg (hA a (by simp)), ih ksB (fun x hx => hA x (by simp [hx]))]
      cases childIdxAux key ksB <;> simp
      omega

theorem childIdx_split [LinearOrder K] (key : K) (ksA ksB : List K)
    (ncs : Nat) (hA : ∀ a ∈ ksA, ¬ key < a)
    (hB : ∀ b ∈ ksB.head?, key < b)
    (hn : ncs = ksA.length + ksB.length + 1) :
    childIdx key (ksA ++ ksB) ncs = ksA.length := by
  rw [childIdx, childIdxAux_append_skip key ksA ksB hA]
  cases ksB with
  | nil =>
      rw [show childIdxAux key [] = none from rfl]
      simp at hn
      simp
      omega
  | cons b B =>
      rw [childIdxAux, if_pos (hB b rfl)]
      simp

/-- Descending the tree rebuilt around a leaf finds that leaf again, along
a path that refills identically. -/
theorem refill_aux [LinearOrder K] [Inhabited K] {ord : Nat} (key : K)
    (ks : List K) (vs : List V) :
    ∀ (path : List (BCtx K V)) (lo hi : Option K) (s : BPT K V)
      (p0 : List (BCtx K V)),
      PathOk ord path lo hi → inB lo hi key →
      (∀ acc : List (BCtx K V), ∃ p2,
        findLeafPath s key acc = some (ks, vs, p2 ++ acc) ∧
        ∀ y : BPT K V, fillB y p2 = fillB y p0) →
      ∀ acc : List (BCtx K V), ∃ p3,
        findLeafPath (fillB s path) key acc = some (ks, vs, p3 ++ acc) ∧
        ∀ y : BPT K V, fillB y p3 = fillB y (p0 ++ path) := by
  intro path
  induction path with
  | nil =>
      intro lo hi s p0 _ _ hs acc
      obtain ⟨p2, h1, h2⟩ := hs acc
      exact ⟨p2, h1, fun y => by rw [h2 y, List.append_nil]⟩
  | cons c rest ih =>
      intro lo hi s p0 hpath hkey hs acc
      obtain ⟨plo, phi, ksA, ksB, csA, ch, csB, hrest, hkeys, hcs, hlA, hcA,
        hpw, hin, hocc1, hocc2, hlo, hhi, hf2A, hf2B⟩ := hpath
      rw [hkeys] at hpw hin
      rw [hlo, hhi] at hkey
      have hkey2 : inB plo phi key := inB_step key plo phi ksA ksB hin hkey
      have hA : ∀ a ∈ ksA, ¬ key < a := by
        intro a ha
        cases hgl : ksA.getLast? with
        | none =>
            rw [List.getLast?_eq_none_iff] at hgl
            rw [hgl] at ha
            simp at ha
        | some m =>
            have h1 : m ≤ key := hkey.1 m (by rw [lastBnd, hgl]; rfl)
            have hpwA := (List.pairwise_append.mp hpw).1
            have h2 : a ≤ m := pairwise_le_getLast ksA m hpwA hgl a ha
            exact not_lt.mpr (le_trans h2 h1)
      have hB : ∀ b ∈ ksB.head?, key < b := by
        intro b hb
        exact hkey.2 b (by rw [headBnd, hb]; rfl)
      have hcsA : csA.length = ksA.length := by
        have h := List.Forall₂.length_eq hf2A
        rw [frontBL_length] at h
        omega
      have hcsB : csB.length = ksB.length := by
        have h := List.Forall₂.length_eq hf2B
        rw [tailBL_length] at h
        omega
      have hset : c.children.set c.pos s = csA ++ s :: csB := by
        rw [hcs, ← hcA, set_at_length]
      have hidx : childIdx key c.keys (c.children.set c.pos s).length
          = c.pos := by
        rw [hkeys, hset]
        rw [childIdx_split key ksA ksB _ hA hB
          (by simp only [List.length_append, List.length_cons, hcsA, hcsB]
              omega)]
        exact hlA
      have hs2 : ∀ acc2 : List (BCtx K V), ∃ p2,
          findLeafPath (.internal c.keys (c.children.set c.pos s) : BPT K V)
            key acc2 = some (ks, vs, p2 ++ acc2) ∧
          ∀ y : BPT K V, fillB y p2 = fillB y (p0 ++ [c]) := by
        intro acc2
        have hget : (c.children.set c.pos s)[childIdx key c.keys
            (c.children.set c.pos s).length]? = some s := by
          rw [hidx, hset, ← hcA]
          exact getElem?_at_length csA s csB
        obtain ⟨p2, h1, h2⟩ := hs
          (⟨c.keys, c.children.set c.pos s, c.pos⟩ :: acc2)
        refine ⟨p2 ++ [⟨c.keys, c.children.set c.pos s, c.pos⟩], ?_, ?_⟩
        · rw [findLeafPath, hget]
          show findLeafPath s key (⟨c.keys, c.children.set c.pos s,
              childIdx key c.keys (c.children.set c.pos s).length⟩ :: acc2) =
            some (ks, vs,
              (p2 ++ [⟨c.keys, c.children.set c.pos s, c.pos⟩]) ++ acc2)
          rw [hidx, h1]
          simp
        · intro y
          rw [fillB_append, h2 y, fillB_append]
          rw [show fillB (fillB y p0) [⟨c.keys, c.children.set c.pos s,
            c.pos⟩] = .internal c.keys ((c.children.set c.pos s).set c.pos
              (fillB y p0)) from rfl]
          rw [List.set_set]
          rfl
      obtain ⟨p3, h3, h4⟩ := ih plo phi _ (p0 ++ [c]) hrest hkey2 hs2 acc
      refine ⟨p3, ?_, ?_⟩
      · rw [fillB_cons]
        exact h3
      · intro y
        rw [h4 y, List.append_assoc]
        rfl

/-- Inserting a key that is already present overwrites the stored value in
the found leaf: the node count and the entry count are unchanged, and
repeating the identical insert leaves the tree unchanged. -/
theorem insert_present [LinearOrder K] [Inhabited K] {ord : Nat}
    (t : BPT K V) (key : K) (v : V)
    (hwf : WF ord true none none t) (hfound : BPTree.search t key ≠ none) :
    nodeCountB (BPTree.insert ord t key v) = nodeCountB t ∧
    (list_all (BPTree.insert ord t key v)).length = (list_all t).length ∧
    BPTree.insert ord (BPTree.insert ord t key v) key v =
      BPTree.insert ord t key v := by
  obtain ⟨ks, vs, path, lo2, hi2, hfind, hpath, hkey, hpw, hlen, hin, ho,
    hro, hfill⟩ :=
    findLeafPath_descend t key [] none none (by simpa using hwf)
      ⟨rfl, rfl⟩ (inB_none_none key)
  have hmem : key ∈ ks := by
    rw [BPTree.search] at hfound
    simp only [hfind] at hfound
    cases hfq : findEq key ks with
    | none => rw [hfq] at hfound; simp at hfound
    | some j =>
        obtain ⟨A, B, hks2, h1, h2⟩ := findEq_some key ks j hfq
        rw [hks2]
        exact List.mem_append.mpr (Or.inr (by simp))
  have hscan := scan_found key ks hpw hmem
  have ht : t = fillB (.leaf ks vs) path := by rw [hfill]; rfl
  have hins : BPTree.insert ord t key v =
      fillB (.leaf ks (vs.set (scanPos key ks) v)) path := by
    rw [BPTree.insert]
    simp only [hfind]
    rw [if_pos hscan]
  refine ⟨?_, ?_, ?_⟩
  · rw [hins]
    conv_rhs => rw [ht]
    exact nodeCountB_fillB_congr path lo2 hi2 _ _ hpath
      (by rw [nodeCountB, nodeCountB])
  · rw [hins]
    conv_rhs => rw [ht]
    rw [list_all_fillB path lo2 hi2 _ hpath,
      list_all_fillB path lo2 hi2 _ hpath, list_all_leaf, list_all_leaf]
    simp
  · have hbase : ∀ acc : List (BCtx K V), ∃ p2,
        findLeafPath (.leaf ks (vs.set (scanPos key ks) v) : BPT K V) key acc
          = some (ks, vs.set (scanPos key ks) v, p2 ++ acc) ∧
        ∀ y : BPT K V, fillB y p2 = fillB y ([] : List (BCtx K V)) := by
      intro acc
      refine ⟨[], ?_, fun y => rfl⟩
      rw [findLeafPath]
      simp
    obtain ⟨p3, h3, h4⟩ := refill_aux key ks (vs.set (scanPos key ks) v)
      path lo2 hi2 _ [] hpath hkey hbase []
    rw [List.append_nil] at h3
    rw [hins, BPTree.insert]
    simp only [h3]
    rw [if_pos hscan, List.set_set]
    have h5 := h4 (.leaf ks (vs.set (scanPos key ks) v) : BPT K V)
    rw [List.nil_append] at h5
    exact h5

end BPTree

/-! ## Huffman codec: the heap operations permute the node list -/

namespace Huffman

variable {α : Type}

theorem getD_set_ne {β : Type} (d : β) :
    ∀ (l : List β) (i j : Nat) (x : β), i ≠ j →
      (l.set i x).getD j d = l.getD j d := by
  intro l
  induction l with
  | nil => intro i j x _; simp
  | cons a l ih =>
      intro i j x hij
      cases i with
      | zero =>
          cases j with
          | zero => exact absurd rfl hij
          | succ j => simp
      | succ i =>
          cases j with
          | zero => simp
          | succ j => simpa using ih i j x (by omega)

theorem getD_set_self {β : Type} (d : β) :
    ∀ (l : List β) (i : Nat) (x : β), i < l.length →
      (l.set i x).getD i d = x := by
  intro l
  induction l with
  | nil => intro i x h; simp at h
  | cons a l ih =>
      intro i x h
      cases i with
      | zero => simp
      | succ i => simpa using ih i x (by simpa using h)

theorem set_getD_self {β : Type} (d : β) :
    ∀ (l : List β) (i : Nat), i < l.length → l.set i (l.getD i d) = l := by
  intro l
  induction l with
  | nil => intro i h; simp at h
  | cons a l ih =>
      intro i h
      cases i with
      | zero => simp
      | succ i => simpa using ih i (by simpa using h)

theorem count_set_add {β : Type} [DecidableEq β] (d : β) :
    ∀ (l : List β) (i : Nat) (x z : β), i < l.length →
      (l.set i x).count z + (if l.getD i d = z then 1 else 0) =
        l.count z + (if x = z then 1 else 0) := by
  intro l
  induction l with
  | nil => intro i x z h; simp at h
  | cons a l ih =>
      intro i x z h
      cases i with
      | zero =>
          simp only [List.set_cons_zero, List.count_cons, List.getD_cons_zero]
          by_cases hx : x = z <;> by_cases ha : a = z <;>
            simp [hx, ha] <;> omega
      | succ i =>
          simp only [List.set_cons_succ, List.count_cons, List.getD_cons_succ]
          have h2 := ih i x z (by simpa using h)
          rw [List.getD_eq_getElem?_getD] at h2
          by_cases ha : a = z <;>
            simp [ha, List.getD_eq_getElem?_getD] <;> omega

theorem set_swap_perm {β : Type} [DecidableEq β] (d : β) (l : List β)
    (i j : Nat) (x : β) (hi : i < l.length) (hj : j < l.length)
    (hij : i ≠ j) :
    ((l.set i (l.getD j d)).set j x).Perm (l.set i x) := by
  rw [List.perm_iff_count]
  intro z
  have h1 := count_set_add d l i (l.getD j d) z hi
  have h2 := count_set_add d (l.set i (l.getD j d)) j x z (by simpa using hj)
  have h3 := count_set_add d l i x z hi
  rw [getD_set_ne d l i j _ hij] at h2
  omega

theorem siftdownGo_eq (newitem : HNode α) (startpos : Nat)
    (heap : List (HNode α)) (pos : Nat) :
    siftdownGo newitem startpos heap pos =
      if startpos < pos then
        (if hlt newitem (heap.getD ((pos - 1) / 2) .none) = true then
          siftdownGo newitem startpos
            (heap.set pos (heap.getD ((pos - 1) / 2) .none)) ((pos - 1) / 2)
        else heap.set pos newitem)
      else heap.set pos newitem := by
  rw [siftdownGo]

theorem siftdownGo_length (newitem : HNode α) (startpos : Nat) :
    ∀ (pos : Nat) (heap : List (HNode α)),
      (siftdownGo newitem startpos heap pos).length = heap.length := by
  intro pos
  induction pos using Nat.strong_induction_on with
  | _ pos ih =>
      intro heap
      rw [siftdownGo_eq]
      by_cases h : startpos < pos
      · rw [if_pos h]
        by_cases h2 : hlt newitem (heap.getD ((pos - 1) / 2) .none) = true
        · rw [if_pos h2, ih ((pos - 1) / 2) (by omega)]
          simp
        · rw [if_neg h2]
          simp
      · rw [if_neg h]
        simp

theorem siftdownGo_perm [DecidableEq α] (newitem : HNode α)
    (startpos : Nat) :
    ∀ (pos : Nat) (heap : List (HNode α)), pos < heap.length →
      (siftdownGo newitem startpos heap pos).Perm (heap.set pos newitem) := by
  intro pos
  induction pos using Nat.strong_induction_on with
  | _ pos ih =>
      intro heap hpos
      rw [siftdownGo_eq]
      by_cases h : startpos < pos
      · rw [if_pos h]
        by_cases h2 : hlt newitem (heap.getD ((pos - 1) / 2) .none) = true
        · rw [if_pos h2]
          refine List.Perm.trans
            (ih ((pos - 1) / 2) (by omega) _ (by simp; omega)) ?_
          exact set_swap_perm .none heap pos ((pos - 1) / 2) newitem hpos
            (by omega) (by omega)
        · rw [if_neg h2]
      · rw [if_neg h]

theorem siftupGo_eq (endpos : Nat) (heap : List (HNode α)) (pos : Nat) :
    siftupGo endpos heap pos =
      if 2 * pos + 1 < endpos then
        siftupGo endpos
          (heap.set pos (heap.getD (if 2 * pos + 1 + 1 < endpos ∧
              ¬ hlt (heap.getD (2 * pos + 1) .none)
                  (heap.getD (2 * pos + 1 + 1) .none) = true
            then 2 * pos + 1 + 1 else 2 * pos + 1) .none))
          (if 2 * pos + 1 + 1 < endpos ∧
              ¬ hlt (heap.getD (2 * pos + 1) .none)
                  (heap.getD (2 * pos + 1 + 1) .none) = true
            then 2 * pos + 1 + 1 else 2 * pos + 1)
      else (heap, pos) := by
  rw [siftupGo]

theorem siftupGo_spec [DecidableEq α] (endpos : Nat) :
    ∀ (n pos : Nat) (heap : List (HNode α)), endpos - pos ≤ n →
      endpos = heap.length → pos < endpos →
      (siftupGo endpos heap pos).1.length = heap.length ∧
      (siftupGo endpos heap pos).2 < endpos ∧
      ∀ x : HNode α,
        ((siftupGo endpos heap pos).1.set (siftupGo endpos heap pos).2
          x).Perm (heap.set pos x) := by
  intro n
  induction n with
  | zero => intro pos heap hn he hp; omega
  | succ n ih =>
      intro pos heap hn he hp
      rw [siftupGo_eq]
      by_cases h : 2 * pos + 1 < endpos
      · rw [if_pos h]
        set cp := if 2 * pos + 1 + 1 < endpos ∧
            ¬ hlt (heap.getD (2 * pos + 1) .none)
                (heap.getD (2 * pos + 1 + 1) .none) = true
          then 2 * pos + 1 + 1 else 2 * pos + 1 with hcp
        have hcpb : cp < endpos ∧ pos < cp := by
          rw [hcp]
          split <;> omega
        obtain ⟨h1, h2, h3⟩ := ih cp
          (heap.set pos (heap.getD cp .none))
          (by omega) (by rw [he]; simp) hcpb.1
        refine ⟨by rw [h1]; simp, h2, ?_⟩
        intro x
        refine (h3 x).trans ?_
        exact set_swap_perm .none heap pos cp x (by omega) (by omega)
          (by omega)
      · rw [if_neg h]
        exact ⟨rfl, hp, fun x => List.Perm.refl _⟩

theorem siftup_perm [DecidableEq α] (heap : List (HNode α)) (pos : Nat)
    (h : pos < heap.length) :
    (siftup heap pos).Perm heap ∧ (siftup heap pos).length = heap.length := by
  obtain ⟨hl, hp2, hperm⟩ := siftupGo_spec heap.length
    (heap.length - pos) pos heap (by omega) rfl h
  have heq : siftup heap pos = siftdownGo
      (((siftupGo heap.length heap pos).1.set
        (siftupGo heap.length heap pos).2 (heap.getD pos .none)).getD
          (siftupGo heap.length heap pos).2 .none)
      pos
      ((siftupGo heap.length heap pos).1.set
        (siftupGo heap.length heap pos).2 (heap.getD pos .none))
      (siftupGo heap.length heap pos).2 := rfl
  rw [heq, getD_set_self HNode.none ((siftupGo heap.length heap pos).1)
    ((siftupGo heap.length heap pos).2) (heap.getD pos HNode.none)
    (by omega)]
  constructor
  · refine (siftdownGo_perm _ pos _ _ (by simp; omega)).trans ?_
    rw [List.set_set]
    exact (hperm (heap.getD pos .none)).trans
      (by rw [set_getD_self .none heap pos h])
  · rw [siftdownGo_length]
    simp [hl]

theorem heappush_perm [DecidableEq α] (heap : List (HNode α))
    (item : HNode α) :
    (heappush heap item).Perm (item :: heap) ∧
    (heappush heap item).length = heap.length + 1 := by
  have heq : heappush heap item = siftdownGo
      ((heap ++ [item]).getD ((heap ++ [item]).length - 1) .none) 0
      (heap ++ [item]) ((heap ++ [item]).length - 1) := rfl
  constructor
  · rw [heq]
    refine (siftdownGo_perm _ 0 _ _ (by simp)).trans ?_
    rw [set_getD_self HNode.none (heap ++ [item])
      ((heap ++ [item]).length - 1) (by simp)]
    exact List.perm_append_singleton _ _
  · rw [heq, siftdownGo_length]
    simp

theorem heappop_spec [DecidableEq α] (heap : List (HNode α))
    (hne : heap ≠ []) :
    ∃ x h2, heappop heap = some (x, h2) ∧ heap.Perm (x :: h2) ∧
      h2.length = heap.length - 1 := by
  rcases List.eq_nil_or_concat heap with h | ⟨l2, a, hconcat⟩
  · exact absurd h hne
  rw [List.concat_eq_append] at hconcat
  subst hconcat
  cases l2 with
  | nil => exact ⟨a, [], rfl, by simp, by simp⟩
  | cons hd tl =>
      have heq : heappop ((hd :: tl) ++ [a]) =
          some (hd, siftup (a :: tl) 0) := by
        rw [heappop, List.getLast?_concat, List.dropLast_concat]
        rfl
      obtain ⟨hperm, hlen⟩ := siftup_perm (a :: tl) 0 (by simp)
      refine ⟨hd, siftup (a :: tl) 0, heq, ?_, by simp [hlen]⟩
      refine List.Perm.trans ?_ (List.Perm.cons hd hperm.symm)
      rw [List.cons_append]
      exact List.Perm.cons hd (List.perm_append_singleton a tl)

theorem heapifyGo_perm [DecidableEq α] :
    ∀ (i : Nat) (heap : List (HNode α)), i ≤ heap.length →
      (heapifyGo heap i).Perm heap ∧
      (heapifyGo heap i).length = heap.length := by
  intro i
  induction i with
  | zero => intro heap _; exact ⟨List.Perm.refl _, rfl⟩
  | succ i ih =>
      intro heap hle
      obtain ⟨hs1, hs2⟩ := siftup_perm heap i (by omega)
      rw [show heapifyGo heap (i + 1) = heapifyGo (siftup heap i) i from rfl]
      obtain ⟨h1, h2⟩ := ih (siftup heap i) (by omega)
      exact ⟨h1.trans hs1, by rw [h2, hs2]⟩

theorem heapify_perm [DecidableEq α] (heap : List (HNode α)) :
    (heapify heap).Perm heap ∧ (heapify heap).length = heap.length :=
  heapifyGo_perm (heap.length / 2) heap (by omega)

theorem heapChars_cons (x : HNode α) (l : List (HNode α)) :
    heapChars (x :: l) = charsH x ++ heapChars l := rfl

theorem heapChars_perm [DecidableEq α] {h1 h2 : List (HNode α)}
    (h : h1.Perm h2) : (heapChars h1).Perm (heapChars h2) := by
  induction h with
  | nil => exact List.Perm.refl _
  | cons x _ ih =>
      rw [heapChars_cons, heapChars_cons]
      exact List.Perm.append_left _ ih
  | swap x y l =>
      rw [heapChars_cons, heapChars_cons, heapChars_cons, heapChars_cons,
        ← List.append_assoc, ← List.append_assoc]
      exact List.Perm.append_right _ (List.perm_append_comm)
  | trans _ _ ih1 ih2 => exact ih1.trans ih2

theorem buildLoop_succ_eq (fuel : Nat) (heap : List (HNode α)) :
    buildLoop (fuel + 1) heap =
      if heap.length ≤ 1 then heap.head?
      else
        match heappop heap with
        | Option.none => Option.none
        | some (left, h1) =>
            match heappop h1 with
            | Option.none => Option.none
            | some (right, h2) =>
                buildLoop fuel
                  (heappush h2
                    (.node Option.none (hfreq left + hfreq right) left
                      right)) := rfl

/-- The merge loop returns a merged (`char = None`) root carrying exactly
the characters of the heap. -/
theorem buildLoop_spec [DecidableEq α] :
    ∀ (fuel : Nat) (heap : List (HNode α)),
      2 ≤ heap.length → heap.length ≤ fuel + 1 →
      ∃ f l r, buildLoop fuel heap = some (.node Option.none f l r) ∧
        (charsH (.node Option.none f l r)).Perm (heapChars heap) := by
  intro fuel
  induction fuel with
  | zero => intro heap h2 h1; omega
  | succ fuel ih =>
      intro heap hge hle
      rw [buildLoop_succ_eq, if_neg (by omega)]
      obtain ⟨x, hh1, hpop1, hperm1, hlen1⟩ := heappop_spec heap
        (by intro he; rw [he] at hge; simp at hge)
      simp only [hpop1]
      obtain ⟨y, hh2, hpop2, hperm2, hlen2⟩ := heappop_spec hh1
        (by intro he; rw [he] at hlen1; simp at hlen1; omega)
      simp only [hpop2]
      obtain ⟨hpush1, hpush2⟩ := heappush_perm hh2
        (.node Option.none (hfreq x + hfreq y) x y)
      have hchars : (heapChars (heappush hh2
          (.node Option.none (hfreq x + hfreq y) x y))).Perm
          ((charsH x ++ charsH y) ++ heapChars hh2) := by
        refine (heapChars_perm hpush1).trans ?_
        rw [heapChars_cons]
        have hm : charsH (HNode.node Option.none (hfreq x + hfreq y) x y) =
            charsH x ++ charsH y := rfl
        rw [hm]
      have hheap : (heapChars heap).Perm
          ((charsH x ++ charsH y) ++ heapChars hh2) := by
        refine (heapChars_perm hperm1).trans ?_
        rw [heapChars_cons, List.append_assoc]
        exact List.Perm.append_left _
          ((heapChars_perm hperm2).trans
            (by rw [heapChars_cons]))
      by_cases hcase : heap.length = 2
      · have hh2nil : hh2 = [] := by
          have h0 : hh2.length = 0 := by omega
          exact List.length_eq_zero.mp h0
        have hpm : heappush ([] : List (HNode α))
            (.node Option.none (hfreq x + hfreq y) x y) =
            [.node Option.none (hfreq x + hfreq y) x y] := by
          rw [show heappush ([] : List (HNode α))
              (.node Option.none (hfreq x + hfreq y) x y) =
            siftdownGo
              (([.node Option.none (hfreq x + hfreq y) x y] :
                List (HNode α)).getD 0 .none) 0
              [.node Option.none (hfreq x + hfreq y) x y] 0 from rfl]
          rw [siftdownGo_eq, if_neg (by omega)]
          rfl
        rw [hh2nil, hpm]
        have hres : buildLoop fuel
            [HNode.node Option.none (hfreq x + hfreq y) x y] =
            some (.node Option.none (hfreq x + hfreq y) x y) := by
          cases fuel with
          | zero => rfl
          | succ n => rw [buildLoop_succ_eq]; rfl
        refine ⟨hfreq x + hfreq y, x, y, hres, ?_⟩
        refine List.Perm.symm (hheap.trans ?_)
        rw [hh2nil]
        have hz : heapChars ([] : List (HNode α)) = [] := rfl
        rw [hz, List.append_nil]
        exact List.Perm.refl _
      · obtain ⟨f, l, r, heq, hp⟩ := ih
          (heappush hh2 (.node Option.none (hfreq x + hfreq y) x y))
          (by omega) (by omega)
        exact ⟨f, l, r, heq, (hp.trans hchars).trans hheap.symm⟩

theorem bump_keys_mem [DecidableEq α] :
    ∀ (l : List (α × Nat)) (c x : α),
      (x ∈ (bump l c).map Prod.fst ↔ x ∈ l.map Prod.fst ∨ x = c) := by
  intro l
  induction l with
  | nil => intro c x; simp [bump]
  | cons p l ih =>
      intro c x
      obtain ⟨a, n⟩ := p
      by_cases hac : a = c
      · simp only [bump, if_pos hac]
        subst hac
        simp
        tauto
      · simp only [bump, if_neg hac]
        simp [ih]
        tauto

theorem bump_keys_nodup [DecidableEq α] :
    ∀ (l : List (α × Nat)) (c : α), (l.map Prod.fst).Nodup →
      ((bump l c).map Prod.fst).Nodup := by
  intro l
  induction l with
  | nil => intro c _; simp [bump]
  | cons p l ih =>
      intro c hnd
      obtain ⟨a, n⟩ := p
      simp only [List.map_cons, List.nodup_cons] at hnd
      by_cases hac : a = c
      · simp only [bump, if_pos hac]
        simp only [List.map_cons, List.nodup_cons]
        exact hnd
      · simp only [bump, if_neg hac]
        simp only [List.map_cons, List.nodup_cons]
        refine ⟨?_, ih c hnd.2⟩
        rw [bump_keys_mem]
        rintro (h | h)
        · exact hnd.1 h
        · exact hac h

theorem freq_fold_mem [DecidableEq α] :
    ∀ (text : List α) (l : List (α × Nat)) (x : α),
      (x ∈ ((text.foldl bump l).map Prod.fst) ↔
        x ∈ l.map Prod.fst ∨ x ∈ text) := by
  intro text
  induction text with
  | nil => intro l x; simp
  | cons c text ih =>
      intro l x
      rw [List.foldl_cons, ih, bump_keys_mem]
      simp
      tauto

theorem freq_fold_nodup [DecidableEq α] :
    ∀ (text : List α) (l : List (α × Nat)), (l.map Prod.fst).Nodup →
      ((text.foldl bump l).map Prod.fst).Nodup := by
  intro text
  induction text with
  | nil => intro l h; exact h
  | cons c text ih =>
      intro l h
      exact ih (bump l c) (bump_keys_nodup l c h)

theorem bft_keys_mem [DecidableEq α] (text : List α) (x : α) :
    x ∈ (build_frequency_table text).map Prod.fst ↔ x ∈ text := by
  rw [build_frequency_table, freq_fold_mem]
  simp

theorem bft_keys_nodup [DecidableEq α] (text : List α) :
    ((build_frequency_table text).map Prod.fst).Nodup :=
  freq_fold_nodup text [] (by simp)

theorem bft_ne_nil [DecidableEq α] (text : List α) (h : text ≠ []) :
    build_frequency_table text ≠ [] := by
  cases text with
  | nil => exact absurd rfl h
  | cons c t =>
      intro he
      have hm : c ∈ (build_frequency_table (c :: t)).map Prod.fst :=
        (bft_keys_mem (c :: t) c).mpr (by simp)
      rw [he] at hm
      simp at hm

theorem heapChars_leaves [DecidableEq α] (ft : List (α × Nat)) :
    heapChars (ft.map
      (fun p => HNode.node (some p.1) p.2 HNode.none HNode.none)) =
      ft.map Prod.fst := by
  induction ft with
  | nil => rfl
  | cons p ft ih =>
      rw [List.map_cons, heapChars_cons, ih]
      rfl

/-- `build_huffman_tree` on a nonempty table returns a `None`-charred
root carrying a permutation of the table's keys. -/
theorem build_spec [DecidableEq α] (ft : List (α × Nat)) (hne : ft ≠ []) :
    ∃ f l r, build_huffman_tree ft = some (.node Option.none f l r) ∧
      (charsH (.node Option.none f l r)).Perm (ft.map Prod.fst) := by
  obtain ⟨hhp, hhl⟩ := heapify_perm (ft.map
    (fun p => HNode.node (some p.1) p.2 HNode.none HNode.none))
  have hkeys : (heapChars (heapify (ft.map
      (fun p => HNode.node (some p.1) p.2 HNode.none HNode.none)))).Perm
      (ft.map Prod.fst) := by
    refine (heapChars_perm hhp).trans ?_
    rw [heapChars_leaves]
  have hftlen : 1 ≤ ft.length := by
    cases ft with
    | nil => exact absurd rfl hne
    | cons p t => simp
  have hlen : (heapify (ft.map
      (fun p => HNode.node (some p.1) p.2 HNode.none HNode.none))).length =
      ft.length := by
    rw [hhl]
    simp
  have hbe : build_huffman_tree ft =
      (if (heapify (ft.map
          (fun p => HNode.node (some p.1) p.2 HNode.none HNode.none))).length
          = 1 then
        match heappop (heapify (ft.map
          (fun p => HNode.node (some p.1) p.2 HNode.none HNode.none))) with
        | Option.none => Option.none
        | some (only, _) =>
            some (.node Option.none (hfreq only) only .none)
      else buildLoop (heapify (ft.map
          (fun p => HNode.node (some p.1) p.2 HNode.none HNode.none))).length
        (heapify (ft.map
          (fun p => HNode.node (some p.1) p.2 HNode.none HNode.none)))) :=
    rfl
  by_cases hone : (heapify (ft.map
      (fun p => HNode.node (some p.1) p.2 HNode.none HNode.none))).length = 1
  · rw [hbe, if_pos hone]
    obtain ⟨x, h2, hpop, hperm, hlen2⟩ := heappop_spec
      (heapify (ft.map
        (fun p => HNode.node (some p.1) p.2 HNode.none HNode.none)))
      (by intro he; rw [he] at hone; simp at hone)
    simp only [hpop]
    refine ⟨hfreq x, x, .none, rfl, ?_⟩
    have hcx : charsH (HNode.node Option.none (hfreq x) x HNode.none) =
        charsH x ++ [] := rfl
    rw [hcx, List.append_nil]
    refine List.Perm.trans ?_ hkeys
    refine List.Perm.trans ?_ (heapChars_perm hperm.symm)
    have h2nil : h2 = [] := by
      have h0 : h2.length = 0 := by omega
      exact List.length_eq_zero.mp h0
    rw [h2nil, heapChars_cons]
    have hz : heapChars ([] : List (HNode α)) = [] := rfl
    rw [hz, List.append_nil]
  · rw [hbe, if_neg hone]
    obtain ⟨f, l, r, heq, hp⟩ := buildLoop_spec
      (heapify (ft.map
        (fun p => HNode.node (some p.1) p.2 HNode.none HNode.none))).length
      (heapify (ft.map
        (fun p => HNode.node (some p.1) p.2 HNode.none HNode.none)))
      (by omega) (by omega)
    exact ⟨f, l, r, heq, hp.trans hkeys⟩

theorem entriesOf_fst :
    ∀ (n : HNode α) (code : List Bool),
      (entriesOf n code).map Prod.fst = charsH n := by
  intro n
  induction n with
  | none => intro code; rfl
  | node c f l r ihl ihr =>
      intro code
      cases c with
      | some a => rfl
      | none =>
          rw [show entriesOf (HNode.node Option.none f l r) code =
            entriesOf l (code ++ [false]) ++ entriesOf r (code ++ [true])
            from rfl]
          rw [List.map_append, ihl, ihr]
          rfl

theorem entriesOf_extends :
    ∀ (n : HNode α) (code : List Bool) (p : α × List Bool),
      p ∈ entriesOf n code → ∃ s, p.2 = code ++ s := by
  intro n
  induction n with
  | none => intro code p hp; simp [entriesOf] at hp
  | node c f l r ihl ihr =>
      intro code p hp
      cases c with
      | some a =>
          rw [show entriesOf (HNode.node (some a) f l r) code = [(a, code)]
            from rfl] at hp
          have hpe : p = (a, code) := by simpa using hp
          exact ⟨[], by rw [hpe]; simp⟩
      | none =>
          rw [show entriesOf (HNode.node Option.none f l r) code =
            entriesOf l (code ++ [false]) ++ entriesOf r (code ++ [true])
            from rfl] at hp
          rcases List.mem_append.mp hp with h | h
          · obtain ⟨s, hs⟩ := ihl _ p h
            exact ⟨false :: s, by rw [hs]; simp⟩
          · obtain ⟨s, hs⟩ := ihr _ p h
            exact ⟨true :: s, by rw [hs]; simp⟩

/-- Codes of distinct leaves never prefix one another: left codes extend
`code ++ [false]`, right codes `code ++ [true]`. -/
theorem entriesOf_prefixFree :
    ∀ (n : HNode α) (code : List Bool),
      (entriesOf n code).Pairwise
        (fun p q => ¬ PrefixOf p.2 q.2 ∧ ¬ PrefixOf q.2 p.2) := by
  intro n
  induction n with
  | none => intro code; simp [entriesOf]
  | node c f l r ihl ihr =>
      intro code
      cases c with
      | some a =>
          rw [show entriesOf (HNode.node (some a) f l r) code = [(a, code)]
            from rfl]
          simp
      | none =>
          rw [show entriesOf (HNode.node Option.none f l r) code =
            entriesOf l (code ++ [false]) ++ entriesOf r (code ++ [true])
            from rfl]
          rw [List.pairwise_append]
          refine ⟨ihl _, ihr _, ?_⟩
          intro p hp q hq
          obtain ⟨s1, hs1⟩ := entriesOf_extends l _ p hp
          obtain ⟨s2, hs2⟩ := entriesOf_extends r _ q hq
          constructor
          · rintro ⟨u, hu⟩
            rw [hs1, hs2] at hu
            rw [List.append_assoc, List.append_assoc, List.append_assoc]
              at hu
            have h2 := List.append_cancel_left hu
            rw [List.cons_append] at h2
            cases h2
          · rintro ⟨u, hu⟩
            rw [hs1, hs2] at hu
            rw [List.append_assoc, List.append_assoc, List.append_assoc]
              at hu
            have h2 := List.append_cancel_left hu
            rw [List.cons_append] at h2
            cases h2

theorem entriesOf_root_ne_nil (f : Nat) (l r : HNode α)
    (p : α × List Bool)
    (hp : p ∈ entriesOf (.node Option.none f l r) []) : p.2 ≠ [] := by
  rw [show entriesOf (HNode.node Option.none f l r) [] =
    entriesOf l [false] ++ entriesOf r [true] from rfl] at hp
  rcases List.mem_append.mp hp with h | h
  · obtain ⟨s, hs⟩ := entriesOf_extends l [false] p h
    rw [hs]
    simp
  · obtain ⟨s, hs⟩ := entriesOf_extends r [true] p h
    rw [hs]
    simp

theorem dictSet_append {κ β : Type} [DecidableEq κ] :
    ∀ (l : List (κ × β)) (k : κ) (v : β), k ∉ l.map Prod.fst →
      dictSet l k v = l ++ [(k, v)] := by
  intro l
  induction l with
  | nil => intro k v _; rfl
  | cons p l ih =>
      intro k v hk
      obtain ⟨a, b⟩ := p
      simp only [List.map_cons, List.mem_cons] at hk
      rw [dictSet, if_neg (fun he => hk (Or.inl he.symm)),
        ih k v (fun he => hk (Or.inr he))]
      rfl

/-- With distinct characters `_walk` only ever appends, so the codes dict
is exactly the in-order entry list. -/
theorem walkCodes_eq [DecidableEq α] :
    ∀ (n : HNode α) (code : List Bool) (acc : List (α × List Bool)),
      (charsH n).Nodup → (∀ c ∈ charsH n, c ∉ acc.map Prod.fst) →
      walkCodes n code acc = acc ++ entriesOf n code := by
  intro n
  induction n with
  | none => intro code acc _ _; simp [walkCodes, entriesOf]
  | node c f l r ihl ihr =>
      intro code acc hnd hn
      cases c with
      | some a =>
          rw [show walkCodes (HNode.node (some a) f l r) code acc =
            dictSet acc a code from rfl,
            dictSet_append acc a code (hn a (by
              rw [show charsH (HNode.node (some a) f l r) = [a] from rfl]
              simp))]
          rfl
      | none =>
          rw [show walkCodes (HNode.node Option.none f l r) code acc =
            walkCodes r (code ++ [true])
              (walkCodes l (code ++ [false]) acc) from rfl]
          have hchars : charsH (HNode.node Option.none f l r) =
              charsH l ++ charsH r := rfl
          rw [hchars] at hnd hn
          rw [List.nodup_append] at hnd
          rw [ihl _ acc hnd.1
            (fun c hc => hn c (List.mem_append.mpr (Or.inl hc)))]
          rw [ihr _ _ hnd.2.1 ?_]
          · rw [List.append_assoc]
            rfl
          · intro c hc
            rw [List.map_append, entriesOf_fst]
            intro hmem
            rcases List.mem_append.mp hmem with h | h
            · exact hn c (List.mem_append.mpr (Or.inr hc)) h
            · exact hnd.2.2 h hc

theorem lookupD_none_iff {κ β : Type} [DecidableEq κ] :
    ∀ (l : List (κ × β)) (k : κ),
      lookupD l k = Option.none ↔ k ∉ l.map Prod.fst := by
  intro l
  induction l with
  | nil => intro k; simp [lookupD]
  | cons p l ih =>
      intro k
      obtain ⟨a, b⟩ := p
      rw [lookupD]
      by_cases hk : k = a
      · rw [if_pos hk]
        simp [hk]
      · rw [if_neg hk, ih]
        simp [hk]

theorem lookupD_mem {κ β : Type} [DecidableEq κ] :
    ∀ (l : List (κ × β)) (k : κ), k ∈ l.map Prod.fst →
      ∃ v, lookupD l k = some v := by
  intro l
  induction l with
  | nil => intro k h; simp at h
  | cons p l ih =>
      intro k h
      obtain ⟨a, b⟩ := p
      rw [lookupD]
      by_cases hk : k = a
      · exact ⟨b, by rw [if_pos hk]⟩
      · rw [if_neg hk]
        refine ih k ?_
        simp at h
        rcases h with h | h
        · exact absurd h hk
        · simpa using h

theorem lookupD_some_mem {κ β : Type} [DecidableEq κ] :
    ∀ (l : List (κ × β)) (k : κ) (v : β),
      lookupD l k = some v → (k, v) ∈ l := by
  intro l
  induction l with
  | nil => intro k v h; simp [lookupD] at h
  | cons p l ih =>
      intro k v h
      obtain ⟨a, b⟩ := p
      rw [lookupD] at h
      by_cases hk : k = a
      · rw [if_pos hk] at h
        injection h with h
        subst hk
        subst h
        simp
      · rw [if_neg hk] at h
        exact List.mem_cons_of_mem _ (ih k v h)

/-- `rev = {code: ch for ch, code in codes.items()}` with distinct codes
is the swapped list. -/
theorem revFold_eq [DecidableEq α] :
    ∀ (codes : List (α × List Bool)) (acc : List (List Bool × α)),
      (∀ p ∈ codes, p.2 ∉ acc.map Prod.fst) →
      codes.Pairwise (fun p q => p.2 ≠ q.2) →
      codes.foldl (fun d p => dictSet d p.2 p.1) acc =
        acc ++ codes.map (fun p => (p.2, p.1)) := by
  intro codes
  induction codes with
  | nil => intro acc _ _; simp
  | cons p codes ih =>
      intro acc hk hpw
      rw [List.pairwise_cons] at hpw
      rw [List.foldl_cons, dictSet_append acc p.2 p.1 (hk p (by simp)),
        ih _ ?_ hpw.2]
      · simp
      · intro q hq
        rw [List.map_append]
        intro hmem
        rcases List.mem_append.mp hmem with h | h
        · exact hk q (by simp [hq]) h
        · have hq2 : q.2 = p.2 := by simpa using h
          exact hpw.1 q hq hq2.symm

theorem lookupD_rev [DecidableEq α] :
    ∀ (codes : List (α × List Bool)) (c : α) (b : List Bool),
      codes.Pairwise (fun p q => p.2 ≠ q.2) → (c, b) ∈ codes →
      lookupD (codes.map (fun p => (p.2, p.1))) b = some c := by
  intro codes
  induction codes with
  | nil => intro c b _ h; simp at h
  | cons q codes ih =>
      intro c b hpw hm
      rw [List.pairwise_cons] at hpw
      rw [List.map_cons, lookupD]
      rcases List.mem_cons.mp hm with h | h
      · subst h
        rw [if_pos rfl]
      · rw [if_neg ?_]
        · exact ih c b hpw.2 h
        · intro he
          exact hpw.1 (c, b) h (by rw [he])

/-- Scanning exactly one nonempty code whose proper prefixes are not in
the dict emits its character and resets `curr`. -/
theorem greedy_code [DecidableEq α] (rev : List (List Bool × α)) (c : α)
    (b : List Bool) (hfind : lookupD rev b = some c)
    (hpre : ∀ pre, PrefixOf pre b → pre ≠ b →
      lookupD rev pre = Option.none) :
    ∀ (todo done rest : List Bool) (res : List α),
      done ++ todo = b → todo ≠ [] →
      greedy rev (todo ++ rest) done res =
        greedy rev rest [] (res ++ [c]) := by
  intro todo
  induction todo with
  | nil => intro done rest res h ht; exact absurd rfl ht
  | cons bit todo ih =>
      intro done rest res h _
      rw [show (bit :: todo) ++ rest = bit :: (todo ++ rest) from rfl]
      rw [greedy]
      cases todo with
      | nil =>
          have hdb : done ++ [bit] = b := by simpa using h
          rw [hdb, hfind]
          rfl
      | cons bit2 todo2 =>
          have hp : PrefixOf (done ++ [bit]) b :=
            ⟨bit2 :: todo2, by rw [← h]; simp⟩
          have hne2 : done ++ [bit] ≠ b := by
            intro he
            rw [← he] at h
            have hlen := congrArg List.length h
            simp at hlen
          rw [hpre _ hp hne2]
          exact ih (done ++ [bit]) rest res (by rw [← h]; simp) (by simp)

/-- Greedy decoding of a concatenation of prefix-free codes recovers the
character sequence. -/
theorem greedy_decode [DecidableEq α] (codes : List (α × List Bool))
    (hcd : codes.Pairwise (fun p q => p.2 ≠ q.2))
    (hne : ∀ p ∈ codes, p.2 ≠ [])
    (hpf : codes.Pairwise
      (fun p q => ¬ PrefixOf p.2 q.2 ∧ ¬ PrefixOf q.2 p.2)) :
    ∀ (text : List α) (bits : List Bool) (res : List α),
      encodeBits codes text = some bits →
      greedy (codes.map (fun p => (p.2, p.1))) bits [] res = res ++ text := by
  intro text
  induction text with
  | nil =>
      intro bits res h
      rw [encodeBits] at h
      injection h with h
      rw [← h, greedy]
      simp
  | cons c t ih =>
      intro bits res h
      rw [encodeBits] at h
      cases hb : lookupD codes c with
      | none => rw [hb] at h; simp at h
      | some b =>
          cases hbs : encodeBits codes t with
          | none => rw [hb, hbs] at h; simp at h
          | some bs =>
              rw [hb, hbs] at h
              injection h with h
              subst h
              have hcb : (c, b) ∈ codes := lookupD_some_mem codes c b hb
              have hb0 : b ≠ [] := hne (c, b) hcb
              have hfind : lookupD (codes.map (fun p => (p.2, p.1))) b =
                  some c := lookupD_rev codes c b hcd hcb
              have hsym : Symmetric (fun (p q : α × List Bool) =>
                  ¬ PrefixOf p.2 q.2 ∧ ¬ PrefixOf q.2 p.2) :=
                fun p q hpq => ⟨hpq.2, hpq.1⟩
              have hprenone : ∀ pre, PrefixOf pre b → pre ≠ b →
                  lookupD (codes.map (fun p => (p.2, p.1))) pre =
                    Option.none := by
                intro pre hp hne2
                rw [lookupD_none_iff]
                intro hmem
                rw [List.map_map] at hmem
                obtain ⟨q, hq, hqe⟩ := List.mem_map.mp hmem
                by_cases hqc : q = (c, b)
                · rw [hqc] at hqe
                  refine hne2 ?_
                  rw [← hqe]
                  rfl
                · have hr := List.Pairwise.forall hsym hpf hq hcb hqc
                  apply hr.1
                  rw [show q.2 = pre from hqe]
                  exact hp
              rw [greedy_code _ c b hfind hprenone b [] bs res
                (by simp) hb0]
              rw [ih bs (res ++ [c]) hbs]
              simp

theorem encodeBits_some [DecidableEq α] (codes : List (α × List Bool)) :
    ∀ text : List α, (∀ c ∈ text, ∃ b, lookupD codes c = some b) →
      ∃ bits, encodeBits codes text = some bits := by
  intro text
  induction text with
  | nil => intro _; exact ⟨[], rfl⟩
  | cons c t ih =>
      intro h
      obtain ⟨b, hb⟩ := h c (by simp)
      obtain ⟨bs, hbs⟩ := ih (fun x hx => h x (by simp [hx]))
      refine ⟨b ++ bs, ?_⟩
      rw [encodeBits, hb, hbs]

theorem byteToBits_bitsToByte :
    ∀ (a b c d e f g h : Bool),
      byteToBits (bitsToByte [a, b, c, d, e, f, g, h]) =
        [a, b, c, d, e, f, g, h] := by decide

theorem bytesOf_ne_nil_eq (bits : List Bool) (h : bits ≠ []) :
    bytesOf bits = bitsToByte (bits.take 8) :: bytesOf (bits.drop 8) := by
  rw [bytesOf]
  rw [if_neg (by simp [h])]

/-- Packing whole bytes and re-expanding them is the identity on bit
strings of length a multiple of 8. -/
theorem bytes_roundtrip :
    ∀ (n : Nat) (bits : List Bool), bits.length = 8 * n →
      ((bytesOf bits).map byteToBits).flatten = bits := by
  intro n
  induction n with
  | zero =>
      intro bits h
      have hb : bits = [] := List.eq_nil_of_length_eq_zero (by omega)
      rw [hb]
      rw [show bytesOf ([] : List Bool) = [] from by rw [bytesOf]; rfl]
      rfl
  | succ n ih =>
      intro bits h
      match bits, h with
      | b0 :: b1 :: b2 :: b3 :: b4 :: b5 :: b6 :: b7 :: rest, h =>
          rw [bytesOf_ne_nil_eq _ (by simp)]
          rw [show (b0 :: b1 :: b2 :: b3 :: b4 :: b5 :: b6 :: b7 ::
            rest).take 8 = [b0, b1, b2, b3, b4, b5, b6, b7] from rfl]
          rw [show (b0 :: b1 :: b2 :: b3 :: b4 :: b5 :: b6 :: b7 ::
            rest).drop 8 = rest from rfl]
          rw [List.map_cons, List.flatten_cons, byteToBits_bitsToByte]
          rw [ih rest (by simp at h; omega)]
          rfl

theorem decompress_eq [DecidableEq α] (data : List Nat)
    (codes : List (α × List Bool)) (padding : Nat) :
    decompress data codes padding =
      greedy (codes.foldl (fun d p => dictSet d p.2 p.1) [])
        (if padding ≠ 0 then
          ((data.map byteToBits).flatten).take
            (((data.map byteToBits).flatten).length - padding)
        else (data.map byteToBits).flatten) [] [] := rfl

theorem compress_nil [DecidableEq α] :
    compress ([] : List α) = Option.none := by
  have h1 : build_frequency_table ([] : List α) = [] := rfl
  have h2 : build_huffman_tree ([] : List (α × Nat)) = Option.none := by
    rw [build_huffman_tree]
    rw [show (List.map (fun p : α × Nat =>
      HNode.node (some p.1) p.2 HNode.none HNode.none) []) =
      ([] : List (HNode α)) from rfl]
    rw [show heapify ([] : List (HNode α)) =
      heapifyGo ([] : List (HNode α)) (([] : List (HNode α)).length / 2)
      from rfl]
    rw [show ([] : List (HNode α)).length / 2 = 0 from by simp]
    rw [heapifyGo]
    rfl
  rw [compress, h1, h2]

/-- The Huffman codec round-trips on every nonempty text. -/
theorem compress_decompress [DecidableEq α] (text : List α)
    (hne : text ≠ []) :
    ∃ data codes padding, compress text = some (data, codes, padding) ∧
      decompress data codes padding = text := by
  obtain ⟨f, l, r, hbuild, hperm⟩ :=
    build_spec (build_frequency_table text) (bft_ne_nil text hne)
  have hnd : (charsH (HNode.node Option.none f l r)).Nodup :=
    (hperm.nodup_iff).mpr (bft_keys_nodup text)
  have hcodes : generate_codes (HNode.node Option.none f l r) =
      entriesOf (HNode.node Option.none f l r) [] := by
    rw [generate_codes, walkCodes_eq _ [] [] hnd (by simp)]
    rfl
  have hkeymem : ∀ c ∈ text,
      c ∈ (entriesOf (HNode.node Option.none f l r) []).map Prod.fst := by
    intro c hc
    rw [entriesOf_fst]
    exact (hperm.mem_iff).mpr ((bft_keys_mem text c).mpr hc)
  obtain ⟨encoded, henc⟩ := encodeBits_some
    (entriesOf (HNode.node Option.none f l r) []) text
    (fun c hc => lookupD_mem _ c (hkeymem c hc))
  have hcomp : compress text = some
      (bytesOf (encoded ++ List.replicate
        ((8 - encoded.length % 8) % 8) false),
       entriesOf (HNode.node Option.none f l r) [],
       (8 - encoded.length % 8) % 8) := by
    rw [compress, hbuild]
    simp only [hcodes, henc]
  refine ⟨_, _, _, hcomp, ?_⟩
  have hpf := entriesOf_prefixFree (HNode.node Option.none f l r) []
  have hcd : (entriesOf (HNode.node Option.none f l r) []).Pairwise
      (fun p q => p.2 ≠ q.2) := by
    refine hpf.imp ?_
    intro p q hpq heq
    exact hpq.1 ⟨[], by rw [List.append_nil, heq]⟩
  have hne0 : ∀ p ∈ entriesOf (HNode.node Option.none f l r) [],
      p.2 ≠ [] :=
    fun p hp => entriesOf_root_ne_nil f l r p hp
  have hrev : (entriesOf (HNode.node Option.none f l r) []).foldl
      (fun d p => dictSet d p.2 p.1) [] =
      (entriesOf (HNode.node Option.none f l r) []).map
        (fun p => (p.2, p.1)) := by
    rw [revFold_eq _ [] (by simp) hcd]
    simp
  have hlen8 : (encoded ++ List.replicate ((8 - encoded.length % 8) % 8)
      false).length =
      8 * ((encoded.length + (8 - encoded.length % 8) % 8) / 8) := by
    rw [List.length_append, List.length_replicate]
    omega
  have hbits : ((bytesOf (encoded ++ List.replicate
      ((8 - encoded.length % 8) % 8) false)).map byteToBits).flatten =
      encoded ++ List.replicate ((8 - encoded.length % 8) % 8) false :=
    bytes_roundtrip _ _ hlen8
  rw [decompress_eq, hrev, hbits]
  have hdecoded := greedy_decode _ hcd hne0 hpf text encoded [] henc
  by_cases hp0 : (8 - encoded.length % 8) % 8 = 0
  · rw [if_neg (by omega)]
    rw [hp0, List.replicate_zero, List.append_nil]
    simpa using hdecoded
  · rw [if_pos hp0]
    have htake : (encoded ++ List.replicate ((8 - encoded.length % 8) % 8)
        false).take
        ((encoded ++ List.replicate ((8 - encoded.length % 8) % 8)
          false).length - (8 - encoded.length % 8) % 8) = encoded := by
      rw [List.length_append, List.length_replicate]
      rw [show encoded.length + (8 - encoded.length % 8) % 8 -
        (8 - encoded.length % 8) % 8 = encoded.length from by omega]
      exact List.take_left _ _
    rw [htake]
    simpa using hdecoded

end Huffman

/-! ## Concrete order-4 scenario computations -/

namespace BPTree

theorem ofOps4_after_three :
    (BPTree.ofOps 4 [(1,1),(2,2),(3,3)] : BPT Nat Nat) =
      BPT.leaf [1,2,3] [1,2,3] := by
  simp [BPTree.ofOps, BPTree.insert, findLeafPath, scanPos, pyInsert, fillB]

theorem ofOps4_after_four :
    (BPTree.ofOps 4 [(1,1),(2,2),(3,3),(4,4)] : BPT Nat Nat) =
      BPT.internal [3] [BPT.leaf [1, 2] [1, 2], BPT.leaf [3, 4] [3, 4]] := by
  simp [BPTree.ofOps, BPTree.insert, findLeafPath, scanPos, pyInsert, fillB,
    splitLeafGo, childIdx, childIdxAux]

theorem findLeaf_after_four :
    findLeafPath (BPT.internal [3] [BPT.leaf [1,2] [1,2],
      BPT.leaf [3,4] [3,4]] : BPT Nat Nat) 5 [] =
      some ([3,4], [3,4],
        [⟨[3], [BPT.leaf [1,2] [1,2], BPT.leaf [3,4] [3,4]], 1⟩]) := by
  rw [findLeafPath]
  show findLeafPath (BPT.leaf [3,4] [3,4] : BPT Nat Nat) 5
    [⟨[3], [BPT.leaf [1,2] [1,2], BPT.leaf [3,4] [3,4]],
      childIdx 5 [3] 2⟩] = _
  rw [findLeafPath]
  rfl

theorem ofOps4_after_five :
    (BPTree.ofOps 4 [(1,1),(2,2),(3,3),(4,4),(5,5)] : BPT Nat Nat) =
      BPT.internal [3] [BPT.leaf [1, 2] [1, 2],
        BPT.leaf [3, 4, 5] [3, 4, 5]] := by
  have h1 : (BPTree.ofOps 4 [(1,1),(2,2),(3,3),(4,4),(5,5)] : BPT Nat Nat) =
      BPTree.insert 4 (BPTree.ofOps 4 [(1,1),(2,2),(3,3),(4,4)]) 5 5 := rfl
  rw [h1, ofOps4_after_four, BPTree.insert, findLeaf_after_four]
  rfl

end BPTree

/-! ## The claims -/

/-- C1: for any finite sequence of `insert(key, value)` calls (keys may
repeat) and every key inserted at least once, `search(key)` afterwards
returns the value of the most recent insert of that key, on both the
`RedBlackTree` and the `BPlusTree` index. -/
theorem C1_search_most_recent {K V : Type} [LinearOrder K] [Inhabited K]
    {ord : Nat} (hord : 3 ≤ ord) (ops : List (K × V)) (key : K)
    (hkey : key ∈ ops.map Prod.fst) :
    (mostRecent ops key).isSome = true ∧
    RBT.search (RBT.ofOps ops) key = mostRecent ops key ∧
    BPTree.search (BPTree.ofOps ord ops : BPT K V) key =
      mostRecent ops key :=
  ⟨mostRecent_isSome key ops hkey, RBT.search_ofOps ops key,
    BPTree.search_ofOps_bpt hord ops key⟩

theorem C1_witness :
    ((3 ≤ 4 ∧
      1 ∈ ([(1,10),(2,20),(1,30)] : List (Nat × Nat)).map Prod.fst) ∧
     ((mostRecent ([(1,10),(2,20),(1,30)] : List (Nat × Nat)) 1).isSome
        = true ∧
      RBT.search (RBT.ofOps [(1,10),(2,20),(1,30)]) 1 =
        mostRecent ([(1,10),(2,20),(1,30)] : List (Nat × Nat)) 1 ∧
      BPTree.search (BPTree.ofOps 4 [(1,10),(2,20),(1,30)] : BPT Nat Nat) 1
        = mostRecent ([(1,10),(2,20),(1,30)] : List (Nat × Nat)) 1)) :=
  ⟨⟨by decide, by decide⟩,
   C1_search_most_recent (by decide) [(1,10),(2,20),(1,30)] 1 (by decide)⟩

/-- C2: after every sequence of inserts into a fresh `RedBlackTree` the
red-black invariants hold: the root is black, no red node has a red
parent, and each downward path from the root to the `NULL_LEAF` marker
passes through the same number of black nodes. -/
theorem C2_rb_invariants {K V : Type} [LinearOrder K] (ops : List (K × V)) :
    RBT.isBlackRoot (RBT.ofOps ops) = true ∧
    RBT.redOK .black (RBT.ofOps ops) = true ∧
    (RBT.blackCounts (RBT.ofOps ops)).all
      (fun m => m == (RBT.blackCounts (RBT.ofOps ops)).headD 0) = true := by
  obtain ⟨h1, h2, h3⟩ := RBT.ofOps_RBInv ops
  refine ⟨h1, h2, ?_⟩
  obtain ⟨n, hn⟩ := Option.isSome_iff_exists.mp h3
  rw [List.all_eq_true]
  intro m hm
  have hme := RBT.bh_blackCounts _ n hn m hm
  have hh : (RBT.blackCounts (RBT.ofOps ops)).headD 0 = n := by
    cases hbc : RBT.blackCounts (RBT.ofOps ops : RBTree K V) with
    | nil => exact absurd hbc (RBT.blackCounts_ne_nil _)
    | cons a l =>
        have ha : a = n := RBT.bh_blackCounts _ n hn a (by rw [hbc]; simp)
        simp [ha]
  rw [hme, hh]
  simp

/-- C3: leaf split geometry, corrected: the split point the code computes
is `mid = (order + 1) // 2` (integer division, i.e. the floor, not the
ceiling the spec states; they differ at every even order).  The original
leaf retains positions `[0, mid)`, the new leaf takes `[mid, end)` and
sits immediately after it in the leaf chain, and the new leaf's first key
is copied (it stays in the new leaf) into the parent as the separator. -/
theorem C3_leaf_split {K V : Type} [LinearOrder K] [Inhabited K]
    {ord : Nat} (hord : 3 ≤ ord) (ks : List K) (vs : List V)
    (path : List (BCtx K V)) (lo hi : Option K)
    (hpath : BPTree.PathOk ord path lo hi) (hkl : ks.length = ord)
    (hlen : ks.length = vs.length)
    (hpw : List.Pairwise (fun a b => a < b) ks)
    (hin : ∀ k ∈ ks, BPTree.inB lo hi k) :
    BPTree.leaves (BPTree.splitLeafGo ord ks vs path) =
      BPTree.ctxLeavesL path ++
        [(ks.take ((ord+1)/2), vs.take ((ord+1)/2)),
         (ks.drop ((ord+1)/2), vs.drop ((ord+1)/2))] ++
        BPTree.ctxLeavesR path ∧
    (ks.drop ((ord+1)/2)).headD default = ks.getD ((ord+1)/2) default ∧
    BPTree.splitLeafGo ord ks vs [] =
      .internal [(ks.drop ((ord+1)/2)).headD default]
        [.leaf (ks.take ((ord+1)/2)) (vs.take ((ord+1)/2)),
         .leaf (ks.drop ((ord+1)/2)) (vs.drop ((ord+1)/2))] := by
  refine ⟨(BPTree.splitLeafGo_ok hord ks vs path lo hi hpath hkl hlen hpw
    hin).2, ?_, rfl⟩
  have hmid : (ord+1)/2 < ks.length := by omega
  rw [List.drop_eq_getElem_cons hmid, List.getD_eq_getElem?_getD,
    List.getElem?_eq_getElem hmid]
  rfl

theorem C3_witness :
    ((3 ≤ 4 ∧ BPTree.PathOk 4 ([] : List (BCtx Nat Nat)) none none ∧
      ([1,2,3,4] : List Nat).length = 4 ∧
      ([1,2,3,4] : List Nat).length = ([5,6,7,8] : List Nat).length ∧
      List.Pairwise (fun a b => a < b) ([1,2,3,4] : List Nat) ∧
      (∀ k ∈ ([1,2,3,4] : List Nat),
        BPTree.inB (none : Option Nat) none k)) ∧
     (BPTree.leaves (BPTree.splitLeafGo 4 [1,2,3,4] [5,6,7,8]
        ([] : List (BCtx Nat Nat))) =
        BPTree.ctxLeavesL ([] : List (BCtx Nat Nat)) ++
          [(([1,2,3,4] : List Nat).take ((4+1)/2),
            ([5,6,7,8] : List Nat).take ((4+1)/2)),
           (([1,2,3,4] : List Nat).drop ((4+1)/2),
            ([5,6,7,8] : List Nat).drop ((4+1)/2))] ++
          BPTree.ctxLeavesR ([] : List (BCtx Nat Nat)) ∧
      (([1,2,3,4] : List Nat).drop ((4+1)/2)).headD default =
        ([1,2,3,4] : List Nat).getD ((4+1)/2) default ∧
      BPTree.splitLeafGo 4 [1,2,3,4] [5,6,7,8]
          ([] : List (BCtx Nat Nat)) =
        .internal [(([1,2,3,4] : List Nat).drop ((4+1)/2)).headD default]
          [.leaf (([1,2,3,4] : List Nat).take ((4+1)/2))
            (([5,6,7,8] : List Nat).take ((4+1)/2)),
           .leaf (([1,2,3,4] : List Nat).drop ((4+1)/2))
            (([5,6,7,8] : List Nat).drop ((4+1)/2))])) :=
  ⟨⟨by decide, ⟨rfl, rfl⟩, by decide, by decide, by decide,
    by intro k hk
       exact ⟨by intro a ha; simp at ha, by intro b hb; simp at hb⟩⟩,
   C3_leaf_split (by decide) [1,2,3,4] [5,6,7,8] [] none none ⟨rfl, rfl⟩
     (by decide) (by decide) (by decide)
     (by intro k hk
         exact ⟨by intro a ha; simp at ha, by intro b hb; simp at hb⟩)⟩

/-- C3 as written is false at order 4: the code's split of a 4-key leaf
keeps 2 keys on the left (`mid = (4+1)//2 = 2`), while the claimed
`mid = ceil((4+1)/2) = (4+2)/2 = 3` would keep 3. -/
theorem C3_counterexample :
    BPTree.splitLeafGo 4 [1,2,3,4] [5,6,7,8] ([] : List (BCtx Nat Nat)) =
      .internal [3] [.leaf [1,2] [5,6], .leaf [3,4] [7,8]] ∧
    ((4:Nat)+2)/2 = 3 ∧
    ([1,2] : List Nat) ≠ [1,2,3,4].take 3 :=
  ⟨rfl, rfl, by decide⟩

/-- C4: after any insert history the `BPlusTree`'s `list_all()` is
strictly ascending with no duplicates, associates each distinct inserted
key with its most recent value, and equals the `RedBlackTree`'s in-order
entry sequence for the same history. -/
theorem C4_list_all {K V : Type} [LinearOrder K] [Inhabited K] {ord : Nat}
    (hord : 3 ≤ ord) (ops : List (K × V)) :
    sortedE (BPTree.list_all (BPTree.ofOps ord ops : BPT K V)) ∧
    BPTree.list_all (BPTree.ofOps ord ops : BPT K V) =
      RBT.inorder (RBT.ofOps ops) ∧
    ∀ key, lookupA (BPTree.list_all (BPTree.ofOps ord ops : BPT K V)) key =
      mostRecent ops key := by
  obtain ⟨hwf, he⟩ := BPTree.ofOps_ok hord ops
  refine ⟨?_, ?_, ?_⟩
  · rw [he]
    exact sortedE_upsertFold ops
  · rw [he, RBT.inorder_ofOps]
  · intro key
    rw [he, lookupA_upsertFold]

theorem C4_witness :
    ((3 ≤ 4 : Prop) ∧
     (sortedE (BPTree.list_all
        (BPTree.ofOps 4 [(2,5),(1,6)] : BPT Nat Nat)) ∧
      BPTree.list_all (BPTree.ofOps 4 [(2,5),(1,6)] : BPT Nat Nat) =
        RBT.inorder (RBT.ofOps [(2,5),(1,6)]) ∧
      ∀ key, lookupA (BPTree.list_all
          (BPTree.ofOps 4 [(2,5),(1,6)] : BPT Nat Nat)) key =
        mostRecent ([(2,5),(1,6)] : List (Nat × Nat)) key)) :=
  ⟨by decide, C4_list_all (by decide) [(2,5),(1,6)]⟩

/-- C5: after every sequence of inserts into a fresh `BPlusTree(order)`
with `order ≥ 3`, the occupancy bounds hold: every leaf except possibly a
not-yet-split root leaf holds `1 .. order-1` keys, every non-root
internal node holds `ceil(order/2)-1 .. order-1` keys, and every internal
node has exactly one more child than keys. -/
theorem C5_occupancy {K V : Type} [LinearOrder K] [Inhabited K] {ord : Nat}
    (hord : 3 ≤ ord) (ops : List (K × V)) :
    BPTree.occOK ord true (BPTree.ofOps ord ops : BPT K V) = true :=
  BPTree.WF_occOK (BPTree.ofOps_ok hord ops).1

theorem C5_witness :
    ((3 ≤ 4 : Prop) ∧
     BPTree.occOK 4 true
       (BPTree.ofOps 4 [(1,2),(3,4),(5,6)] : BPT Nat Nat) = true) :=
  ⟨by decide, C5_occupancy (by decide) [(1,2),(3,4),(5,6)]⟩

/-- C6: when an internal node overflows the split uses
`mid = len(keys) // 2`: the key at `mid` is removed and pulled up as the
new separator, the left node keeps keys `[0, mid)` with children
`[0, mid]`, the right node takes the remaining keys and children; and
over a whole `insert` at most one new root is created. -/
theorem C6_internal_split {K V : Type} [LinearOrder K] [Inhabited K]
    (ord : Nat) :
    (∀ (ks : List K) (cs : List (BPT K V)),
      BPTree.splitInternalGo ord ks cs [] =
        .internal [ks.getD (ks.length / 2) default]
          [.internal (ks.take (ks.length / 2))
            (cs.take (ks.length / 2 + 1)),
           .internal (ks.drop (ks.length / 2 + 1))
             (cs.drop (ks.length / 2 + 1))]) ∧
    (∀ (t : BPT K V) (key : K) (v : V),
      (BPTree.insertCnt ord t key v).1 = BPTree.insert ord t key v ∧
      (BPTree.insertCnt ord t key v).2 ≤ 1) :=
  ⟨fun ks cs => BPTree.splitInternalGo_nil_eq ord ks cs,
   fun t key v => BPTree.insertCnt_spec ord t key v⟩

/-- C7: the order-4 scenario, corrected: inserting keys 1..5 in order
splits the root leaf exactly once, but the split happens on inserting the
fourth key (4, the claim's "D"), not the fifth; afterwards `list_all`
returns the five pairs in order and every root-to-leaf path has length
2. -/
theorem C7_order4_scenario :
    BPTree.nodeCountB (BPTree.ofOps 4 [(1,1),(2,2),(3,3)] : BPT Nat Nat)
      = 1 ∧
    BPTree.isLeafNode (BPTree.ofOps 4 [(1,1),(2,2),(3,3)] : BPT Nat Nat)
      = true ∧
    BPTree.nodeCountB
      (BPTree.ofOps 4 [(1,1),(2,2),(3,3),(4,4)] : BPT Nat Nat) = 3 ∧
    BPTree.nodeCountB
      (BPTree.ofOps 4 [(1,1),(2,2),(3,3),(4,4),(5,5)] : BPT Nat Nat) = 3 ∧
    BPTree.list_all
      (BPTree.ofOps 4 [(1,1),(2,2),(3,3),(4,4),(5,5)] : BPT Nat Nat) =
      [(1,1),(2,2),(3,3),(4,4),(5,5)] ∧
    BPTree.leafDepths
      (BPTree.ofOps 4 [(1,1),(2,2),(3,3),(4,4),(5,5)] : BPT Nat Nat) =
      [2,2] := by
  rw [BPTree.ofOps4_after_three, BPTree.ofOps4_after_four,
    BPTree.ofOps4_after_five]
  refine ⟨?_, rfl, ?_, ?_, ?_, ?_⟩ <;>
    simp [BPTree.nodeCountB, BPTree.list_all, BPTree.leaves,
      BPTree.leafDepths]

/-- C7 as written is false: after inserting only the first four keys the
root is already an internal node, so the split did not wait for the fifth
key. -/
theorem C7_counterexample :
    BPTree.isLeafNode
      (BPTree.ofOps 4 [(1,1),(2,2),(3,3),(4,4)] : BPT Nat Nat) = false := by
  rw [BPTree.ofOps4_after_four]
  rfl

/-- C8: inserting a key that is already present overwrites the stored
value in place on both indexes: the `RedBlackTree` insert equals a pure
value overwrite, node counts and entry counts are unchanged, and
repeating the identical insert leaves either index unchanged. -/
theorem C8_present_key_overwrite {K V : Type} [LinearOrder K] [Inhabited K]
    {ord : Nat} (t : RBTree K V) (tb : BPT K V) (key : K) (v w w2 : V)
    (hr : RBT.search t key = some w)
    (hwf : BPTree.WF ord true none none tb)
    (hb : BPTree.search tb key = some w2) :
    RBT.insert t key v = RBT.setVal t key v ∧
    RBT.nodeCount (RBT.insert t key v) = RBT.nodeCount t ∧
    (RBT.inorder (RBT.insert t key v)).length =
      (RBT.inorder t).length ∧
    RBT.insert (RBT.insert t key v) key v = RBT.insert t key v ∧
    BPTree.nodeCountB (BPTree.insert ord tb key v) =
      BPTree.nodeCountB tb ∧
    (BPTree.list_all (BPTree.insert ord tb key v)).length =
      (BPTree.list_all tb).length ∧
    BPTree.insert ord (BPTree.insert ord tb key v) key v =
      BPTree.insert ord tb key v := by
  have hrne : RBT.search t key ≠ none := by
    rw [hr]
    exact Option.some_ne_none w
  have hbne : BPTree.search tb key ≠ none := by
    rw [hb]
    exact Option.some_ne_none w2
  obtain ⟨b1, b2, b3⟩ := BPTree.insert_present tb key v hwf hbne
  refine ⟨RBT.insert_eq_setVal t key v hrne, ?_, ?_,
    RBT.insert_idem t key v hrne, b1, b2, b3⟩
  · rw [RBT.insert_eq_setVal t key v hrne]
    exact RBT.nodeCount_setVal key v t
  · rw [RBT.insert_eq_setVal t key v hrne]
    exact RBT.inorder_setVal_length key v t

theorem C8_witness :
    ((RBT.search (RBTree.node .black 1 10 .nil .nil : RBTree Nat Nat) 1 =
        some 10 ∧
      BPTree.WF 4 true none none (BPT.leaf [1,2] [10,20] : BPT Nat Nat) ∧
      BPTree.search (BPT.leaf [1,2] [10,20] : BPT Nat Nat) 1 = some 10) ∧
     (RBT.insert (RBTree.node .black 1 10 .nil .nil : RBTree Nat Nat) 1 7 =
        RBT.setVal (RBTree.node .black 1 10 .nil .nil) 1 7 ∧
      RBT.nodeCount (RBT.insert
        (RBTree.node .black 1 10 .nil .nil : RBTree Nat Nat) 1 7) =
        RBT.nodeCount (RBTree.node .black 1 10 .nil .nil : RBTree Nat Nat) ∧
      (RBT.inorder (RBT.insert
        (RBTree.node .black 1 10 .nil .nil : RBTree Nat Nat) 1 7)).length =
        (RBT.inorder
          (RBTree.node .black 1 10 .nil .nil : RBTree Nat Nat)).length ∧
      RBT.insert (RBT.insert
        (RBTree.node .black 1 10 .nil .nil : RBTree Nat Nat) 1 7) 1 7 =
        RBT.insert (RBTree.node .black 1 10 .nil .nil : RBTree Nat Nat) 1 7 ∧
      BPTree.nodeCountB (BPTree.insert 4
        (BPT.leaf [1,2] [10,20] : BPT Nat Nat) 1 7) =
        BPTree.nodeCountB (BPT.leaf [1,2] [10,20] : BPT Nat Nat) ∧
      (BPTree.list_all (BPTree.insert 4
        (BPT.leaf [1,2] [10,20] : BPT Nat Nat) 1 7)).length =
        (BPTree.list_all (BPT.leaf [1,2] [10,20] : BPT Nat Nat)).length ∧
      BPTree.insert 4 (BPTree.insert 4
        (BPT.leaf [1,2] [10,20] : BPT Nat Nat) 1 7) 1 7 =
        BPTree.insert 4 (BPT.leaf [1,2] [10,20] : BPT Nat Nat) 1 7)) :=
  ⟨⟨by decide,
    BPTree.WF.leaf true none none [1,2] [10,20] (by decide) rfl
      (by intro k hk
          exact ⟨by intro a ha; simp at ha, by intro b hb; simp at hb⟩)
      (by decide) (fun _ => by decide),
    by rw [BPTree.search, show BPTree.findLeafPath
        (BPT.leaf [1,2] [10,20] : BPT Nat Nat) 1 [] =
        some ([1,2],[10,20],[]) from by rw [BPTree.findLeafPath]]; rfl⟩,
   C8_present_key_overwrite (RBTree.node .black 1 10 .nil .nil)
     (BPT.leaf [1,2] [10,20]) 1 7 10 10 (by decide)
     (BPTree.WF.leaf true none none [1,2] [10,20] (by decide) rfl
       (by intro k hk
           exact ⟨by intro a ha; simp at ha, by intro b hb; simp at hb⟩)
       (by decide) (fun _ => by decide))
     (by rw [BPTree.search, show BPTree.findLeafPath
        (BPT.leaf [1,2] [10,20] : BPT Nat Nat) 1 [] =
        some ([1,2],[10,20],[]) from by rw [BPTree.findLeafPath]]; rfl)⟩

/-- C10: the Huffman codec round-trips: decompressing the output of
`compress` recovers every nonempty text (including texts with a single
distinct character), while `compress` on the empty text does not return
normally (building the tree from an empty frequency table fails). -/
theorem C10_huffman_roundtrip {α : Type} [DecidableEq α] (text : List α) :
    (text ≠ [] → ∃ data codes padding,
      Huffman.compress text = some (data, codes, padding) ∧
      Huffman.decompress data codes padding = text) ∧
    (text = [] → Huffman.compress text = Option.none) := by
  constructor
  · exact Huffman.compress_decompress text
  · intro h
    rw [h]
    exact Huffman.compress_nil

end FileIndex
